import Mathlib

/-!
# robdns, `src/main-conf.c`: zone-file discovery and ingestion

A shallow embedding of the path list (`core->zonefiles`), the directory scanner
(`directory_to_zonefile_list`), the chunk partitioner and pool sizer of
`conf_zonefiles_parse`, the worker `conf_zonefiles_parse_thread`, and the text
helpers of the configuration reader (`parseInt`, `parseTime`, `EQUALS`,
`ARRAY`, `trim`, `parse_mac_address`, `ends_with`).

Conventions of the embedding
* A byte is a `Nat`; a C string is the `List Nat` of its bytes before the NUL.
* The heap block `zonefiles.names` is a total map from offsets to bytes.  The
  block holds `max + 2` bytes (`malloc(max + 2)`, `realloc(.., max + 2)`);
  bytes that were never written keep whatever the map held, which models the
  indeterminate contents of fresh heap memory.  Every read the code performs
  is checked against the size of the block: a read outside it is undefined
  behaviour in C and makes the embedded function return `none`.
* `size_t` and `uint64_t` are `Nat`: no quantity of this file can reach `2^64`
  on a machine whose memory holds the path list.
-/

namespace RobDns

/-! ## Data model -/

/-- The enum of `success-failure.h`. -/
inductive SuccessFailure
  | Success
  | Failure
  deriving DecidableEq, Repr

/-- The member `zonefiles` of `struct Core`: the packed list of path names. -/
structure ZoneFiles where
  /-- contents of the heap block `names`, offset by offset -/
  names : Nat → Nat
  /-- bytes in use, terminators included -/
  length : Nat
  /-- capacity; the block holds `max + 2` bytes -/
  max : Nat
  /-- number of names in the list -/
  total_files : Nat
  /-- bytes handed to the parser so far -/
  total_bytes : Nat

/-- Number of bytes of the heap block `names`. -/
def ZoneFiles.alloc (z : ZoneFiles) : Nat := z.max + 2

/-- The bytes of `".zone"`. -/
def dot_zone : List Nat := [46, 122, 111, 110, 101]

/-- The byte `'/'`. -/
def slash : Nat := 47

/-- The byte `'\\'`. -/
def backslash : Nat := 92

/-! ## Memory primitives -/

/-- Effect of `memcpy(names + dst, src, src.length)` on the block. -/
def memcpy (names : Nat → Nat) (dst : Nat) (src : List Nat) : Nat → Nat :=
  fun i => if dst ≤ i ∧ i < dst + src.length then src.getD (i - dst) 0 else names i

/-- Effect of the assignment `names[i] = b`. -/
def poke (names : Nat → Nat) (i b : Nat) : Nat → Nat :=
  fun j => if j = i then b else names j

/-- The `n` bytes of the block that start at offset `pos`. -/
def mem_string (names : Nat → Nat) (pos n : Nat) : List Nat :=
  (List.range n).map (fun i => names (pos + i))

/-- Forward scan `while (*p) p++` from offset `pos`, allowed to look at `fuel`
bytes (the bytes left in the block): the offset of the first NUL, or `none`
when the scan leaves the block. -/
def find_nul (names : Nat → Nat) : Nat → Nat → Option Nat
  | 0, _ => none
  | fuel + 1, pos => if names pos = 0 then some pos else find_nul names fuel (pos + 1)

/-! ## `ends_with` (lines 43-53) -/

/-- Translation of `ends_with`: `0` when the suffix is longer than the string,
otherwise the `memcmp` of the last `strlen(suffix)` bytes with the suffix. -/
def ends_with (string suffix : List Nat) : Bool :=
  if suffix.length > string.length then false
  else string.drop (string.length - suffix.length) == suffix

/-! ## `conf_init` and `conf_zonefile_addname` (lines 80-121, 968-985) -/

/-- Translation of `conf_init` for the path list: `memset` to zero, `max = 2`,
and a fresh block of `max + 2` bytes whose contents `heap` are indeterminate. -/
def conf_init (heap : Nat → Nat) : ZoneFiles :=
  { names := heap, length := 0, max := 2, total_files := 0, total_bytes := 0 }

/-- The growth loop
`while (need > *filenames_max) { *filenames_max *= 2 + 1; realloc }`,
run for at most `fuel + 1` tests of its condition: the final capacity, or
`none` when the condition still holds after `fuel` growth steps. -/
def grow_max : Nat → Nat → Nat → Option Nat
  | 0, need, max => if need > max then none else some max
  | fuel + 1, need, max =>
      if need > max then grow_max fuel need (max * (2 + 1)) else some max

/-- Translation of `conf_zonefile_addname`.  The pair `(dirname, dirname_length)`
of the source is the byte string `dirname` of that length; `filename` is a C
string.  The growth loop gets `need` steps, which is enough whenever it
terminates at all (`grow_max_some`); `none` means that it does not. -/
def conf_zonefile_addname (core : ZoneFiles) (dirname filename : List Nat) :
    Option ZoneFiles :=
  let need := core.length + dirname.length + filename.length + 2
  match grow_max need need core.max with
  | none => none
  | some max1 =>
    let m1 := memcpy core.names core.length dirname
    let l1 := core.length + dirname.length
    let m2 := poke m1 l1 slash
    let l2 := l1 + 1
    let m3 := memcpy m2 l2 filename
    let l3 := l2 + filename.length
    let m4 := poke m3 l3 0
    let l4 := l3 + 1
    let m5 := poke m4 l4 0
    some { core with names := m5, length := l4, max := max1,
                     total_files := core.total_files + 1 }

/-! ## Reading the list back (the walk of lines 243-252) -/

/-- Paths packed the way the list stores them: each followed by its NUL. -/
def packed : List (List Nat) → List Nat
  | [] => []
  | p :: ps => p ++ 0 :: packed ps

/-- The walk `for (f = pos; ; f += strlen(f) + 1) { if (f[0] == '\0') break; .. }`
over a block of `alloc` bytes: the strings met before the first empty string.
`fuel` bounds the number of strings; `none` when the walk leaves the block or
the fuel runs out. -/
def read_names (names : Nat → Nat) (alloc : Nat) : Nat → Nat → Option (List (List Nat))
  | 0, _ => none
  | fuel + 1, pos =>
      if alloc ≤ pos then none
      else if names pos = 0 then some []
      else
        match find_nul names (alloc - pos) pos with
        | none => none
        | some e =>
          match read_names names alloc fuel (e + 1) with
          | none => none
          | some rest => some (mem_string names pos (e - pos) :: rest)

/-- The names a reader finds in the list of `z`, starting at offset 0. -/
def ZoneFiles.read (z : ZoneFiles) : Option (List (List Nat)) :=
  read_names z.names z.alloc z.alloc 0

/-- The first `length` bytes of the block are exactly the paths `ps`, each
followed by its NUL, and `total_files` counts them. -/
def Recorded (z : ZoneFiles) (ps : List (List Nat)) : Prop :=
  z.length = (packed ps).length ∧ z.total_files = ps.length ∧
  ∀ i, i < z.length → z.names i = (packed ps).getD i 0

/-! ## `directory_to_zonefile_list` (lines 127-196) -/

mutual
/-- What the file system shows of a directory entry.  A `file` is anything
`stat` does not report as a directory. -/
inductive DirEntry
  | file (name : List Nat)
  | dir (name : List Nat) (d : Directory)
/-- What the file system shows of a directory: whether `pixie_opendir`
succeeds on it and, in enumeration order, what `pixie_readdir` returns. -/
inductive Directory
  | mk (readable : Bool) (entries : List DirEntry)
end

/-- The name `pixie_readdir` returns for an entry. -/
def DirEntry.name : DirEntry → List Nat
  | .file n => n
  | .dir n _ => n

/-- The loop `while (n && (dirname[n-1] == '/' || dirname[n-1] == '\\')) n--`,
started at `n`. -/
def strip_length (dirname : List Nat) : Nat → Nat
  | 0 => 0
  | n + 1 =>
      if dirname.getD n 0 = slash ∨ dirname.getD n 0 = backslash then strip_length dirname n
      else n + 1

/-- The roll-back of lines 174-175. -/
def rollback (core : ZoneFiles) (original_length : Nat) : ZoneFiles :=
  { core with length := original_length, total_files := core.total_files - 1 }

/-- The C string that starts at offset `pos` of the block, `none` when no NUL
follows inside the block. -/
def c_string_at (core : ZoneFiles) (pos : Nat) : Option (List Nat) :=
  match find_nul core.names (core.alloc - pos) pos with
  | none => none
  | some e => some (mem_string core.names pos (e - pos))

mutual
/-- Translation of `directory_to_zonefile_list`.  The directory is what
`pixie_opendir` and `pixie_readdir` answer for `in_dirname`. -/
def directory_to_zonefile_list (core : ZoneFiles) (in_dirname : List Nat) :
    Directory → Option ZoneFiles
  | .mk readable entries =>
      let dirname_length := strip_length in_dirname in_dirname.length
      if readable = false then some core
      else scan_entries core (in_dirname.take dirname_length) entries
/-- The `for (;;)` loop over the entries of one directory; `dirname` is the
name with its trailing slashes stripped. -/
def scan_entries (core : ZoneFiles) (dirname : List Nat) :
    List DirEntry → Option ZoneFiles
  | [] => some core
  | e :: rest =>
      match scan_entry core dirname e with
      | none => none
      | some core1 => scan_entries core1 dirname rest
/-- One turn of the loop (lines 160-188). -/
def scan_entry (core : ZoneFiles) (dirname : List Nat) : DirEntry → Option ZoneFiles
  | .file filename =>
      if filename = [46] ∨ filename = [46, 46] then some core
      else
        match conf_zonefile_addname core dirname filename with
        | none => none
        | some core1 =>
          if ends_with filename dot_zone then some core1
          else some (rollback core1 core.length)
  | .dir filename d =>
      if filename = [46] ∨ filename = [46, 46] then some core
      else
        match conf_zonefile_addname core dirname filename with
        | none => none
        | some core1 =>
          if ends_with filename dot_zone then some core1
          else
            let core2 := rollback core1 core.length
            match c_string_at core2 core.length with
            | none => none
            | some xfilename =>
                directory_to_zonefile_list core2 xfilename d
end

mutual
/-- The regular files of a tree whose name ends in `.zone`, wherever they are,
as the paths `dirname/../name`: the contribution of one entry. -/
def zone_files_entry (dirname : List Nat) : DirEntry → List (List Nat)
  | .file n => if ends_with n dot_zone then [dirname ++ slash :: n] else []
  | .dir n d => zone_files_dir (dirname ++ slash :: n) d
/-- The `.zone` regular files below a directory. -/
def zone_files_dir (dirname : List Nat) : Directory → List (List Nat)
  | .mk _ es => zone_files_of dirname es
/-- The `.zone` regular files below the entries of a directory. -/
def zone_files_of (dirname : List Nat) : List DirEntry → List (List Nat)
  | [] => []
  | e :: rest => zone_files_entry dirname e ++ zone_files_of dirname rest
end

mutual
/-- The entries the scanner keeps: every entry other than `.` and `..` whose
name ends in `.zone`, file or directory, reached through readable directories
whose own names do not end in `.zone`: the contribution of one entry. -/
def zone_entries_entry (dirname : List Nat) : DirEntry → List (List Nat)
  | .file n =>
      if n = [46] ∨ n = [46, 46] then []
      else if ends_with n dot_zone then [dirname ++ slash :: n] else []
  | .dir n d =>
      if n = [46] ∨ n = [46, 46] then []
      else if ends_with n dot_zone then [dirname ++ slash :: n]
      else zone_entries_dir (dirname ++ slash :: n) d
/-- The entries kept below a directory: none when it cannot be opened. -/
def zone_entries_dir (dirname : List Nat) : Directory → List (List Nat)
  | .mk readable es => if readable = false then [] else zone_entries_of dirname es
/-- The entries kept below the entries of a directory. -/
def zone_entries_of (dirname : List Nat) : List DirEntry → List (List Nat)
  | [] => []
  | e :: rest => zone_entries_entry dirname e ++ zone_entries_of dirname rest
end

/-! ## Pool sizer (lines 352-360) -/

/-- The thread count `conf_zonefiles_parse` derives from `total_files`. -/
def thread_count_for (total_files : Nat) : Nat :=
  if total_files < 10 then 1
  else if total_files < 5000 then 2
  else 4

/-! ## Chunk partitioner of `conf_zonefiles_parse` (lines 373-407) -/

/-- The partitioning loop `for (i = 0; i < thread_count; i++)` with `k` turns
left and `names` at offset `pos`: the pairs `(p[i].filename, p[i].end)` it
produces, as offsets into the block.  `thread_count` is the divisor of line
387; the loop only changes that variable when it breaks.  `none` when a read
or the clamp `length + names - 2` leaves the block. -/
def chunk_loop (names : Nat → Nat) (alloc length thread_count : Nat) :
    Nat → Nat → Option (List (Nat × Nat))
  | 0, _ => some []
  | k + 1, pos =>
      if alloc ≤ pos then none
      else if names pos = 0 then some []
      else
        let end0 := pos + length / thread_count
        if end0 > length ∧ length < 2 then none
        else
          let end1 := if end0 > length then length - 2 else end0
          match find_nul names (alloc - end1) end1 with
          | none => none
          | some e =>
            match chunk_loop names alloc length thread_count k (e + 1) with
            | none => none
            | some rest => some ((pos, e + 1) :: rest)

/-- The chunks `conf_zonefiles_parse` cuts for `thread_count` threads. -/
def chunks_for (core : ZoneFiles) (thread_count : Nat) : Option (List (Nat × Nat)) :=
  chunk_loop core.names core.alloc core.length thread_count thread_count 0

/-- The chunks `conf_zonefiles_parse` cuts, with the thread count it derives
from `total_files`. -/
def zonefile_chunks (core : ZoneFiles) : Option (List (Nat × Nat)) :=
  chunks_for core (thread_count_for core.total_files)

/-! ## The worker `conf_zonefiles_parse_thread` (lines 211-329) -/

/-- What the file system answers for a path that `fopen_s` can open:
`pixie_get_filesize` and the bytes `fread` delivers. -/
structure File where
  filesize : Nat
  content : List Nat
  deriving DecidableEq, Repr

/-- The file system seen by a worker: `none` for a path `fopen_s` cannot open. -/
abbrev FileSystem := List Nat → Option File

/-- The calls a worker makes, in the order it makes them. -/
inductive Event
  | zonefile_begin
  | fopen (filename : List Nat)
  | zonefile_begin_again (filesize : Nat) (filename : List Nat)
  | zonefile_parse (buf : List Nat)
  | zonefile_end
  deriving DecidableEq, Repr

/-- The `struct XParseThread` of one worker; `trace` is not in the source, it
records the calls the worker has made. -/
structure XParseThread where
  filename : Nat
  end_ : Nat
  status : SuccessFailure
  total_bytes : Nat
  trace : List Event

/-- The blocks of the loop of lines 299-313, for a `fread` that delivers the next
`min(65536, remaining)` bytes: one block per turn until `fread` returns 0. -/
def fread_blocks : Nat → List Nat → List (List Nat)
  | 0, _ => []
  | fuel + 1, content =>
      if content.take 65536 = [] then []
      else content.take 65536 :: fread_blocks fuel (content.drop 65536)

/-- Lines 321-327: the final `zonefile_end`, whose answer `parser_end` is a
function of the calls the worker made before it. -/
def finish (parser_end : List Event → SuccessFailure) (p : XParseThread) : XParseThread :=
  { p with status := if parser_end p.trace = SuccessFailure.Success then SuccessFailure.Success
                     else SuccessFailure.Failure,
           trace := p.trace ++ [Event.zonefile_end] }

/-- The loop of lines 243-319 followed by lines 321-327, with `filename` at
offset `pos`.  Each turn advances `filename`, so `fuel` bounds the turns. -/
def parse_loop (fs : FileSystem) (parser_end : List Event → SuccessFailure)
    (names : Nat → Nat) (alloc end_ : Nat) : Nat → Nat → XParseThread → Option XParseThread
  | 0, _, _ => none
  | fuel + 1, pos, p =>
      if ¬ pos < end_ then some (finish parser_end p)
      else if alloc ≤ pos then none
      else if names pos = 0 then some (finish parser_end p)
      else
        match find_nul names (alloc - pos) pos with
        | none => none
        | some e =>
          let filename := mem_string names pos (e - pos)
          match fs filename with
          | none =>
              some { p with status := SuccessFailure.Failure,
                            trace := p.trace ++ [Event.fopen filename] }
          | some f =>
              if f.filesize = 0 then
                parse_loop fs parser_end names alloc end_ fuel (e + 1)
                  { p with trace := p.trace ++ [Event.fopen filename] }
              else
                parse_loop fs parser_end names alloc end_ fuel (e + 1)
                  { p with total_bytes := p.total_bytes + f.filesize,
                           trace := p.trace ++
                             Event.fopen filename ::
                             Event.zonefile_begin_again f.filesize filename ::
                             (fread_blocks f.content.length f.content).map Event.zonefile_parse }

/-- Translation of `conf_zonefiles_parse_thread` on the block of `core`:
`zonefile_begin`, then the loop.  `p.end_ - p.filename + 1` turns are enough
for the loop to finish (`parse_loop_packed`). -/
def conf_zonefiles_parse_thread (fs : FileSystem) (parser_end : List Event → SuccessFailure)
    (core : ZoneFiles) (p : XParseThread) : Option XParseThread :=
  parse_loop fs parser_end core.names core.alloc p.end_ (p.end_ - p.filename + 1) p.filename
    { p with trace := p.trace ++ [Event.zonefile_begin] }

/-! ## `conf_zonefiles_parse` (lines 333-422) -/

/-- The workers of lines 394-405, one per chunk, run one after another in chunk
order.  Line 395 sets the byte counter of a worker to 0; its `status` field is
not initialised and holds whatever the stack held (`garbage`).  A worker only
reads the list, so running it when its chunk has been cut or after all chunks
have been cut gives the same result. -/
def run_workers (fs : FileSystem) (parser_end : List Event → SuccessFailure)
    (core : ZoneFiles) (garbage : SuccessFailure) : List (Nat × Nat) → Option (List XParseThread)
  | [] => some []
  | c :: rest =>
      match conf_zonefiles_parse_thread fs parser_end core
          { filename := c.1, end_ := c.2, status := garbage, total_bytes := 0, trace := [] } with
      | none => none
      | some r =>
        match run_workers fs parser_end core garbage rest with
        | none => none
        | some rs => some (r :: rs)

/-- The join loop of lines 413-418 over the workers `p[0 .. thread_count)`, from
the current `(status, conf->zonefiles.total_bytes)`. -/
def join_workers : List XParseThread → SuccessFailure × Nat → SuccessFailure × Nat
  | [], acc => acc
  | p :: ps, acc =>
      join_workers ps
        (if p.status ≠ SuccessFailure.Success then SuccessFailure.Failure else acc.1,
         acc.2 + p.total_bytes)

/-- What a call of `conf_zonefiles_parse` leaves: the value it returns, the
configuration, and the workers it has joined. -/
structure ParseRun where
  status : SuccessFailure
  core : ZoneFiles
  workers : List XParseThread

/-- Lines 373-421 of `conf_zonefiles_parse` for a given initial `thread_count`:
cut the chunks, run a worker on each, join them. -/
def parse_with (fs : FileSystem) (parser_end : List Event → SuccessFailure)
    (garbage : SuccessFailure) (core : ZoneFiles) (thread_count : Nat) : Option ParseRun :=
  match chunks_for core thread_count with
  | none => none
  | some cs =>
    match run_workers fs parser_end core garbage cs with
    | none => none
    | some ws =>
      some { status := (join_workers ws (SuccessFailure.Success, core.total_bytes)).1,
             core := { core with
               total_bytes := (join_workers ws (SuccessFailure.Success, core.total_bytes)).2 },
             workers := ws }

/-- Translation of `conf_zonefiles_parse`: `Failure` at once for a list of length
0, otherwise the thread count of the sizer and lines 373-421. -/
def conf_zonefiles_parse (fs : FileSystem) (parser_end : List Event → SuccessFailure)
    (garbage : SuccessFailure) (core : ZoneFiles) : Option ParseRun :=
  if core.length = 0 then some { status := SuccessFailure.Failure, core := core, workers := [] }
  else parse_with fs parser_end garbage core (thread_count_for core.total_files)

/-! ## Text parsing helpers (lines 545-672) -/

/-- C-locale `isdigit`. -/
def isdigit (c : Nat) : Bool := 48 ≤ c && c ≤ 57

/-- C-locale `isalpha`. -/
def isalpha (c : Nat) : Bool := (65 ≤ c && c ≤ 90) || (97 ≤ c && c ≤ 122)

/-- C-locale `isspace`. -/
def isspace (c : Nat) : Bool := (9 ≤ c && c ≤ 13) || c = 32

/-- C-locale `ispunct`. -/
def ispunct (c : Nat) : Bool :=
  (33 ≤ c && c ≤ 47) || (58 ≤ c && c ≤ 64) || (91 ≤ c && c ≤ 96) || (123 ≤ c && c ≤ 126)

/-- C-locale `tolower`. -/
def tolower (c : Nat) : Nat := if 65 ≤ c ∧ c ≤ 90 then c + 32 else c

/-- The byte `str[0]` of a C string given by its bytes: NUL for the empty string. -/
def head_byte (str : List Nat) : Nat := str.headD 0

/-- The loop `while (isdigit(*str)) { result = result * 10 + (*str - '0'); str++; }`
on a `uint64_t`: the final `result` and the rest of the string. -/
def digits_loop : List Nat → Nat → Nat × List Nat
  | [], result => (result, [])
  | c :: rest, result =>
      if isdigit c then digits_loop rest ((result * 10 + (c - 48)) % 2 ^ 64)
      else (result, c :: rest)

/-- Translation of `parseInt` (a `uint64_t`). -/
def parseInt (str : List Nat) : Nat := (digits_loop str 0).1

/-- Translation of `ARRAY`: the number after the first `[`, cast to `unsigned`;
0 when there is no `[`. -/
def ARRAY (rhs : List Nat) : Nat :=
  match rhs.dropWhile (fun c => c != 91) with
  | [] => 0
  | _ :: p => parseInt p % 2 ^ 32

/-- Lines 668-672 of `conf_set_parameter`: `none` when the bad-index branch is
taken and the process exits, otherwise the index the rest of the function uses. -/
def conf_set_parameter_index (name : List Nat) : Option Nat :=
  if ARRAY name ≥ 8 then none else some (ARRAY name)

/-- Translation of `parseTime` (a `uint64_t`); `none` is `exit(1)`. -/
def parseTime (value0 : List Nat) : Option Nat :=
  let is_negative := head_byte value0 = 45
  let value1 := value0.dropWhile (fun c => c == 45)
  let num1 := (digits_loop value1 0).1
  let value2 := (digits_loop value1 0).2
  let value3 := value2.dropWhile (fun c => ispunct c || isspace c)
  let num2 := if isalpha (head_byte value3) ∧ num1 = 0 then 1 else num1
  if head_byte value3 = 0 then some num2
  else
    let scaled : Option Nat :=
      if tolower (head_byte value3) = 115 then some (num2 * 1 % 2 ^ 64)
      else if tolower (head_byte value3) = 109 then some (num2 * 60 % 2 ^ 64)
      else if tolower (head_byte value3) = 104 then some (num2 * (60 * 60) % 2 ^ 64)
      else if tolower (head_byte value3) = 100 then some (num2 * (24 * 60 * 60) % 2 ^ 64)
      else if tolower (head_byte value3) = 119 then some (num2 * (24 * 60 * 60 * 7) % 2 ^ 64)
      else none
    match scaled with
    | none => none
    | some num3 =>
      if num3 ≥ 24 * 60 * 60 then none
      else if is_negative then some (24 * 60 * 60 - num3)
      else some num3

/-! ## Vocabulary of the statements -/

/-- The block holds the bytes `bytes` from offset `off` on. -/
def Holds (names : Nat → Nat) (off : Nat) (bytes : List Nat) : Prop :=
  ∀ i, i < bytes.length → names (off + i) = bytes.getD i 0

/-- A C string has no NUL byte inside. -/
def CStr (s : List Nat) : Prop := ∀ b ∈ s, b ≠ 0

/-- Successive calls of `conf_zonefile_addname`, one per `(dirname, filename)`. -/
def add_names : ZoneFiles → List (List Nat × List Nat) → Option ZoneFiles
  | core, [] => some core
  | core, e :: rest =>
      match conf_zonefile_addname core e.1 e.2 with
      | none => none
      | some core1 => add_names core1 rest

/-- The path `conf_zonefile_addname` writes for a pair: `dirname/filename`. -/
def path_of (e : List Nat × List Nat) : List Nat := e.1 ++ slash :: e.2

/-- The list of `core1` is the list of `core` with the paths `ps` appended: the
bytes of the old list are untouched and the new paths follow them. -/
def Extends (core core1 : ZoneFiles) (ps : List (List Nat)) : Prop :=
  core1.length = core.length + (packed ps).length ∧
  core1.total_files = core.total_files + ps.length ∧
  core1.total_bytes = core.total_bytes ∧
  core.max ≤ core1.max ∧
  (∀ i, i < core.length → core1.names i = core.names i) ∧
  Holds core1.names core.length (packed ps)

mutual
/-- The names of a tree are C strings, and the name of a directory is not empty
and does not end in `/` or `\\`, so that the scanner's stripping of trailing
slashes leaves the path it has built for the directory as it is. -/
def entry_ok : DirEntry → Prop
  | .file n => CStr n
  | .dir n d => CStr n ∧ n.getLast? ≠ none ∧ n.getLast? ≠ some slash ∧
      n.getLast? ≠ some backslash ∧ directory_ok d
/-- The condition `entry_ok` for the entries of a directory. -/
def directory_ok : Directory → Prop
  | .mk _ es => entries_ok es
/-- The condition `entry_ok` for every entry of a list. -/
def entries_ok : List DirEntry → Prop
  | [] => True
  | e :: es => entry_ok e ∧ entries_ok es
end

mutual
/-- A tree as the claim sees it: no entry is named `.` or `..`, every directory
can be opened, and no directory has a name that ends in `.zone`. -/
def entry_plain : DirEntry → Prop
  | .file n => ¬ (n = [46] ∨ n = [46, 46])
  | .dir n d => ¬ (n = [46] ∨ n = [46, 46]) ∧ ends_with n dot_zone = false ∧ directory_plain d
/-- The condition `entry_plain` for the entries of a directory that can be opened. -/
def directory_plain : Directory → Prop
  | .mk readable es => readable = true ∧ entries_plain es
/-- The condition `entry_plain` for every entry of a list. -/
def entries_plain : List DirEntry → Prop
  | [] => True
  | e :: es => entry_plain e ∧ entries_plain es
end

/-- Size `pixie_get_filesize` reports for a path, 0 for a path that cannot be opened. -/
def file_size (fs : FileSystem) (q : List Nat) : Nat :=
  match fs q with
  | some f => f.filesize
  | none => 0

/-- The calls one turn of the worker's loop makes for the path `q`. -/
def file_events (fs : FileSystem) (q : List Nat) : List Event :=
  match fs q with
  | none => [Event.fopen q]
  | some f =>
      if f.filesize = 0 then [Event.fopen q]
      else Event.fopen q :: Event.zonefile_begin_again f.filesize q ::
        (fread_blocks f.content.length f.content).map Event.zonefile_parse

/-- The calls of successive turns, for the paths `qs` in order. -/
def events_of (fs : FileSystem) : List (List Nat) → List Event
  | [] => []
  | q :: qs => file_events fs q ++ events_of fs qs

/-- Sum of the sizes of the paths `qs`. -/
def sizes_of (fs : FileSystem) : List (List Nat) → Nat
  | [] => 0
  | q :: qs => file_size fs q + sizes_of fs qs

/-- The paths a trace opens, in order. -/
def opened : List Event → List (List Nat)
  | [] => []
  | Event.fopen q :: es => q :: opened es
  | _ :: es => opened es

/-- The chunk `[p.filename, p.end_)` holds exactly the paths `ps`: they are
non-empty C strings packed from `p.filename` on, inside the block, and the
chunk ends either right after them or one byte further, on a NUL (as the last
chunk of a list does). -/
def ChunkHolds (core : ZoneFiles) (p : XParseThread) (ps : List (List Nat)) : Prop :=
  (∀ q ∈ ps, q ≠ [] ∧ CStr q) ∧
  Holds core.names p.filename (packed ps) ∧
  p.filename + (packed ps).length ≤ p.end_ ∧
  p.filename + (packed ps).length ≤ core.alloc ∧
  (p.filename + (packed ps).length < p.end_ →
    p.filename + (packed ps).length < core.alloc ∧
    core.names (p.filename + (packed ps).length) = 0)

/-- A list holding `d/a`, `d/b`, `d/c`, as three appends leave it. -/
def sample_core : ZoneFiles :=
  { names := fun i => [100, 47, 97, 0, 100, 47, 98, 0, 100, 47, 99, 0, 0].getD i 0,
    length := 12, max := 18, total_files := 3, total_bytes := 0 }

/-- The single chunk cut for one thread: offsets 0 to `length + 1`. -/
def sample_thread : XParseThread :=
  { filename := 0, end_ := 13, status := SuccessFailure.Failure, total_bytes := 0, trace := [] }

/-- A file system where `d/a` has 3 bytes, `d/c` has 2 and `d/b` is as given. -/
def sample_fs (b : Option File) : FileSystem :=
  fun q => if q = [100, 47, 97] then some ⟨3, [1, 2, 3]⟩
    else if q = [100, 47, 98] then b
    else if q = [100, 47, 99] then some ⟨2, [4, 5]⟩
    else none

/-- Offsets at which the paths of a packed list start, the first one at `off`. -/
def path_starts : Nat → List (List Nat) → List Nat
  | _, [] => []
  | off, p :: ps => off :: path_starts (off + p.length + 1) ps

/-! ### A run of the program with 5000 zone files

The command line `robdns a.zone .. a.zone X.zone a.zone .. a.zone X.zone a.zone .. a.zone /w`
started in the directory `/w`: 1666 times `a.zone`, a name `X.zone` of 8326
bytes, 1666 times `a.zone`, `X.zone` again, 1665 times `a.zone`, and last the
directory `/w`, which holds `robdns.conf` and `a.zone`, enumerated in that
order.  Each argument ending in `.zone` goes to `conf_zonefile_addname` with
the working directory (line 900), the directory to
`directory_to_zonefile_list` (line 906). -/

/-- The working directory `/w`. -/
def bug_wd : List Nat := [47, 119]

/-- The file name `a.zone`. -/
def bug_short : List Nat := [97, 46, 122, 111, 110, 101]

/-- The file name `xx..x.zone` with 8321 letters `x`. -/
def bug_long : List Nat := List.replicate 8321 120 ++ dot_zone

/-- The file name `robdns.conf`. -/
def bug_conf : List Nat := [114, 111, 98, 100, 110, 115, 46, 99, 111, 110, 102]

/-- The 4999 `(dirname, filename)` pairs of the `.zone` arguments, in order. -/
def bug_args : List (List Nat × List Nat) :=
  List.replicate 1666 (bug_wd, bug_short) ++ (bug_wd, bug_long) ::
    (List.replicate 1666 (bug_wd, bug_short) ++ (bug_wd, bug_long) ::
      List.replicate 1665 (bug_wd, bug_short))

/-- The directory `/w` as enumerated: `robdns.conf`, then `a.zone`. -/
def bug_dir : Directory := .mk true [.file bug_conf, .file bug_short]

/-- The 5000 paths this run leaves in the list. -/
def bug_paths : List (List Nat) := bug_args.map path_of ++ [path_of (bug_wd, bug_short)]

/-! ### The end-to-end scenario -/

/-- The file system of the end-to-end scenario: `d/a.zone` has 100 bytes,
`d/b.zone` is empty, `d/c.txt` has 5 bytes. -/
def e2e_fs : FileSystem :=
  fun q => if q = [100, 47, 97, 46, 122, 111, 110, 101] then some ⟨100, List.replicate 100 65⟩
    else if q = [100, 47, 98, 46, 122, 111, 110, 101] then some ⟨0, []⟩
    else if q = [100, 47, 99, 46, 116, 120, 116] then some ⟨5, [1, 2, 3, 4, 5]⟩
    else none

/-- The directory `d` of the end-to-end scenario, enumerated as `a.zone`,
`b.zone`, `c.txt`. -/
def e2e_dir : Directory :=
  .mk true [.file [97, 46, 122, 111, 110, 101], .file [98, 46, 122, 111, 110, 101],
    .file [99, 46, 116, 120, 116]]

/-! ### A second run with 5000 zone files

The command line `robdns a.zone .. a.zone Y.zone a.zone .. a.zone /w` started in
`/w`: 2499 times `a.zone`, a name `Y.zone` of 50006 bytes, 2499 times `a.zone`,
and last the directory `/w` as above. -/

/-- The long file name of the second 5000-file run: 50001 letters `x` followed by
`.zone` (50006 bytes). -/
def wide_long : List Nat := List.replicate 50001 120 ++ dot_zone

/-- The second 5000-file run: started in `/w` with 4999 arguments, `a.zone` 2499
times, the long name once, `a.zone` 2499 times, and then the directory
`bug_dir`. -/
def wide_args : List (List Nat × List Nat) :=
  List.replicate 2499 (bug_wd, bug_short) ++ (bug_wd, wide_long) ::
    List.replicate 2499 (bug_wd, bug_short)

/-- The 5000 paths of the list built by the second run. -/
def wide_paths : List (List Nat) := wide_args.map path_of ++ [path_of (bug_wd, bug_short)]

/-! ### Chunks handed to workers, and the pool-size comparison -/

/-- The chunk `(filename, end)` is handed the paths `part`: either it holds
exactly them, or it is an empty range (`end ≤ filename`) and `part` is empty. -/
def ChunkOk (core : ZoneFiles) (c : Nat × Nat) (part : List (List Nat)) : Prop :=
  (c.2 ≤ c.1 ∧ part = []) ∨
  ChunkHolds core { filename := c.1, end_ := c.2, status := SuccessFailure.Success,
                    total_bytes := 0, trace := [] } part

/-- The file system of the pool-size comparison: `/w/b.zone` holds one byte and
nothing else can be opened. -/
def pool_fs : FileSystem :=
  fun q => if q = [47, 119, 47, 98, 46, 122, 111, 110, 101] then some ⟨1, [65]⟩ else none

/-- The `(dirname, filename)` pairs of the pool-size comparison, for the command
line `robdns a.zone b.zone .. b.zone` (nine times `b.zone`) started in `/w`. -/
def pool_args : List (List Nat × List Nat) :=
  (bug_wd, bug_short) :: List.replicate 9 (bug_wd, [98, 46, 122, 111, 110, 101])

/-! ## `EQUALS` (lines 631-648) -/

/-- The bytes `EQUALS` skips: `-`, `.` and `_`. -/
def is_skipped (c : Nat) : Bool := c = 45 || c = 46 || c = 95

/-- The loop `for (;;)` of `EQUALS` with `lhs` and `rhs` given by their bytes:
`some true` is `return 1`, `some false` is `return 0`.  Each turn that does not
return advances `lhs`, so `fuel` bounds the turns; `none` when it runs out. -/
def EQUALS_loop : Nat → List Nat → List Nat → Option Bool
  | 0, _, _ => none
  | fuel + 1, lhs0, rhs0 =>
      let lhs := lhs0.dropWhile is_skipped
      let rhs := rhs0.dropWhile is_skipped
      if head_byte lhs = 0 ∧ head_byte rhs = 91 then some true
      else if tolower (head_byte lhs) ≠ tolower (head_byte rhs) then some false
      else if head_byte lhs = 0 then some true
      else EQUALS_loop fuel lhs.tail rhs.tail

/-- Translation of `EQUALS`; `strlen(lhs) + 1` turns are enough
(`EQUALS_loop_spec`). -/
def EQUALS (lhs rhs : List Nat) : Option Bool := EQUALS_loop (lhs.length + 1) lhs rhs

/-- An option name with every `-`, `.` and `_` deleted and lower-cased. -/
def stripped_name (s : List Nat) : List Nat :=
  (s.filter (fun c => !is_skipped c)).map tolower

/-- The matching rule in words: the stripped names are equal, or the stripped
`lhs` followed by `[` is a prefix of the stripped `rhs`. -/
def names_match (lhs rhs : List Nat) : Prop :=
  stripped_name lhs = stripped_name rhs ∨ stripped_name lhs ++ [91] <+: stripped_name rhs

/-! ## `trim` (lines 917-924) -/

/-- The loop `while (isspace(*line)) memmove(line, line+1, strlen(line))` on a
block of `alloc` bytes, with `line` at offset `line`: the block it leaves.
`none` when a read leaves the block or `fuel` turns were not enough. -/
def trim_leading : Nat → (Nat → Nat) → Nat → Nat → Option (Nat → Nat)
  | 0, _, _, _ => none
  | fuel + 1, mem, alloc, line =>
      if alloc ≤ line then none
      else if isspace (mem line) then
        match find_nul mem (alloc - line) line with
        | none => none
        | some e =>
          trim_leading fuel (memcpy mem line (mem_string mem (line + 1) (e - line))) alloc line
      else some mem

/-- The loop `while (isspace(line[strlen(line)-1])) line[strlen(line)-1] = '\0'`.
With `e` the offset of the terminating NUL, `line[strlen(line)-1]` is the byte
at offset `e - 1`; for `e = 0` that byte lies before the block and the
result is `none`. -/
def trim_trailing : Nat → (Nat → Nat) → Nat → Nat → Option (Nat → Nat)
  | 0, _, _, _ => none
  | fuel + 1, mem, alloc, line =>
      match find_nul mem (alloc - line) line with
      | none => none
      | some e =>
        if e = 0 then none
        else if isspace (mem (e - 1)) then trim_trailing fuel (poke mem (e - 1) 0) alloc line
        else some mem

/-- Translation of `trim` for a pointer at offset `line` of a block of `alloc`
bytes.  Each turn of either loop shortens the string, so `alloc + 1` turns are
enough. -/
def trim (mem : Nat → Nat) (alloc line : Nat) : Option (Nat → Nat) :=
  match trim_leading (alloc + 1) mem alloc line with
  | none => none
  | some mem1 => trim_trailing (alloc + 1) mem1 alloc line

/-- The C string at offset `pos` of a block, `none` when it is not terminated
inside the block. -/
def string_at (mem : Nat → Nat) (alloc pos : Nat) : Option (List Nat) :=
  match find_nul mem (alloc - pos) pos with
  | none => none
  | some e => some (mem_string mem pos (e - pos))

/-! ## MAC addresses (lines 457-463, 496-541) -/

/-- C-locale `isxdigit`. -/
def isxdigit (c : Nat) : Bool :=
  (48 ≤ c && c ≤ 57) || (97 ≤ c && c ≤ 102) || (65 ≤ c && c ≤ 70)

/-- Translation of `hexval`. -/
def hexval (c : Nat) : Nat :=
  if 48 ≤ c ∧ c ≤ 57 then c - 48
  else if 97 ≤ c ∧ c ≤ 102 then c - 97 + 10
  else if 65 ≤ c ∧ c ≤ 70 then c - 65 + 10
  else 255

/-- The loop of `parse_mac_address` with `k` turns left, the text still to read
and the bytes of `mac` stored so far; `none` is `return -1`.  `x` is an
`unsigned`. -/
def parse_mac_loop : Nat → List Nat → List Nat → Option (List Nat)
  | 0, _, mac => some mac
  | k + 1, text0, mac =>
      let text1 := text0.dropWhile (fun c => isspace c && ispunct c)
      if !isxdigit (head_byte text1) then none
      else
        let x1 := (hexval (head_byte text1) <<< 4) % 2 ^ 32
        let text2 := text1.tail
        if !isxdigit (head_byte text2) then none
        else
          let x2 := x1 ||| hexval (head_byte text2)
          let text3 := text2.tail
          let text4 := if ispunct (head_byte text3) then text3.tail else text3
          parse_mac_loop k text4 (mac ++ [x2 % 256])

/-- Translation of `parse_mac_address`: the six bytes stored when it returns 0,
`none` when it returns -1. -/
def parse_mac_address (text : List Nat) : Option (List Nat) := parse_mac_loop 6 text []

/-- The lower-case hexadecimal digit of a value below 16. -/
def hex_digit (d : Nat) : Nat := if d < 10 then 48 + d else 87 + d

/-- What `%02x` prints for an `unsigned char`. -/
def print_02x (b : Nat) : List Nat := [hex_digit (b / 16), hex_digit (b % 16)]

/-- What the format `%02x:%02x:%02x:%02x:%02x:%02x` of `conf_echo_nic` prints for
the six bytes of a MAC address. -/
def mac_text (mac : List Nat) : List Nat := List.intercalate [58] (mac.map print_02x)

/-! ## The writes of `conf_zonefile_addname` (lines 99-116) -/

/-- The offsets `conf_zonefile_addname` writes, in order: the `memcpy` of
`dirname`, the `/`, the `memcpy` of `filename`, and the two NUL bytes. -/
def addname_writes (core : ZoneFiles) (dirname filename : List Nat) : List Nat :=
  (List.range dirname.length).map (fun i => core.length + i) ++
    (core.length + dirname.length) ::
      ((List.range filename.length).map (fun i => core.length + dirname.length + 1 + i) ++
        [core.length + dirname.length + 1 + filename.length,
         core.length + dirname.length + 1 + filename.length + 1])

/-! ### Option names of the examples -/

/-- The option name `exclude-file`. -/
def name_exclude_dash : List Nat := [101, 120, 99, 108, 117, 100, 101, 45, 102, 105, 108, 101]

/-- The option name `excludefile`. -/
def name_exclude_plain : List Nat := [101, 120, 99, 108, 117, 100, 101, 102, 105, 108, 101]

/-- The option name `Exclude_File`. -/
def name_exclude_upper : List Nat := [69, 120, 99, 108, 117, 100, 101, 95, 70, 105, 108, 101]

/-! ## Theorems -/

/-! ### Memory lemmas -/

theorem find_nul_run (names : Nat → Nat) :
    ∀ (n fuel pos : Nat), (∀ i, i < n → names (pos + i) ≠ 0) → names (pos + n) = 0 →
      n < fuel → find_nul names fuel pos = some (pos + n) := by
  intro n
  induction n with
  | zero =>
    intro fuel pos _ h0 hf
    obtain ⟨f, rfl⟩ : ∃ f, fuel = f + 1 := ⟨fuel - 1, by omega⟩
    simp only [Nat.add_zero] at h0
    simp [find_nul, h0]
  | succ n ih =>
    intro fuel pos hnz h0 hf
    obtain ⟨f, rfl⟩ : ∃ f, fuel = f + 1 := ⟨fuel - 1, by omega⟩
    have h1 : names pos ≠ 0 := by simpa using hnz 0 (by omega)
    have h2 := ih f (pos + 1) (fun i hi => by
      have := hnz (i + 1) (by omega)
      rwa [show pos + 1 + i = pos + (i + 1) by omega]) (by
      rwa [show pos + 1 + n = pos + (n + 1) by omega]) (by omega)
    simp only [find_nul, h1, if_false]
    rw [h2]
    congr 1
    omega

theorem holds_append (names : Nat → Nat) (off : Nat) (a b : List Nat) :
    Holds names off (a ++ b) ↔ Holds names off a ∧ Holds names (off + a.length) b := by
  constructor
  · intro h
    constructor
    · intro i hi
      rw [h i (by simp; omega), List.getD_append _ _ _ _ hi]
    · intro i hi
      have := h (a.length + i) (by simp; omega)
      rw [List.getD_append_right _ _ _ _ (by omega)] at this
      simpa [Nat.add_assoc] using this
  · rintro ⟨ha, hb⟩ i hi
    by_cases hia : i < a.length
    · rw [List.getD_append _ _ _ _ hia]; exact ha i hia
    · have hi2 : i - a.length < b.length := by simp at hi; omega
      rw [List.getD_append_right _ _ _ _ (by omega)]
      have := hb (i - a.length) hi2
      rwa [show off + a.length + (i - a.length) = off + i by omega] at this

theorem mem_string_of_holds (names : Nat → Nat) (off : Nat) (p : List Nat)
    (h : Holds names off p) : mem_string names off p.length = p := by
  apply List.ext_getElem
  · simp [mem_string]
  · intro i h1 h2
    simp only [mem_string, List.getElem_map, List.getElem_range]
    rw [h i h2, List.getD_eq_getElem _ _ h2]

theorem memcpy_append (names : Nat → Nat) (off : Nat) (a b : List Nat) :
    memcpy (memcpy names off a) (off + a.length) b = memcpy names off (a ++ b) := by
  funext i
  simp only [memcpy, List.length_append]
  by_cases h1 : off + a.length ≤ i ∧ i < off + a.length + b.length
  · rw [if_pos h1, if_pos (by omega), List.getD_append_right _ _ _ _ (by omega)]
    congr 1; omega
  · rw [if_neg h1]
    by_cases h2 : off ≤ i ∧ i < off + a.length
    · rw [if_pos h2, if_pos (by omega), List.getD_append _ _ _ _ (by omega)]
    · rw [if_neg h2, if_neg (by omega)]

theorem poke_eq_memcpy (names : Nat → Nat) (i b : Nat) : poke names i b = memcpy names i [b] := by
  funext j
  simp only [poke, memcpy, List.length_singleton]
  by_cases h : j = i
  · subst h; simp
  · rw [if_neg h, if_neg (by omega)]

theorem holds_memcpy (names : Nat → Nat) (off : Nat) (a : List Nat) :
    Holds (memcpy names off a) off a := by
  intro i hi
  simp only [memcpy]
  rw [if_pos (by omega)]
  congr 1; omega

theorem memcpy_below (names : Nat → Nat) (off : Nat) (a : List Nat) (i : Nat) (h : i < off) :
    memcpy names off a i = names i := by
  simp only [memcpy]; rw [if_neg (by omega)]

theorem grow_max_spec : ∀ (fuel need max : Nat), 0 < max → need ≤ max * 3 ^ fuel →
    ∃ m, grow_max fuel need max = some m ∧ need ≤ m ∧ max ≤ m := by
  intro fuel
  induction fuel with
  | zero =>
    intro need max _ hf
    refine ⟨max, ?_, by simpa using hf, le_refl _⟩
    simp only [grow_max]
    rw [if_neg (by simp at hf; omega)]
  | succ f ih =>
    intro need max h0 hf
    by_cases h : need > max
    · obtain ⟨m, hm, h1, h2⟩ := ih need (max * (2 + 1)) (by omega) (by
        rw [pow_succ] at hf
        calc need ≤ max * (3 ^ f * 3) := hf
          _ = max * (2 + 1) * 3 ^ f := by ring)
      refine ⟨m, ?_, h1, by omega⟩
      simp only [grow_max]; rw [if_pos h]; exact hm
    · refine ⟨max, ?_, by omega, le_refl _⟩
      simp only [grow_max]; rw [if_neg h]

theorem grow_max_some (need max : Nat) (h0 : 0 < max) :
    ∃ m, grow_max need need max = some m ∧ need ≤ m ∧ max ≤ m := by
  apply grow_max_spec _ _ _ h0
  have h1 : need < 3 ^ need := Nat.lt_pow_self (by norm_num) need
  calc need ≤ 1 * 3 ^ need := by omega
    _ ≤ max * 3 ^ need := Nat.mul_le_mul_right _ h0

theorem addname_spec (core : ZoneFiles) (d f : List Nat) (h0 : 0 < core.max) :
    ∃ max1, conf_zonefile_addname core d f =
        some { names := memcpy core.names core.length (d ++ slash :: (f ++ [0, 0])),
               length := core.length + d.length + f.length + 2,
               max := max1,
               total_files := core.total_files + 1,
               total_bytes := core.total_bytes } ∧
      core.length + d.length + f.length + 2 ≤ max1 ∧ core.max ≤ max1 := by
  obtain ⟨m, hm, h1, h2⟩ := grow_max_some (core.length + d.length + f.length + 2) core.max h0
  refine ⟨m, ?_, h1, h2⟩
  simp only [conf_zonefile_addname, hm]
  refine congrArg some ?_
  rw [ZoneFiles.mk.injEq]
  refine ⟨?_, by omega, rfl, rfl, rfl⟩
  rw [poke_eq_memcpy, poke_eq_memcpy, poke_eq_memcpy]
  have e1 := memcpy_append core.names core.length d [slash]
  simp only [List.length_singleton] at e1
  rw [e1]
  have e2 := memcpy_append core.names core.length (d ++ [slash]) f
  simp only [List.length_append, List.length_singleton, ← Nat.add_assoc] at e2
  rw [e2]
  have e3 := memcpy_append core.names core.length (d ++ [slash] ++ f) [0]
  simp only [List.length_append, List.length_singleton, ← Nat.add_assoc] at e3
  rw [show core.length + d.length + 1 + f.length = core.length + d.length + 1 + f.length from rfl, e3]
  have e4 := memcpy_append core.names core.length (d ++ [slash] ++ f ++ [0]) [0]
  simp only [List.length_append, List.length_singleton, ← Nat.add_assoc] at e4
  rw [e4]
  simp

/-! ### The path list -/

theorem packed_append (a b : List (List Nat)) : packed (a ++ b) = packed a ++ packed b := by
  induction a with
  | nil => rfl
  | cons p ps ih => simp [packed, ih]

theorem packed_length (ps : List (List Nat)) :
    (packed ps).length = (ps.map List.length).sum + ps.length := by
  induction ps with
  | nil => rfl
  | cons p ps ih => simp [packed, ih]; omega

theorem extends_refl (core : ZoneFiles) : Extends core core [] :=
  ⟨rfl, rfl, rfl, le_refl _, fun _ _ => rfl, fun i hi => by simp [packed] at hi⟩

theorem extends_trans {a b c : ZoneFiles} {p q : List (List Nat)}
    (h1 : Extends a b p) (h2 : Extends b c q) : Extends a c (p ++ q) := by
  obtain ⟨l1, f1, b1, m1, k1, s1⟩ := h1
  obtain ⟨l2, f2, b2, m2, k2, s2⟩ := h2
  refine ⟨?_, ?_, ?_, ?_, ?_, ?_⟩
  · rw [l2, l1, packed_append, List.length_append]; omega
  · rw [f2, f1, List.length_append]; omega
  · rw [b2, b1]
  · omega
  · intro i hi; rw [k2 i (by omega), k1 i hi]
  · rw [packed_append, holds_append]
    refine ⟨fun i hi => ?_, ?_⟩
    · rw [k2 _ (by omega)]; exact s1 i hi
    · rw [← l1]; exact s2

theorem addname_extends (core : ZoneFiles) (d f : List Nat) (h0 : 0 < core.max) :
    ∃ core1, conf_zonefile_addname core d f = some core1 ∧
      Extends core core1 [d ++ slash :: f] ∧
      core1.names core1.length = 0 ∧ core1.length ≤ core1.max := by
  obtain ⟨m, hm, h1, h2⟩ := addname_spec core d f h0
  refine ⟨_, hm, ⟨?_, ?_, rfl, h2, ?_, ?_⟩, ?_, h1⟩
  · simp [packed]; omega
  · simp
  · intro i hi; exact memcpy_below _ _ _ _ hi
  · have e : d ++ slash :: (f ++ [0, 0]) = packed [d ++ slash :: f] ++ [0] := by simp [packed]
    show Holds (memcpy core.names core.length (d ++ slash :: (f ++ [0, 0]))) core.length _
    rw [e]
    exact ((holds_append _ _ _ _).1 (holds_memcpy _ _ _)).1
  · show memcpy core.names core.length (d ++ slash :: (f ++ [0, 0]))
      (core.length + d.length + f.length + 2) = 0
    have := holds_memcpy core.names core.length (d ++ slash :: (f ++ [0, 0]))
      (d.length + f.length + 2) (by simp; omega)
    rw [show core.length + (d.length + f.length + 2) = core.length + d.length + f.length + 2
      by omega] at this
    rw [this]
    rw [List.getD_append_right _ _ _ _ (by omega)]
    rw [show d.length + f.length + 2 - d.length = (f.length + 1) + 1 by omega, List.getD_cons_succ,
      List.getD_append_right _ _ _ _ (by omega)]
    simp

theorem add_names_extends : ∀ (entries : List (List Nat × List Nat)) (core : ZoneFiles),
    0 < core.max →
    ∃ core1, add_names core entries = some core1 ∧
      Extends core core1 (entries.map path_of) ∧
      (entries ≠ [] → core1.names core1.length = 0 ∧ core1.length ≤ core1.max) := by
  intro entries
  induction entries with
  | nil => intro core _; exact ⟨core, rfl, extends_refl core, fun h => absurd rfl h⟩
  | cons e rest ih =>
    intro core h0
    obtain ⟨c1, hc1, hx1, ht1, hl1⟩ := addname_extends core e.1 e.2 h0
    obtain ⟨c2, hc2, hx2, ht2⟩ := ih c1 (lt_of_lt_of_le h0 hx1.2.2.2.1)
    refine ⟨c2, ?_, ?_, fun _ => ?_⟩
    · simp only [add_names, hc1]; exact hc2
    · exact extends_trans hx1 hx2
    · cases rest with
      | nil =>
        simp only [add_names] at hc2
        cases hc2
        exact ⟨ht1, hl1⟩
      | cons r rs => exact ht2 (by simp)

theorem read_names_packed (names : Nat → Nat) (alloc : Nat) :
    ∀ (ps : List (List Nat)) (fuel off : Nat),
      (∀ p ∈ ps, p ≠ [] ∧ CStr p) → Holds names off (packed ps ++ [0]) →
      off + (packed ps).length < alloc → ps.length < fuel →
      read_names names alloc fuel off = some ps := by
  intro ps
  induction ps with
  | nil =>
    intro fuel off _ hh ha hf
    obtain ⟨f, rfl⟩ : ∃ f, fuel = f + 1 := ⟨fuel - 1, by simp at hf; omega⟩
    have h0 : names off = 0 := by simpa [packed] using hh 0 (by simp)
    simp only [packed, List.length_nil, Nat.add_zero] at ha
    simp only [read_names]
    rw [if_neg (by omega), if_pos h0]
  | cons p ps ih =>
    intro fuel off hp hh ha hf
    obtain ⟨f, rfl⟩ : ∃ f, fuel = f + 1 := ⟨fuel - 1, by simp at hf; omega⟩
    have hp0 := hp p (List.mem_cons_self _ _)
    have e : packed (p :: ps) ++ [0] = p ++ ([0] ++ (packed ps ++ [0])) := by simp [packed]
    rw [e, holds_append, holds_append] at hh
    obtain ⟨hh1, hh2, hh3⟩ := hh
    have hlen : (packed (p :: ps)).length = p.length + 1 + (packed ps).length := by
      simp [packed]; omega
    have hnz : ∀ i, i < p.length → names (off + i) ≠ 0 := by
      intro i hi
      rw [hh1 i hi, List.getD_eq_getElem _ _ hi]
      exact hp0.2 _ (List.getElem_mem _)
    have hz : names (off + p.length) = 0 := by simpa using hh2 0 (by simp)
    have hfirst : names off ≠ 0 := by
      have := hnz 0 (List.length_pos.2 hp0.1)
      simpa using this
    have hfind := find_nul_run names p.length (alloc - off) off hnz hz (by omega)
    have hrest := ih f (off + p.length + 1) (fun q hq => hp q (List.mem_cons_of_mem _ hq))
      (by simpa using hh3) (by omega) (by simp at hf; omega)
    simp only [read_names]
    rw [if_neg (by omega), if_neg hfirst, hfind]
    simp only [hrest]
    rw [show off + p.length - off = p.length by omega, mem_string_of_holds names off p hh1]

theorem path_of_cstr (e : List Nat × List Nat) (h1 : CStr e.1) (h2 : CStr e.2) :
    path_of e ≠ [] ∧ CStr (path_of e) := by
  constructor
  · simp [path_of]
  · intro b hb
    simp only [path_of, List.mem_append, List.mem_cons] at hb
    rcases hb with hb | hb | hb
    · exact h1 b hb
    · rw [hb]; decide
    · exact h2 b hb

/-! ### The directory scanner -/

theorem strip_length_id (x : List Nat) (h0 : x.getLast? ≠ none) (h1 : x.getLast? ≠ some slash)
    (h2 : x.getLast? ≠ some backslash) : strip_length x x.length = x.length := by
  cases hx : x.length with
  | zero =>
    rw [List.length_eq_zero] at hx
    subst hx
    simp at h0
  | succ n =>
    have hn : n < x.length := by omega
    have hl : x.getLast? = some (x.getD n 0) := by
      rw [List.getLast?_eq_getElem?, hx, Nat.add_sub_cancel, List.getD_eq_getElem _ _ hn,
        List.getElem?_eq_getElem hn]
    rw [hl] at h1 h2
    simp only [strip_length]
    rw [if_neg]
    rintro (h | h)
    · exact h1 (by rw [h])
    · exact h2 (by rw [h])

theorem rollback_extends {core c1 : ZoneFiles} {p : List Nat}
    (h : Extends core c1 [p]) : Extends core (rollback c1 core.length) [] := by
  obtain ⟨_, hf, hb, hm, hk, _⟩ := h
  refine ⟨rfl, ?_, hb, hm, hk, fun i hi => by simp [packed] at hi⟩
  simp [rollback, hf]

theorem c_string_at_rollback {core c1 : ZoneFiles} {p : List Nat} (hp : CStr p)
    (h : Extends core c1 [p]) (hl : c1.length ≤ c1.max) :
    c_string_at (rollback c1 core.length) core.length = some p := by
  obtain ⟨hlen, _, _, _, _, hs⟩ := h
  have e : packed [p] = p ++ [0] := by simp [packed]
  rw [e] at hs hlen
  rw [holds_append] at hs
  simp only [List.length_append, List.length_singleton] at hlen
  have hnz : ∀ i, i < p.length → c1.names (core.length + i) ≠ 0 := by
    intro i hi
    rw [hs.1 i hi, List.getD_eq_getElem _ _ hi]
    exact hp _ (List.getElem_mem _)
  have hz : c1.names (core.length + p.length) = 0 := by simpa using hs.2 0 (by simp)
  have hfind := find_nul_run c1.names p.length (c1.max + 2 - core.length) core.length hnz hz
    (by omega)
  simp only [c_string_at, rollback, ZoneFiles.alloc, hfind]
  rw [show core.length + p.length - core.length = p.length by omega,
    mem_string_of_holds _ _ _ hs.1]

theorem cstr_path {d n : List Nat} (hd : CStr d) (hn : CStr n) : CStr (d ++ slash :: n) :=
  (path_of_cstr (d, n) hd hn).2

theorem cstr_take {d : List Nat} (hd : CStr d) (k : Nat) : CStr (d.take k) :=
  fun b hb => hd b (List.mem_of_mem_take hb)

mutual
theorem scan_entry_spec : ∀ (e : DirEntry) (core : ZoneFiles) (dirname : List Nat),
    0 < core.max → CStr dirname → entry_ok e →
    ∃ core1, scan_entry core dirname e = some core1 ∧
      Extends core core1 (zone_entries_entry dirname e)
  | .file n, core, dirname, h0, hd, hok => by
    by_cases hdot : n = [46] ∨ n = [46, 46]
    · exact ⟨core, by simp [scan_entry, hdot], by simpa [zone_entries_entry, zone_entries_dir, hdot] using extends_refl core⟩
    · obtain ⟨c1, hc1, hx, _, _⟩ := addname_extends core dirname n h0
      by_cases hz : ends_with n dot_zone = true
      · exact ⟨c1, by simp [scan_entry, hdot, hc1, hz], by simpa [zone_entries_entry, zone_entries_dir, hdot, hz] using hx⟩
      · refine ⟨rollback c1 core.length, by simp [scan_entry, hdot, hc1, hz], ?_⟩
        simpa [zone_entries_entry, zone_entries_dir, hdot, hz] using rollback_extends hx
  | .dir n (.mk readable es), core, dirname, h0, hd, hok => by
    simp only [entry_ok, directory_ok] at hok
    obtain ⟨hn, hl0, hl1, hl2, hes⟩ := hok
    by_cases hdot : n = [46] ∨ n = [46, 46]
    · exact ⟨core, by simp [scan_entry, hdot], by simpa [zone_entries_entry, zone_entries_dir, hdot] using extends_refl core⟩
    · obtain ⟨c1, hc1, hx, _, hle⟩ := addname_extends core dirname n h0
      by_cases hz : ends_with n dot_zone = true
      · exact ⟨c1, by simp [scan_entry, hdot, hc1, hz], by simpa [zone_entries_entry, zone_entries_dir, hdot, hz] using hx⟩
      · have hcs := c_string_at_rollback (cstr_path hd hn) hx hle
        have hx2 := rollback_extends hx
        have hne : n ≠ [] := by rintro rfl; simp at hl0
        have hlast : (dirname ++ slash :: n).getLast? = n.getLast? := by
          rw [List.getLast?_append_of_ne_nil _ (by simp)]
          cases n with
          | nil => exact absurd rfl hne
          | cons a l => rw [List.getLast?_cons_cons]
        have hstrip := strip_length_id (dirname ++ slash :: n) (by rw [hlast]; exact hl0)
          (by rw [hlast]; exact hl1) (by rw [hlast]; exact hl2)
        have h02 : 0 < (rollback c1 core.length).max := lt_of_lt_of_le h0 hx2.2.2.2.1
        by_cases hr : readable = false
        · refine ⟨rollback c1 core.length, ?_, ?_⟩
          · simp [scan_entry, hdot, hc1, hz, hcs, directory_to_zonefile_list, hr]
          · simpa [zone_entries_entry, zone_entries_dir, hdot, hz, hr] using hx2
        · obtain ⟨c3, hc3, hx3⟩ := scan_entries_spec es (rollback c1 core.length)
            (dirname ++ slash :: n) h02 (cstr_path hd hn) hes
          refine ⟨c3, ?_, ?_⟩
          · simp only [scan_entry, if_neg hdot, hc1, hz, hcs, directory_to_zonefile_list, hr,
              hstrip, List.take_length]
            simpa using hc3
          · have := extends_trans hx2 hx3
            simpa [zone_entries_entry, zone_entries_dir, hdot, hz, hr] using this
theorem scan_entries_spec : ∀ (es : List DirEntry) (core : ZoneFiles) (dirname : List Nat),
    0 < core.max → CStr dirname → entries_ok es →
    ∃ core1, scan_entries core dirname es = some core1 ∧
      Extends core core1 (zone_entries_of dirname es)
  | [], core, dirname, _, _, _ => ⟨core, rfl, by simpa [zone_entries_of] using extends_refl core⟩
  | e :: rest, core, dirname, h0, hd, hok => by
    simp only [entries_ok] at hok
    obtain ⟨c1, hc1, hx1⟩ := scan_entry_spec e core dirname h0 hd hok.1
    obtain ⟨c2, hc2, hx2⟩ := scan_entries_spec rest c1 dirname (lt_of_lt_of_le h0 hx1.2.2.2.1) hd hok.2
    refine ⟨c2, by simp only [scan_entries, hc1]; exact hc2, ?_⟩
    simp only [zone_entries_of]
    exact extends_trans hx1 hx2
end

mutual
theorem zone_entries_entry_eq : ∀ (e : DirEntry) (dirname : List Nat),
    entry_plain e → zone_entries_entry dirname e = zone_files_entry dirname e
  | .file n, dirname, h => by
    simp only [entry_plain] at h
    simp [zone_entries_entry, zone_files_entry, h]
  | .dir n (.mk readable es), dirname, h => by
    simp only [entry_plain, directory_plain] at h
    obtain ⟨h1, h2, h3, h4⟩ := h
    simp [zone_entries_entry, zone_files_entry, zone_entries_dir, zone_files_dir, h1, h2, h3,
      zone_entries_eq_files es (dirname ++ slash :: n) h4]
theorem zone_entries_eq_files : ∀ (es : List DirEntry) (dirname : List Nat),
    entries_plain es → zone_entries_of dirname es = zone_files_of dirname es
  | [], _, _ => by simp [zone_entries_of, zone_files_of]
  | e :: rest, dirname, h => by
    simp only [entries_plain] at h
    simp [zone_entries_of, zone_files_of, zone_entries_entry_eq e dirname h.1,
      zone_entries_eq_files rest dirname h.2]
end

theorem recorded_of_extends {heap : Nat → Nat} {core : ZoneFiles} {ps : List (List Nat)}
    (h : Extends (conf_init heap) core ps) : Recorded core ps := by
  obtain ⟨hl, hf, _, _, _, hs⟩ := h
  simp only [conf_init, Nat.zero_add] at hl hf hs
  refine ⟨hl, hf, fun i hi => ?_⟩
  have := hs i (by omega)
  simpa using this

/-! ### The worker -/

theorem parse_loop_step (fs : FileSystem) (pe : List Event → SuccessFailure)
    (names : Nat → Nat) (alloc end_ fuel pos : Nat) (p : XParseThread) (q : List Nat)
    (hq : q ≠ []) (hc : CStr q) (hh : Holds names pos (q ++ [0]))
    (he : pos < end_) (ha : pos + q.length < alloc) :
    parse_loop fs pe names alloc end_ (fuel + 1) pos p =
      match fs q with
      | none => some { p with status := SuccessFailure.Failure,
                              trace := p.trace ++ [Event.fopen q] }
      | some _ => parse_loop fs pe names alloc end_ fuel (pos + q.length + 1)
          { p with total_bytes := p.total_bytes + file_size fs q,
                   trace := p.trace ++ file_events fs q } := by
  rw [holds_append] at hh
  have hnz : ∀ i, i < q.length → names (pos + i) ≠ 0 := by
    intro i hi
    rw [hh.1 i hi, List.getD_eq_getElem _ _ hi]
    exact hc _ (List.getElem_mem _)
  have hz : names (pos + q.length) = 0 := by simpa using hh.2 0 (by simp)
  have hfirst : names pos ≠ 0 := by simpa using hnz 0 (List.length_pos.2 hq)
  have hfind := find_nul_run names q.length (alloc - pos) pos hnz hz (by omega)
  simp only [parse_loop]
  rw [if_neg (by simpa using he), if_neg (by omega), if_neg hfirst, hfind]
  simp only [show pos + q.length - pos = q.length by omega, mem_string_of_holds names pos q hh.1]
  cases hfs : fs q with
  | none => rfl
  | some f =>
    simp only [file_size, file_events, hfs]
    by_cases h0 : f.filesize = 0
    · simp [h0]
    · simp [h0]

theorem parse_loop_done (fs : FileSystem) (pe : List Event → SuccessFailure)
    (names : Nat → Nat) (alloc end_ fuel pos : Nat) (p : XParseThread)
    (h : pos < end_ → pos < alloc ∧ names pos = 0) :
    parse_loop fs pe names alloc end_ (fuel + 1) pos p = some (finish pe p) := by
  simp only [parse_loop]
  by_cases he : pos < end_
  · rw [if_neg (by simpa using he), if_neg (by have := (h he).1; omega), if_pos (h he).2]
  · rw [if_pos he]

theorem packed_cons_length (q : List Nat) (qs : List (List Nat)) :
    (packed (q :: qs)).length = q.length + 1 + (packed qs).length := by
  simp [packed]; omega

theorem parse_loop_prefix (fs : FileSystem) (pe : List Event → SuccessFailure)
    (names : Nat → Nat) (alloc end_ : Nat) :
    ∀ (ps : List (List Nat)) (fuel pos : Nat) (p : XParseThread),
      (∀ q ∈ ps, q ≠ [] ∧ CStr q ∧ fs q ≠ none) → Holds names pos (packed ps) →
      pos + (packed ps).length ≤ end_ → pos + (packed ps).length ≤ alloc →
      parse_loop fs pe names alloc end_ (ps.length + fuel) pos p =
        parse_loop fs pe names alloc end_ fuel (pos + (packed ps).length)
          { p with total_bytes := p.total_bytes + sizes_of fs ps,
                   trace := p.trace ++ events_of fs ps } := by
  intro ps
  induction ps with
  | nil => intro fuel pos p _ _ _ _; simp [packed, sizes_of, events_of]
  | cons q qs ih =>
    intro fuel pos p hq hh he ha
    obtain ⟨hq0, hqc, hqf⟩ := hq q (List.mem_cons_self _ _)
    have e : packed (q :: qs) = (q ++ [0]) ++ packed qs := by simp [packed]
    rw [packed_cons_length] at he ha
    rw [e, holds_append] at hh
    obtain ⟨f, hf⟩ := Option.ne_none_iff_exists'.1 hqf
    have hstep := parse_loop_step fs pe names alloc end_ (qs.length + fuel) pos p q hq0 hqc hh.1
      (by omega) (by omega)
    rw [hf] at hstep
    simp only at hstep
    rw [show (q :: qs).length + fuel = qs.length + fuel + 1 by simp; omega, hstep]
    have hh2 : Holds names (pos + q.length + 1) (packed qs) := by
      simpa [Nat.add_assoc] using hh.2
    rw [ih fuel (pos + q.length + 1) _ (fun r hr => hq r (List.mem_cons_of_mem _ hr)) hh2
      (by omega) (by omega)]
    simp only [packed_cons_length, sizes_of, events_of, List.append_assoc, Nat.add_assoc]

theorem packed_length_ge (ps : List (List Nat)) : ps.length ≤ (packed ps).length := by
  rw [packed_length]; omega

theorem opened_append (a b : List Event) : opened (a ++ b) = opened a ++ opened b := by
  induction a with
  | nil => rfl
  | cons e es ih => cases e <;> simp [opened, ih]

theorem opened_parse (bs : List (List Nat)) : opened (bs.map Event.zonefile_parse) = [] := by
  induction bs with
  | nil => rfl
  | cons b bs ih => simp [opened, ih]

theorem opened_file_events (fs : FileSystem) (q : List Nat) : opened (file_events fs q) = [q] := by
  unfold file_events
  cases fs q with
  | none => rfl
  | some f =>
    by_cases h : f.filesize = 0
    · simp [h, opened]
    · simp [h, opened, opened_parse]

theorem opened_events_of (fs : FileSystem) (ps : List (List Nat)) :
    opened (events_of fs ps) = ps := by
  induction ps with
  | nil => rfl
  | cons q qs ih => simp [events_of, opened_append, opened_file_events, ih]

theorem parse_loop_packed (fs : FileSystem) (pe : List Event → SuccessFailure)
    (names : Nat → Nat) (alloc end_ : Nat) :
    ∀ (ps : List (List Nat)) (pos : Nat) (p : XParseThread),
      (∀ q ∈ ps, q ≠ [] ∧ CStr q) → Holds names pos (packed ps) →
      pos + (packed ps).length ≤ end_ → pos + (packed ps).length ≤ alloc →
      (pos + (packed ps).length < end_ →
        pos + (packed ps).length < alloc ∧ names (pos + (packed ps).length) = 0) →
      ∃ r, ∀ fuel, ps.length < fuel → parse_loop fs pe names alloc end_ fuel pos p = some r := by
  intro ps
  induction ps with
  | nil =>
    intro pos p _ _ _ _ hz
    refine ⟨finish pe p, fun fuel hf => ?_⟩
    obtain ⟨f, rfl⟩ : ∃ f, fuel = f + 1 := ⟨fuel - 1, by simp at hf; omega⟩
    exact parse_loop_done fs pe names alloc end_ f pos p (by simpa [packed] using hz)
  | cons q qs ih =>
    intro pos p hq hh he ha hz
    obtain ⟨hq0, hqc⟩ := hq q (List.mem_cons_self _ _)
    have e : packed (q :: qs) = (q ++ [0]) ++ packed qs := by simp [packed]
    rw [packed_cons_length] at he ha hz
    rw [e, holds_append] at hh
    have hh2 : Holds names (pos + q.length + 1) (packed qs) := by
      simpa [Nat.add_assoc] using hh.2
    have hstep := fun fuel => parse_loop_step fs pe names alloc end_ fuel pos p q hq0 hqc hh.1
      (by omega) (by omega)
    cases hfs : fs q with
    | none =>
      refine ⟨{ p with status := SuccessFailure.Failure,
                       trace := p.trace ++ [Event.fopen q] }, fun fuel hf => ?_⟩
      obtain ⟨f, rfl⟩ : ∃ f, fuel = f + 1 := ⟨fuel - 1, by simp at hf; omega⟩
      rw [hstep f, hfs]
    | some f0 =>
      obtain ⟨r, hr⟩ := ih (pos + q.length + 1)
        { p with total_bytes := p.total_bytes + file_size fs q,
                 trace := p.trace ++ file_events fs q }
        (fun r hr => hq r (List.mem_cons_of_mem _ hr)) hh2 (by omega) (by omega)
        (by simpa [Nat.add_assoc, Nat.add_comm, Nat.add_left_comm] using hz)
      refine ⟨r, fun fuel hf => ?_⟩
      obtain ⟨f, rfl⟩ : ∃ f, fuel = f + 1 := ⟨fuel - 1, by simp at hf; omega⟩
      rw [hstep f, hfs]
      exact hr f (by simp at hf; omega)

theorem sample_chunk_holds :
    ChunkHolds sample_core sample_thread ([[100, 47, 97]] ++ [100, 47, 98] :: [[100, 47, 99]]) := by
  unfold ChunkHolds Holds CStr
  decide


/-! ### The chunk partitioner -/

theorem chunk_loop_step (names : Nat → Nat) (alloc length tc k pos end1 n : Nat)
    (hpos : pos < alloc) (hnz : names pos ≠ 0) (h2 : 2 ≤ length)
    (hend : end1 = if pos + length / tc > length then length - 2 else pos + length / tc)
    (hrun : ∀ i, i < n → names (end1 + i) ≠ 0) (hz : names (end1 + n) = 0)
    (ha : end1 + n < alloc) :
    chunk_loop names alloc length tc (k + 1) pos =
      match chunk_loop names alloc length tc k (end1 + n + 1) with
      | none => none
      | some rest => some ((pos, end1 + n + 1) :: rest) := by
  have hfind := find_nul_run names n (alloc - end1) end1 hrun hz (by omega)
  simp only [chunk_loop]
  rw [if_neg (by omega), if_neg hnz, if_neg (by omega), ← hend, hfind]

theorem chunk_loop_bug (names : Nat → Nat) (alloc : Nat) (ha : 66642 ≤ alloc)
    (h0 : names 0 ≠ 0)
    (hp1 : ∀ i, i < 8329 → names (16660 + i) ≠ 0) (hz1 : names 24989 = 0)
    (h1 : names 24990 ≠ 0)
    (hp2 : ∀ i, i < 8329 → names (41650 + i) ≠ 0) (hz2 : names 49979 = 0)
    (h2 : names 49980 ≠ 0)
    (hz3 : names 66640 = 0) (h3 : names 66641 ≠ 0)
    (h4 : names 66638 ≠ 0) (hz4 : names 66639 = 0) :
    chunk_loop names alloc 66640 4 4 0 =
      some [(0, 24990), (24990, 49980), (49980, 66641), (66641, 66640)] := by
  rw [chunk_loop_step names alloc 66640 4 3 0 16660 8329 (by omega) h0 (by omega) (by norm_num)
    hp1 (by simpa using hz1) (by omega)]
  rw [chunk_loop_step names alloc 66640 4 2 24990 41650 8329 (by omega) h1 (by omega)
    (by norm_num) hp2 (by simpa using hz2) (by omega)]
  rw [chunk_loop_step names alloc 66640 4 1 49980 66640 0 (by omega) h2 (by omega)
    (by norm_num) (fun i hi => absurd hi (by omega)) (by simpa using hz3) (by omega)]
  rw [chunk_loop_step names alloc 66640 4 0 66641 66638 1 (by omega) h3 (by omega)
    (by norm_num) (fun i hi => by
      obtain rfl : i = 0 := by omega
      simpa using h4) (by simpa using hz4) (by omega)]
  simp [chunk_loop]
theorem holds_cstr {names : Nat → Nat} {off : Nat} {q : List Nat}
    (hh : Holds names off (q ++ [0])) (hc : CStr q) :
    (∀ i, i < q.length → names (off + i) ≠ 0) ∧ names (off + q.length) = 0 := by
  rw [holds_append] at hh
  refine ⟨fun i hi => ?_, by simpa using hh.2 0 (by simp)⟩
  rw [hh.1 i hi, List.getD_eq_getElem _ _ hi]
  exact hc _ (List.getElem_mem _)

theorem holds_packed_mid {names : Nat → Nat} {off : Nat} (A : List (List Nat)) (q : List Nat)
    (B : List (List Nat)) (hh : Holds names off (packed (A ++ q :: B))) :
    Holds names (off + (packed A).length) (q ++ [0]) := by
  have e : packed (A ++ q :: B) = packed A ++ ((q ++ [0]) ++ packed B) := by
    rw [packed_append]; simp [packed]
  rw [e, holds_append, holds_append] at hh
  exact hh.2.1

theorem packed_replicate_length (n : Nat) (s : List Nat) :
    (packed (List.replicate n s)).length = n * (s.length + 1) := by
  induction n with
  | zero => simp [packed]
  | succ n ih => rw [List.replicate_succ, packed_cons_length, ih]; ring

theorem bug_chunks_general (names : Nat → Nat) (alloc : Nat) (s p : List Nat)
    (R R' : List (List Nat)) (hsc : CStr s) (hsl : s.length = 9)
    (hpc : CStr p) (hpl : p.length = 8329)
    (hR : (packed R).length = 16650) (hR' : (packed R').length = 16640)
    (hh : Holds names 0 (packed ((s :: R) ++ p :: ((s :: R) ++ p :: ((s :: R') ++ [s])))))
    (hz : names 66640 = 0) (hnz : names 66641 ≠ 0) (ha : 66642 ≤ alloc) :
    chunk_loop names alloc 66640 4 4 0 =
      some [(0, 24990), (24990, 49980), (49980, 66641), (66641, 66640)] := by
  have hA : (packed (s :: R)).length = 16660 := by rw [packed_cons_length, hsl, hR]
  have f1 := holds_cstr (holds_packed_mid [] s _ (by simpa using hh)) hsc
  have f2 := holds_cstr (holds_packed_mid (s :: R) p _ hh) hpc
  have f3 := holds_cstr (holds_packed_mid ((s :: R) ++ [p]) s (R ++ p :: ((s :: R') ++ [s]))
    (by simpa using hh)) hsc
  have f4 := holds_cstr (holds_packed_mid ((s :: R) ++ p :: (s :: R)) p ((s :: R') ++ [s])
    (by simpa using hh)) hpc
  have f5 := holds_cstr (holds_packed_mid ((s :: R) ++ p :: ((s :: R) ++ [p])) s (R' ++ [s])
    (by simpa using hh)) hsc
  have f6 := holds_cstr (holds_packed_mid ((s :: R) ++ p :: ((s :: R) ++ p :: (s :: R'))) s []
    (by simpa using hh)) hsc
  have l3 : (packed ((s :: R) ++ [p])).length = 24990 := by
    rw [packed_append, List.length_append, hA]; simp [packed, hpl]
  have l4 : (packed ((s :: R) ++ p :: (s :: R))).length = 41650 := by
    rw [packed_append, List.length_append, hA, packed_cons_length, hA, hpl]
  have l5 : (packed ((s :: R) ++ p :: ((s :: R) ++ [p]))).length = 49980 := by
    rw [packed_append, List.length_append, hA, packed_cons_length, hpl, packed_append,
      List.length_append, hA]
    simp [packed, hpl]
  have l6 : (packed ((s :: R) ++ p :: ((s :: R) ++ p :: (s :: R')))).length = 66630 := by
    rw [packed_append, List.length_append, hA, packed_cons_length, hpl, packed_append,
      List.length_append, hA, packed_cons_length, hpl, packed_cons_length, hsl, hR']
  rw [hA, hpl] at f2
  rw [l3, hsl] at f3
  rw [l4, hpl] at f4
  rw [l5, hsl] at f5
  rw [l6, hsl] at f6
  simp only [packed, List.length_nil, Nat.add_zero, Nat.zero_add, hsl] at f1
  simp only [Nat.zero_add] at f2 f3 f4 f5 f6
  apply chunk_loop_bug names alloc ha
  · simpa using f1.1 0 (by omega)
  · exact f2.1
  · exact f2.2
  · simpa using f3.1 0 (by omega)
  · exact f4.1
  · exact f4.2
  · simpa using f5.1 0 (by omega)
  · exact hz
  · exact hnz
  · simpa using f6.1 8 (by omega)
  · exact f6.2

theorem cstr_bug_long : CStr (path_of (bug_wd, bug_long)) := by
  apply cstr_path
  · simp [CStr, bug_wd]
  · intro b hb
    simp only [bug_long, List.mem_append, List.mem_replicate, dot_zone, List.mem_cons,
      List.mem_singleton] at hb
    rcases hb with ⟨_, rfl⟩ | hb
    · decide
    · simp at hb
      omega

theorem cstr_bug_short : CStr (path_of (bug_wd, bug_short)) := by
  simp [CStr, path_of, bug_wd, bug_short, slash]

theorem length_bug_long : (path_of (bug_wd, bug_long)).length = 8329 := by
  simp only [path_of, bug_long, bug_wd, dot_zone, List.length_append, List.length_cons,
    List.length_replicate, List.length_nil]

theorem bug_paths_eq :
    bug_paths =
      (path_of (bug_wd, bug_short) :: List.replicate 1665 (path_of (bug_wd, bug_short))) ++
        path_of (bug_wd, bug_long) ::
          ((path_of (bug_wd, bug_short) :: List.replicate 1665 (path_of (bug_wd, bug_short))) ++
            path_of (bug_wd, bug_long) ::
              ((path_of (bug_wd, bug_short) ::
                  List.replicate 1664 (path_of (bug_wd, bug_short))) ++
                [path_of (bug_wd, bug_short)])) := by
  have e1 : List.replicate 1666 (path_of (bug_wd, bug_short)) =
      path_of (bug_wd, bug_short) :: List.replicate 1665 (path_of (bug_wd, bug_short)) :=
    List.replicate_succ _ 1665
  have e2 : List.replicate 1665 (path_of (bug_wd, bug_short)) =
      path_of (bug_wd, bug_short) :: List.replicate 1664 (path_of (bug_wd, bug_short)) :=
    List.replicate_succ _ 1664
  simp only [bug_paths, bug_args, List.map_append, List.map_cons, List.map_replicate,
    List.append_assoc, List.cons_append]
  rw [e1]
  simp only [List.cons_append]
  refine congrArg _ (congrArg _ (congrArg _ (congrArg _ (congrArg _ (congrArg _ ?_)))))
  rw [e2]
  rfl

theorem bug_args_length : (packed (bug_args.map path_of)).length = 66630 := by
  simp only [bug_args, List.map_append, List.map_cons, List.map_replicate, packed_append,
    packed_cons_length, List.length_append, packed_replicate_length, length_bug_long]
  norm_num [path_of, bug_wd, bug_short]

theorem bug_paths_wf : ∀ q ∈ bug_paths, q ≠ [] ∧ CStr q := by
  intro q hq
  have hs := path_of_cstr (bug_wd, bug_short) (by simp [CStr, bug_wd]) (by simp [CStr, bug_short])
  have hl : path_of (bug_wd, bug_long) ≠ [] ∧ CStr (path_of (bug_wd, bug_long)) :=
    ⟨by simp [path_of], cstr_bug_long⟩
  simp only [bug_paths, bug_args, List.map_append, List.map_cons, List.map_replicate,
    List.mem_append, List.mem_cons, List.mem_replicate, List.mem_singleton,
    List.not_mem_nil, or_false] at hq
  rcases hq with (⟨_, h⟩ | h | ⟨_, h⟩ | h | ⟨_, h⟩) | h
  · rw [h]; exact hs
  · rw [h]; exact hl
  · rw [h]; exact hs
  · rw [h]; exact hl
  · rw [h]; exact hs
  · rw [h]; exact hs

theorem bug_scan (c1 : ZoneFiles) (h01 : 0 < c1.max) :
    ∃ c3, directory_to_zonefile_list c1 bug_wd bug_dir = some c3 ∧
      Extends c1 c3 [path_of (bug_wd, bug_short)] ∧
      c3.names = memcpy (memcpy c1.names c1.length (bug_wd ++ slash :: (bug_conf ++ [0, 0])))
        c1.length (bug_wd ++ slash :: (bug_short ++ [0, 0])) ∧
      c1.length + bug_wd.length + bug_conf.length + 2 ≤ c3.max := by
  obtain ⟨m2, ha2, hn2, hm2⟩ := addname_spec c1 bug_wd bug_conf h01
  obtain ⟨m3, ha3, hn3, hm3⟩ := addname_spec
    (rollback { names := memcpy c1.names c1.length (bug_wd ++ slash :: (bug_conf ++ [0, 0])),
                length := c1.length + bug_wd.length + bug_conf.length + 2, max := m2,
                total_files := c1.total_files + 1, total_bytes := c1.total_bytes } c1.length)
    bug_wd bug_short (by simp only [rollback]; omega)
  obtain ⟨c3, hc3, hx3⟩ := scan_entries_spec [.file bug_conf, .file bug_short] c1 bug_wd h01
    (by simp [CStr, bug_wd]) (by simp [entries_ok, entry_ok, CStr, bug_conf, bug_short])
  have hscan : directory_to_zonefile_list c1 bug_wd bug_dir = some c3 := by
    simp only [bug_dir, directory_to_zonefile_list]
    have : strip_length bug_wd bug_wd.length = 2 := by decide
    rw [this]
    simpa [bug_wd] using hc3
  have hze : zone_entries_of bug_wd [.file bug_conf, .file bug_short] =
      [path_of (bug_wd, bug_short)] := by decide
  rw [hze] at hx3
  have hc3' := hc3
  simp only [scan_entries, scan_entry] at hc3'
  rw [if_neg (by decide), ha2] at hc3'
  simp only [show ends_with bug_conf dot_zone = false by decide, Bool.false_eq_true, if_false] at hc3'
  rw [if_neg (by decide), ha3] at hc3'
  simp only [show ends_with bug_short dot_zone = true by decide, if_true] at hc3'
  have hc3n := Option.some.inj hc3'
  refine ⟨c3, hscan, hx3, ?_, ?_⟩
  · rw [← hc3n]; rfl
  · rw [← hc3n]
    show _ ≤ m3
    simp only [rollback] at hm3
    omega

theorem path_starts_lt : ∀ (ps : List (List Nat)) (off x : Nat),
    x ∈ path_starts off ps → x < off + (packed ps).length := by
  intro ps
  induction ps with
  | nil => intro off x h; simp [path_starts] at h
  | cons p ps ih =>
    intro off x h
    simp only [path_starts, List.mem_cons] at h
    rw [packed_cons_length]
    rcases h with rfl | h
    · omega
    · have := ih _ _ h
      omega

theorem bug_paths_length : bug_paths.length = 5000 := by
  simp only [bug_paths, bug_args, List.map_append, List.map_cons, List.map_replicate,
    List.length_append, List.length_cons, List.length_replicate, List.length_nil]

theorem bug_packed_length : (packed bug_paths).length = 66640 := by
  unfold bug_paths
  rw [packed_append, List.length_append, bug_args_length]
  simp [packed, path_of, bug_wd, bug_short]

theorem bug_state (heap : Nat → Nat) :
    ∃ c1 core, add_names (conf_init heap) bug_args = some c1 ∧
      directory_to_zonefile_list c1 bug_wd bug_dir = some core ∧
      Extends (conf_init heap) core bug_paths ∧
      core.names 66640 = 0 ∧ core.names 66641 = 111 ∧ 66645 ≤ core.max := by
  obtain ⟨c1, h1, hx1, _⟩ := add_names_extends bug_args (conf_init heap) (by simp [conf_init])
  have hl1 : c1.length = 66630 := by
    rw [hx1.1, bug_args_length]; simp [conf_init]
  have h01 : 0 < c1.max := lt_of_lt_of_le (by simp [conf_init]) hx1.2.2.2.1
  obtain ⟨c3, hscan, hx3, hn3, hm3⟩ := bug_scan c1 h01
  have hx : Extends (conf_init heap) c3 bug_paths := by
    unfold bug_paths
    exact extends_trans hx1 hx3
  refine ⟨c1, c3, h1, hscan, hx, ?_, ?_, ?_⟩
  · rw [hn3, hl1]
    simp [memcpy, bug_wd, bug_short, slash]
  · rw [hn3, hl1]
    simp [memcpy, bug_wd, bug_short, bug_conf, slash]
  · have : c1.length + bug_wd.length + bug_conf.length + 2 = 66645 := by
      rw [hl1]; simp [bug_wd, bug_conf]
    omega

theorem bug_chunks (heap : Nat → Nat) :
    ∃ c1 core, add_names (conf_init heap) bug_args = some c1 ∧
      directory_to_zonefile_list c1 bug_wd bug_dir = some core ∧
      Recorded core bug_paths ∧ core.names core.length = 0 ∧
      thread_count_for core.total_files = 4 ∧
      zonefile_chunks core =
        some [(0, 24990), (24990, 49980), (49980, 66641), (66641, 66640)] := by
  obtain ⟨c1, core, h1, h2, hx, hz, hnz, hm⟩ := bug_state heap
  have hrec := recorded_of_extends hx
  have hlen : core.length = 66640 := by rw [hrec.1, bug_packed_length]
  have htf : core.total_files = 5000 := by rw [hrec.2.1, bug_paths_length]
  have htc : thread_count_for 5000 = 4 := by decide
  have hh : Holds core.names 0 (packed bug_paths) := by
    have := hx.2.2.2.2.2
    simpa [conf_init] using this
  rw [bug_paths_eq] at hh
  refine ⟨c1, core, h1, h2, hrec, by rw [hlen]; exact hz, by rw [htf]; exact htc, ?_⟩
  unfold zonefile_chunks chunks_for
  rw [htf, htc, hlen]
  exact bug_chunks_general core.names core.alloc (path_of (bug_wd, bug_short))
    (path_of (bug_wd, bug_long)) (List.replicate 1665 (path_of (bug_wd, bug_short)))
    (List.replicate 1664 (path_of (bug_wd, bug_short))) cstr_bug_short
    (by simp [path_of, bug_wd, bug_short]) cstr_bug_long length_bug_long
    (by rw [packed_replicate_length]; simp [path_of, bug_wd, bug_short])
    (by rw [packed_replicate_length]; simp [path_of, bug_wd, bug_short])
    hh hz (by rw [hnz]; decide) (by simp only [ZoneFiles.alloc]; omega)

/-! ### Join, end-to-end run and text helpers -/

theorem join_workers_spec : ∀ (ws : List XParseThread) (acc : SuccessFailure × Nat),
    join_workers ws acc =
      (if ∃ w ∈ ws, w.status ≠ SuccessFailure.Success then SuccessFailure.Failure else acc.1,
       acc.2 + (ws.map (fun w => w.total_bytes)).sum) := by
  intro ws
  induction ws with
  | nil => intro acc; simp [join_workers]
  | cons w ws ih =>
    intro acc
    rw [join_workers, ih]
    refine Prod.ext ?_ (by simp only [List.map_cons, List.sum_cons]; omega)
    simp only [List.exists_mem_cons_iff]
    by_cases h1 : ∃ x ∈ ws, x.status ≠ SuccessFailure.Success
    · rw [if_pos h1, if_pos (Or.inr h1)]
    · rw [if_neg h1]
      by_cases h2 : w.status ≠ SuccessFailure.Success
      · rw [if_pos h2, if_pos (Or.inl h2)]
      · rw [if_neg h2, if_neg (by rintro (h | h); exact h2 h; exact h1 h)]

theorem sample_run :
    ∃ r, conf_zonefiles_parse (sample_fs none) (fun _ => SuccessFailure.Success)
        SuccessFailure.Success sample_core = some r :=
  ⟨_, rfl⟩

theorem e2e_core (heap : Nat → Nat) :
    ∃ core w, directory_to_zonefile_list (conf_init heap) [100] e2e_dir = some core ∧
      core.total_files = 2 ∧ core.length = 18 ∧ core.alloc = 56 ∧ core.total_bytes = 0 ∧
      chunk_loop core.names 56 18 1 1 0 = some [(0, 26)] ∧
      parse_loop e2e_fs (fun _ => SuccessFailure.Success) core.names 56 26 27 0
        { filename := 0, end_ := 26, status := SuccessFailure.Success, total_bytes := 0,
          trace := [Event.zonefile_begin] } = some w ∧
      opened w.trace = [[100, 47, 97, 46, 122, 111, 110, 101], [100, 47, 98, 46, 122, 111, 110, 101],
          [100, 47, 99, 46, 116, 120, 116]] ∧ w.total_bytes = 105 ∧ w.status = SuccessFailure.Success := by
  refine ⟨_, _, rfl, rfl, rfl, rfl, rfl, rfl, rfl, rfl, rfl, rfl⟩

theorem single_file_core (heap : Nat → Nat) :
    ∃ core, conf_zonefile_addname (conf_init heap) [100] [97, 46, 122, 111, 110, 101] = some core ∧
      core.length = 9 ∧ core.alloc = 20 ∧ core.total_files = 1 ∧ core.names 9 = 0 ∧
      chunk_loop core.names 20 9 1 1 0 = some [(0, 10)] :=
  ⟨_, rfl, rfl, rfl, rfl, rfl, rfl⟩

theorem fread_blocks_spec : ∀ (fuel : Nat) (content : List Nat), content.length ≤ fuel →
    (fread_blocks fuel content).flatten = content ∧
    (∀ b ∈ fread_blocks fuel content, 1 ≤ b.length ∧ b.length ≤ 65536) ∧
    (∀ b ∈ (fread_blocks fuel content).dropLast, b.length = 65536) ∧
    (fread_blocks fuel content = [] ↔ content = []) := by
  intro fuel
  induction fuel with
  | zero =>
    intro content h
    have : content = [] := List.length_eq_zero.1 (by omega)
    subst this
    simp [fread_blocks]
  | succ fuel ih =>
    intro content h
    by_cases h0 : content.take 65536 = []
    · have hc : content = [] := by
        cases content with
        | nil => rfl
        | cons a l => simp at h0
      subst hc
      simp [fread_blocks]
    · have hne : content ≠ [] := by rintro rfl; simp at h0
      have hpos : 0 < content.length := List.length_pos.2 hne
      obtain ⟨i1, i2, i3, i4⟩ := ih (content.drop 65536) (by simp only [List.length_drop]; omega)
      simp only [fread_blocks, if_neg h0]
      refine ⟨?_, ?_, ?_, by simp [hne]⟩
      · rw [List.flatten_cons, i1, List.take_append_drop]
      · intro b hb
        rcases List.mem_cons.1 hb with rfl | hb
        · simp only [List.length_take]; omega
        · exact i2 b hb
      · intro b hb
        by_cases hr : fread_blocks fuel (content.drop 65536) = []
        · rw [hr] at hb; simp at hb
        · rw [List.dropLast_cons_of_ne_nil hr] at hb
          rcases List.mem_cons.1 hb with rfl | hb
          · have hd : content.drop 65536 ≠ [] := fun h => hr (i4.2 h)
            have := List.length_pos.2 hd
            simp only [List.length_drop] at this
            simp only [List.length_take]; omega
          · exact i3 b hb

/-! ### The second 5000-file run -/

theorem chunk_loop_wide (names : Nat → Nat) (alloc : Nat) (ha : 100002 ≤ alloc)
    (h0 : names 0 ≠ 0)
    (hp1 : ∀ i, i < 49999 → names (25000 + i) ≠ 0) (hz1 : names 74999 = 0)
    (h1 : names 75000 ≠ 0)
    (hz2 : names 100000 = 0) (h2 : names 100001 ≠ 0)
    (h3 : names 99998 ≠ 0) (hz3 : names 99999 = 0) :
    chunk_loop names alloc 100000 4 4 0 =
      some [(0, 75000), (75000, 100001), (100001, 100000)] := by
  rw [chunk_loop_step names alloc 100000 4 3 0 25000 49999 (by omega) h0 (by omega) (by norm_num)
    hp1 (by simpa using hz1) (by omega)]
  rw [chunk_loop_step names alloc 100000 4 2 75000 100000 0 (by omega) h1 (by omega)
    (by norm_num) (fun i hi => absurd hi (by omega)) (by simpa using hz2) (by omega)]
  rw [chunk_loop_step names alloc 100000 4 1 100001 99998 1 (by omega) h2 (by omega)
    (by norm_num) (fun i hi => by
      obtain rfl : i = 0 := by omega
      simpa using h3) (by simpa using hz3) (by omega)]
  have e : chunk_loop names alloc 100000 4 1 100000 = some [] := by
    rw [chunk_loop, if_neg (by omega), if_pos hz2]
  rw [show 99998 + 1 + 1 = 100000 from rfl, e]

theorem wide_chunks_general (names : Nat → Nat) (alloc : Nat) (s p : List Nat)
    (R R' : List (List Nat)) (hsc : CStr s) (hsl : s.length = 9)
    (hpc : CStr p) (hpl : p.length = 50009)
    (hR : (packed R).length = 24980) (hR' : (packed R').length = 24980)
    (hh : Holds names 0 (packed ((s :: R) ++ p :: ((s :: R') ++ [s]))))
    (hz : names 100000 = 0) (hnz : names 100001 ≠ 0) (ha : 100002 ≤ alloc) :
    chunk_loop names alloc 100000 4 4 0 =
      some [(0, 75000), (75000, 100001), (100001, 100000)] := by
  have hA : (packed (s :: R)).length = 24990 := by rw [packed_cons_length, hsl, hR]
  have f1 := holds_cstr (holds_packed_mid [] s _ (by simpa using hh)) hsc
  have f2 := holds_cstr (holds_packed_mid (s :: R) p _ hh) hpc
  have f3 := holds_cstr (holds_packed_mid ((s :: R) ++ [p]) s (R' ++ [s])
    (by simpa using hh)) hsc
  have f4 := holds_cstr (holds_packed_mid ((s :: R) ++ p :: (s :: R')) s []
    (by simpa using hh)) hsc
  have l3 : (packed ((s :: R) ++ [p])).length = 75000 := by
    rw [packed_append, List.length_append, hA]; simp [packed, hpl]
  have l4 : (packed ((s :: R) ++ p :: (s :: R'))).length = 99990 := by
    rw [packed_append, List.length_append, hA, packed_cons_length, hpl, packed_cons_length,
      hsl, hR']
  rw [hA, hpl] at f2
  rw [l3, hsl] at f3
  rw [l4, hsl] at f4
  simp only [packed, List.length_nil, Nat.add_zero, Nat.zero_add, hsl] at f1
  simp only [Nat.zero_add] at f2 f3 f4
  apply chunk_loop_wide names alloc ha
  · simpa using f1.1 0 (by omega)
  · intro i hi
    have := f2.1 (10 + i) (by omega)
    rwa [show 24990 + (10 + i) = 25000 + i by omega] at this
  · exact f2.2
  · simpa using f3.1 0 (by omega)
  · exact hz
  · exact hnz
  · simpa using f4.1 8 (by omega)
  · exact f4.2

theorem cstr_wide_long : CStr (path_of (bug_wd, wide_long)) := by
  apply cstr_path
  · simp [CStr, bug_wd]
  · intro b hb
    simp only [wide_long, List.mem_append, List.mem_replicate, dot_zone, List.mem_cons,
      List.mem_singleton] at hb
    rcases hb with ⟨_, rfl⟩ | hb
    · decide
    · simp at hb
      omega

theorem length_wide_long : (path_of (bug_wd, wide_long)).length = 50009 := by
  have e1 : dot_zone.length = 5 := rfl
  have e2 : bug_wd.length = 2 := rfl
  have e3 : path_of (bug_wd, wide_long) = bug_wd ++ slash :: wide_long := rfl
  rw [e3, List.length_append, List.length_cons, wide_long, List.length_append,
    List.length_replicate, e1, e2]

theorem wide_paths_eq :
    wide_paths =
      (path_of (bug_wd, bug_short) :: List.replicate 2498 (path_of (bug_wd, bug_short))) ++
        path_of (bug_wd, wide_long) ::
          ((path_of (bug_wd, bug_short) ::
              List.replicate 2498 (path_of (bug_wd, bug_short))) ++
            [path_of (bug_wd, bug_short)]) := by
  have e1 : List.replicate 2499 (path_of (bug_wd, bug_short)) =
      path_of (bug_wd, bug_short) :: List.replicate 2498 (path_of (bug_wd, bug_short)) :=
    List.replicate_succ _ 2498
  simp only [wide_paths, wide_args, List.map_append, List.map_cons, List.map_replicate,
    e1, List.append_assoc, List.cons_append]

theorem wide_args_length : (packed (wide_args.map path_of)).length = 99990 := by
  simp only [wide_args, List.map_append, List.map_cons, List.map_replicate, packed_append,
    packed_cons_length, List.length_append, packed_replicate_length, length_wide_long]
  norm_num [path_of, bug_wd, bug_short]

theorem wide_paths_wf : ∀ q ∈ wide_paths, q ≠ [] ∧ CStr q := by
  intro q hq
  have hs := path_of_cstr (bug_wd, bug_short) (by simp [CStr, bug_wd]) (by simp [CStr, bug_short])
  have hl : path_of (bug_wd, wide_long) ≠ [] ∧ CStr (path_of (bug_wd, wide_long)) :=
    ⟨by simp [path_of], cstr_wide_long⟩
  simp only [wide_paths, wide_args, List.map_append, List.map_cons, List.map_replicate,
    List.mem_append, List.mem_cons, List.mem_replicate, List.mem_singleton,
    List.not_mem_nil, or_false] at hq
  rcases hq with (⟨_, h⟩ | h | ⟨_, h⟩) | h
  · rw [h]; exact hs
  · rw [h]; exact hl
  · rw [h]; exact hs
  · rw [h]; exact hs

theorem wide_paths_length : wide_paths.length = 5000 := by
  simp only [wide_paths, wide_args, List.map_append, List.map_cons, List.map_replicate,
    List.length_append, List.length_cons, List.length_replicate, List.length_nil]

theorem wide_packed_length : (packed wide_paths).length = 100000 := by
  unfold wide_paths
  rw [packed_append, List.length_append, wide_args_length]
  simp [packed, path_of, bug_wd, bug_short]

theorem wide_state (heap : Nat → Nat) :
    ∃ c1 core, add_names (conf_init heap) wide_args = some c1 ∧
      directory_to_zonefile_list c1 bug_wd bug_dir = some core ∧
      Extends (conf_init heap) core wide_paths ∧
      core.names 100000 = 0 ∧ core.names 100001 = 111 ∧ 100005 ≤ core.max := by
  obtain ⟨c1, h1, hx1, _⟩ := add_names_extends wide_args (conf_init heap) (by simp [conf_init])
  have hl1 : c1.length = 99990 := by
    rw [hx1.1, wide_args_length]; simp [conf_init]
  have h01 : 0 < c1.max := lt_of_lt_of_le (by simp [conf_init]) hx1.2.2.2.1
  obtain ⟨c3, hscan, hx3, hn3, hm3⟩ := bug_scan c1 h01
  have hx : Extends (conf_init heap) c3 wide_paths := by
    unfold wide_paths
    exact extends_trans hx1 hx3
  refine ⟨c1, c3, h1, hscan, hx, ?_, ?_, ?_⟩
  · rw [hn3, hl1]
    simp [memcpy, bug_wd, bug_short, slash]
  · rw [hn3, hl1]
    simp [memcpy, bug_wd, bug_short, bug_conf, slash]
  · have : c1.length + bug_wd.length + bug_conf.length + 2 = 100005 := by
      rw [hl1]; simp [bug_wd, bug_conf]
    omega

theorem wide_chunks (heap : Nat → Nat) :
    ∃ c1 core, add_names (conf_init heap) wide_args = some c1 ∧
      directory_to_zonefile_list c1 bug_wd bug_dir = some core ∧
      Recorded core wide_paths ∧ core.names core.length = 0 ∧
      thread_count_for core.total_files = 4 ∧ core.length < core.alloc ∧
      zonefile_chunks core = some [(0, 75000), (75000, 100001), (100001, 100000)] := by
  obtain ⟨c1, core, h1, h2, hx, hz, hnz, hm⟩ := wide_state heap
  have hrec := recorded_of_extends hx
  have hlen : core.length = 100000 := by rw [hrec.1, wide_packed_length]
  have htf : core.total_files = 5000 := by rw [hrec.2.1, wide_paths_length]
  have htc : thread_count_for 5000 = 4 := by decide
  have hh : Holds core.names 0 (packed wide_paths) := by
    have := hx.2.2.2.2.2
    simpa [conf_init] using this
  rw [wide_paths_eq] at hh
  refine ⟨c1, core, h1, h2, hrec, by rw [hlen]; exact hz, by rw [htf]; exact htc,
    by rw [hlen]; simp only [ZoneFiles.alloc]; omega, ?_⟩
  unfold zonefile_chunks chunks_for
  rw [htf, htc, hlen]
  exact wide_chunks_general core.names core.alloc (path_of (bug_wd, bug_short))
    (path_of (bug_wd, wide_long)) (List.replicate 2498 (path_of (bug_wd, bug_short)))
    (List.replicate 2498 (path_of (bug_wd, bug_short))) cstr_bug_short
    (by simp [path_of, bug_wd, bug_short]) cstr_wide_long length_wide_long
    (by rw [packed_replicate_length]; simp [path_of, bug_wd, bug_short])
    (by rw [packed_replicate_length]; simp [path_of, bug_wd, bug_short])
    hh hz (by rw [hnz]; decide) (by simp only [ZoneFiles.alloc]; omega)

/-! ### Chunks and workers of a well-formed list -/

theorem sizes_of_append (fs : FileSystem) (a b : List (List Nat)) :
    sizes_of fs (a ++ b) = sizes_of fs a + sizes_of fs b := by
  induction a with
  | nil => simp [sizes_of]
  | cons q qs ih => simp [sizes_of, ih, Nat.add_assoc]

theorem first_unopened (fs : FileSystem) : ∀ (ps : List (List Nat)),
    (∃ q ∈ ps, fs q = none) →
    ∃ before k after, ps = before ++ k :: after ∧ (∀ q ∈ before, fs q ≠ none) ∧ fs k = none := by
  intro ps
  induction ps with
  | nil => rintro ⟨q, hq, _⟩; simp at hq
  | cons p ps ih =>
    intro h
    by_cases hp : fs p = none
    · exact ⟨[], p, ps, rfl, by simp, hp⟩
    · obtain ⟨q, hq, hqn⟩ := h
      have hq' : q ∈ ps := by
        rcases List.mem_cons.1 hq with rfl | h'
        · exact absurd hqn hp
        · exact h'
      obtain ⟨before, k, after, he, hb, hk⟩ := ih ⟨q, hq', hqn⟩
      refine ⟨p :: before, k, after, by rw [he]; rfl, ?_, hk⟩
      intro r hr
      rcases List.mem_cons.1 hr with rfl | h'
      · exact hp
      · exact hb r h'

theorem worker_run_open (fs : FileSystem) (pe : List Event → SuccessFailure)
    (core : ZoneFiles) (p : XParseThread) (ps : List (List Nat))
    (hch : ChunkHolds core p ps) (hopen : ∀ q ∈ ps, fs q ≠ none) :
    conf_zonefiles_parse_thread fs pe core p =
      some (finish pe { p with total_bytes := p.total_bytes + sizes_of fs ps,
                               trace := p.trace ++ [Event.zonefile_begin] ++ events_of fs ps }) := by
  obtain ⟨hq, hh, he, ha, hz⟩ := hch
  have hlen := packed_length_ge ps
  have hfuel : p.end_ - p.filename + 1 = ps.length + (p.end_ - p.filename - ps.length + 1) := by
    omega
  unfold conf_zonefiles_parse_thread
  rw [hfuel, parse_loop_prefix fs pe core.names core.alloc p.end_ ps _ p.filename _
    (fun q hq1 => ⟨(hq q hq1).1, (hq q hq1).2, hopen q hq1⟩) hh he ha]
  exact parse_loop_done _ _ _ _ _ _ _ _ hz

theorem worker_run_fail (fs : FileSystem) (pe : List Event → SuccessFailure)
    (core : ZoneFiles) (p : XParseThread) (before after : List (List Nat)) (k : List Nat)
    (hch : ChunkHolds core p (before ++ k :: after))
    (hopen : ∀ q ∈ before, fs q ≠ none) (hk : fs k = none) :
    conf_zonefiles_parse_thread fs pe core p =
      some { p with status := SuccessFailure.Failure,
                    total_bytes := p.total_bytes + sizes_of fs before,
                    trace := p.trace ++ [Event.zonefile_begin] ++ events_of fs before ++
                      [Event.fopen k] } := by
  obtain ⟨hq, hh, he, ha, hz⟩ := hch
  have hlen := packed_length_ge (before ++ k :: after)
  have hpl : (packed (before ++ k :: after)).length =
      (packed before).length + (k.length + 1 + (packed after).length) := by
    rw [packed_append, List.length_append, packed_cons_length]
  rw [packed_append, holds_append] at hh
  have e : packed (k :: after) = (k ++ [0]) ++ packed after := by simp [packed]
  rw [e, holds_append] at hh
  simp only [List.length_append, List.length_cons] at hlen
  rw [hpl] at he ha hz hlen
  have hlb := packed_length_ge before
  have hfuel : p.end_ - p.filename + 1 =
      before.length + (p.end_ - p.filename - before.length + 1) := by omega
  have hk0 := hq k (by simp)
  unfold conf_zonefiles_parse_thread
  rw [hfuel, parse_loop_prefix fs pe core.names core.alloc p.end_ before _ p.filename _
    (fun q hq1 => ⟨(hq q (by simp [hq1])).1, (hq q (by simp [hq1])).2, hopen q hq1⟩) hh.1
    (by omega) (by omega)]
  rw [parse_loop_step fs pe core.names core.alloc p.end_ _ _ _ k hk0.1 hk0.2 hh.2.1
    (by omega) (by omega), hk]

theorem worker_run_empty (fs : FileSystem) (pe : List Event → SuccessFailure)
    (core : ZoneFiles) (p : XParseThread) (h : p.end_ ≤ p.filename) :
    conf_zonefiles_parse_thread fs pe core p =
      some (finish pe { p with trace := p.trace ++ [Event.zonefile_begin] }) := by
  unfold conf_zonefiles_parse_thread
  exact parse_loop_done _ _ _ _ _ _ _ _ (fun hlt => absurd hlt (by omega))

theorem finish_status (pe : List Event → SuccessFailure) (p : XParseThread) :
    (finish pe p).status = SuccessFailure.Success ↔ pe p.trace = SuccessFailure.Success := by
  by_cases hc : pe p.trace = SuccessFailure.Success
  · simp [finish, hc]
  · simp [finish, hc]

theorem worker_of_chunk (fs : FileSystem) (pe : List Event → SuccessFailure)
    (core : ZoneFiles) (garbage : SuccessFailure) (c : Nat × Nat) (part : List (List Nat))
    (hch : ChunkOk core c part) :
    ∃ r, conf_zonefiles_parse_thread fs pe core
        { filename := c.1, end_ := c.2, status := garbage, total_bytes := 0, trace := [] } =
          some r ∧
      ((∀ q ∈ part, fs q ≠ none) →
        r.total_bytes = sizes_of fs part ∧
        (r.status = SuccessFailure.Success ↔
          pe (Event.zonefile_begin :: events_of fs part) = SuccessFailure.Success)) ∧
      ((∃ q ∈ part, fs q = none) → r.status = SuccessFailure.Failure) := by
  rcases hch with ⟨hle, rfl⟩ | hch
  · refine ⟨_, worker_run_empty fs pe core _ hle, fun _ => ⟨rfl, ?_⟩, ?_⟩
    · rw [finish_status]; rfl
    · rintro ⟨q, hq, _⟩; simp at hq
  · have hch' : ChunkHolds core
        { filename := c.1, end_ := c.2, status := garbage, total_bytes := 0, trace := [] }
        part := hch
    by_cases hopen : ∀ q ∈ part, fs q ≠ none
    · refine ⟨_, worker_run_open fs pe core _ part hch' hopen, fun _ => ⟨?_, ?_⟩, ?_⟩
      · simp [finish]
      · rw [finish_status]; rfl
      · rintro ⟨q, hq, hn⟩; exact absurd hn (hopen q hq)
    · have hex : ∃ q ∈ part, fs q = none := by
        by_contra hno
        exact hopen (fun q hq hn => hno ⟨q, hq, hn⟩)
      obtain ⟨before, k, after, rfl, hb, hk⟩ := first_unopened fs part hex
      exact ⟨_, worker_run_fail fs pe core _ before after k hch' hb hk,
        fun h => absurd h hopen, fun _ => rfl⟩

theorem run_workers_tiles (fs : FileSystem) (pe : List Event → SuccessFailure)
    (core : ZoneFiles) (garbage : SuccessFailure) :
    ∀ (cs : List (Nat × Nat)) (parts : List (List (List Nat))),
      List.Forall₂ (ChunkOk core) cs parts →
      ∃ ws, run_workers fs pe core garbage cs = some ws ∧
        ((∀ q ∈ parts.flatten, fs q ≠ none) →
          (ws.map (fun w => w.total_bytes)).sum = sizes_of fs parts.flatten ∧
          ((∀ w ∈ ws, w.status = SuccessFailure.Success) ↔
            ∀ part ∈ parts,
              pe (Event.zonefile_begin :: events_of fs part) = SuccessFailure.Success)) ∧
        ((∃ q ∈ parts.flatten, fs q = none) →
          ∃ w ∈ ws, w.status ≠ SuccessFailure.Success) := by
  intro cs parts h
  induction h with
  | nil =>
    refine ⟨[], rfl, fun _ => ⟨by simp [sizes_of], by simp⟩, ?_⟩
    rintro ⟨q, hq, _⟩
    simp at hq
  | @cons c part cs parts hc _ ih =>
    obtain ⟨r, hr, ho, hf⟩ := worker_of_chunk fs pe core garbage c part hc
    obtain ⟨ws, hws, hos, hfs⟩ := ih
    refine ⟨r :: ws, by simp only [run_workers, hr, hws], ?_, ?_⟩
    · intro hopen
      have h1 : ∀ q ∈ part, fs q ≠ none := fun q hq => hopen q (by simp [hq])
      have h2 : ∀ q ∈ parts.flatten, fs q ≠ none := fun q hq =>
        hopen q (by rw [List.flatten_cons, List.mem_append]; exact Or.inr hq)
      obtain ⟨ht, hs⟩ := ho h1
      obtain ⟨hts, hss⟩ := hos h2
      refine ⟨?_, ?_⟩
      · rw [List.map_cons, List.sum_cons, ht, hts, List.flatten_cons, sizes_of_append]
      · simp only [List.forall_mem_cons, hs, hss]
    · rintro ⟨q, hq, hn⟩
      rw [List.flatten_cons, List.mem_append] at hq
      rcases hq with hq | hq
      · exact ⟨r, by simp, by rw [hf ⟨q, hq, hn⟩]; decide⟩
      · obtain ⟨w, hw, hws'⟩ := hfs ⟨q, hq, hn⟩
        exact ⟨w, by simp [hw], hws'⟩

theorem locate_offset : ∀ (rem : List (List Nat)) (j : Nat), j < (packed rem).length →
    ∃ taken t rest, rem = taken ++ t :: rest ∧ (packed taken).length ≤ j ∧
      j ≤ (packed taken).length + t.length := by
  intro rem
  induction rem with
  | nil => intro j hj; simp [packed] at hj
  | cons q qs ih =>
    intro j hj
    rw [packed_cons_length] at hj
    by_cases hq : j ≤ q.length
    · exact ⟨[], q, qs, rfl, by simp [packed], by simpa [packed] using hq⟩
    · obtain ⟨taken, t, rest, he, h1, h2⟩ := ih (j - (q.length + 1)) (by omega)
      refine ⟨q :: taken, t, rest, by rw [he]; rfl, ?_, ?_⟩
      · rw [packed_cons_length]; omega
      · rw [packed_cons_length]; omega

theorem packed_last_bytes {names : Nat → Nat} {off : Nat} (ps : List (List Nat)) (hne : ps ≠ [])
    (hwf : ∀ q ∈ ps, q ≠ [] ∧ CStr q) (hh : Holds names off (packed ps)) :
    2 ≤ (packed ps).length ∧ names (off + (packed ps).length - 2) ≠ 0 ∧
      names (off + (packed ps).length - 1) = 0 := by
  obtain ⟨init, last, rfl⟩ : ∃ init last, ps = init ++ [last] :=
    ⟨ps.dropLast, ps.getLast hne, (List.dropLast_append_getLast hne).symm⟩
  have hl := hwf last (by simp)
  have f := holds_cstr (holds_packed_mid init last [] hh) hl.2
  have hlen : (packed (init ++ [last])).length = (packed init).length + last.length + 1 := by
    rw [packed_append, List.length_append, packed_cons_length]
    simp only [packed, List.length_nil]
    omega
  have hpos : 0 < last.length := List.length_pos.2 hl.1
  refine ⟨by omega, ?_, ?_⟩
  · have := f.1 (last.length - 1) (by omega)
    rwa [show off + (packed init).length + (last.length - 1) =
      off + (packed (init ++ [last])).length - 2 by omega] at this
  · have := f.2
    rwa [show off + (packed init).length + last.length =
      off + (packed (init ++ [last])).length - 1 by omega] at this

theorem chunk_loop_at_end (names : Nat → Nat) (alloc length tc k : Nat)
    (hz : names length = 0) (ha : length < alloc) :
    chunk_loop names alloc length tc k length = some [] := by
  cases k with
  | zero => rfl
  | succ k => rw [chunk_loop, if_neg (by omega), if_pos hz]

theorem chunk_ok_intro (core : ZoneFiles) (a b : Nat) (part : List (List Nat))
    (hwf : ∀ q ∈ part, q ≠ [] ∧ CStr q) (hh : Holds core.names a (packed part))
    (h1 : a + (packed part).length ≤ b) (h2 : a + (packed part).length ≤ core.alloc)
    (h3 : a + (packed part).length < b →
      a + (packed part).length < core.alloc ∧ core.names (a + (packed part).length) = 0) :
    ChunkOk core (a, b) part :=
  Or.inr ⟨hwf, hh, h1, h2, h3⟩

theorem chunk_loop_tiles (core : ZoneFiles) (tc : Nat)
    (hz : core.names core.length = 0) (hal : core.length + 1 < core.alloc) :
    ∀ (k : Nat) (done rem : List (List Nat)),
      (∀ q ∈ done ++ rem, q ≠ [] ∧ CStr q) →
      Holds core.names 0 (packed (done ++ rem)) →
      (packed (done ++ rem)).length = core.length →
      (rem = [] ∨ core.length < (packed done).length + k * (core.length / tc + 1)) →
      ∃ cs parts, chunk_loop core.names core.alloc core.length tc k (packed done).length =
          some cs ∧
        parts.flatten = rem ∧ List.Forall₂ (ChunkOk core) cs parts := by
  intro k
  induction k with
  | zero =>
    intro done rem _ _ hlen hinv
    have hrem : rem = [] := by
      rcases hinv with h | h
      · exact h
      · rw [packed_append, List.length_append] at hlen
        omega
    exact ⟨[], [], rfl, by simp [hrem], List.Forall₂.nil⟩
  | succ k ih =>
    intro done rem hwf hh hlen hinv
    cases rem with
    | nil =>
      refine ⟨[], [], ?_, by simp, List.Forall₂.nil⟩
      rw [List.append_nil] at hlen
      rw [hlen]
      exact chunk_loop_at_end _ _ _ _ _ hz (by omega)
    | cons q rem' =>
      have hinv' : core.length < (packed done).length + (k + 1) * (core.length / tc + 1) := by
        rcases hinv with h | h
        · cases h
        · exact h
      have hq := hwf q (by simp)
      have hsplit : (packed (done ++ q :: rem')).length =
          (packed done).length + (packed (q :: rem')).length := by
        rw [packed_append, List.length_append]
      have hfirst := holds_cstr (holds_packed_mid done q rem' hh) hq.2
      have hq0 : 0 < q.length := List.length_pos.2 hq.1
      have hnz : core.names (packed done).length ≠ 0 := by
        simpa using hfirst.1 0 hq0
      obtain ⟨h2, hl2, hl1⟩ := packed_last_bytes (done ++ q :: rem') (by simp) hwf hh
      rw [hlen] at h2 hl2 hl1
      simp only [Nat.zero_add] at hl2 hl1
      have hrem : Holds core.names (packed done).length (packed (q :: rem')) := by
        have := hh
        rw [packed_append, holds_append] at this
        simpa using this.2
      have hwfr : ∀ r ∈ q :: rem', r ≠ [] ∧ CStr r := fun r hr =>
        hwf r (List.mem_append_right _ hr)
      have hend := chunk_loop_at_end core.names core.alloc core.length tc k hz (by omega)
      rcases Nat.lt_trichotomy ((packed done).length + core.length / tc) core.length
        with hlt | heq | hgt
      · -- the proposed end lies inside the list
        obtain ⟨taken, t, rest, he, ht1, ht2⟩ := locate_offset (q :: rem') (core.length / tc)
          (by omega)
        have hpl : (packed (q :: rem')).length =
            (packed taken).length + (t.length + 1 + (packed rest).length) := by
          rw [he, packed_append, List.length_append, packed_cons_length]
        have hall : done ++ q :: rem' = (done ++ taken) ++ t :: rest := by
          rw [he, List.append_assoc]
        have hmid := holds_packed_mid (done ++ taken) t rest (by rw [← hall]; exact hh)
        have hdt : (packed (done ++ taken)).length =
            (packed done).length + (packed taken).length := by
          rw [packed_append, List.length_append]
        have ht := hwf t (by rw [hall]; simp)
        have hmid' := holds_cstr hmid ht.2
        rw [hdt] at hmid'
        simp only [Nat.zero_add] at hmid'
        have hdone' : (packed (done ++ (taken ++ [t]))).length =
            (packed done).length + core.length / tc +
              ((packed taken).length + t.length - core.length / tc) + 1 := by
          rw [packed_append, List.length_append, packed_append, List.length_append,
            packed_cons_length]
          simp only [packed, List.length_nil]
          omega
        have hall' : (done ++ (taken ++ [t])) ++ rest = done ++ q :: rem' := by
          rw [he]; simp
        obtain ⟨cs, parts, hcs, hfl, hfa⟩ := ih (done ++ (taken ++ [t])) rest
          (by rw [hall']; exact hwf) (by rw [hall']; exact hh) (by rw [hall']; exact hlen)
          (by
            right
            rw [hdone']
            rw [Nat.succ_mul] at hinv'
            generalize k * (core.length / tc + 1) = m at hinv' ⊢
            omega)
        rw [hdone'] at hcs
        refine ⟨((packed done).length, (packed done).length + core.length / tc +
            ((packed taken).length + t.length - core.length / tc) + 1) :: cs,
          (taken ++ [t]) :: parts, ?_, ?_, List.Forall₂.cons ?_ hfa⟩
        · rw [chunk_loop_step core.names core.alloc core.length tc k (packed done).length
            ((packed done).length + core.length / tc)
            ((packed taken).length + t.length - core.length / tc) (by omega) hnz h2
            (by rw [if_neg (by omega)])
            (fun i hi => by
              have := hmid'.1 (core.length / tc - (packed taken).length + i) (by omega)
              rwa [show (packed done).length + (packed taken).length +
                (core.length / tc - (packed taken).length + i) =
                (packed done).length + core.length / tc + i by omega] at this)
            (by
              have := hmid'.2
              rwa [show (packed done).length + (packed taken).length + t.length =
                (packed done).length + core.length / tc +
                  ((packed taken).length + t.length - core.length / tc) by omega] at this)
            (by omega), hcs]
        · rw [List.flatten_cons, hfl, he]; simp
        · have hpre : Holds core.names (packed done).length (packed (taken ++ [t])) := by
            have := hrem
            rw [he, show taken ++ t :: rest = (taken ++ [t]) ++ rest by simp, packed_append,
              holds_append] at this
            exact this.1
          have hlt' : (packed (taken ++ [t])).length = (packed taken).length + t.length + 1 := by
            rw [packed_append, List.length_append, packed_cons_length]
            simp only [packed, List.length_nil]
            omega
          refine chunk_ok_intro core _ _ _ (fun r hr => hwf r ?_) hpre ?_ ?_ ?_
          · rw [← hall']
            exact List.mem_append_left _ (List.mem_append_right _ hr)
          · rw [hlt']; omega
          · rw [hlt']; omega
          · intro hcon
            rw [hlt'] at hcon
            omega
      · -- the proposed end is `names + length`
        have hck : ChunkOk core ((packed done).length, core.length + 1) (q :: rem') := by
          refine chunk_ok_intro core _ _ _ hwfr hrem (by omega) (by omega) (fun _ => ?_)
          rw [← hsplit, hlen]
          exact ⟨by omega, hz⟩
        have hstep := chunk_loop_step core.names core.alloc core.length tc k
          (packed done).length core.length 0 (by omega) hnz h2
          (by rw [if_neg (by omega)]; exact heq.symm)
          (fun i hi => absurd hi (by omega)) (by simpa using hz) (by omega)
        simp only [Nat.add_zero] at hstep
        cases k with
        | zero =>
          refine ⟨[((packed done).length, core.length + 1)], [q :: rem'], ?_, by simp,
            List.Forall₂.cons hck List.Forall₂.nil⟩
          rw [hstep]; rfl
        | succ k' =>
          by_cases hstale : core.names (core.length + 1) = 0
          · refine ⟨[((packed done).length, core.length + 1)], [q :: rem'], ?_, by simp,
              List.Forall₂.cons hck List.Forall₂.nil⟩
            rw [hstep, chunk_loop, if_neg (by omega), if_pos hstale]
          · refine ⟨[((packed done).length, core.length + 1), (core.length + 1, core.length)],
              [q :: rem', []], ?_, by simp,
              List.Forall₂.cons hck (List.Forall₂.cons (Or.inl ⟨by simp, rfl⟩) List.Forall₂.nil)⟩
            have hend' := chunk_loop_at_end core.names core.alloc core.length tc k' hz (by omega)
            have hstep2 := chunk_loop_step core.names core.alloc core.length tc k'
              (core.length + 1) (core.length - 2) 1 (by omega) hstale h2
              (by rw [if_pos (by omega)])
              (fun i hi => by
                obtain rfl : i = 0 := by omega
                simpa using hl2)
              (by rwa [show core.length - 2 + 1 = core.length - 1 by omega]) (by omega)
            rw [show core.length - 2 + 1 + 1 = core.length by omega, hend'] at hstep2
            rw [hstep, hstep2]
      · -- the proposed end is past the list: it is clamped
        refine ⟨[((packed done).length, core.length)], [q :: rem'], ?_, by simp,
          List.Forall₂.cons (chunk_ok_intro core _ _ _ hwfr hrem (by omega) (by omega)
            (fun hcon => absurd hcon (by omega))) List.Forall₂.nil⟩
        have hstep := chunk_loop_step core.names core.alloc core.length tc k
          (packed done).length (core.length - 2) 1 (by omega) hnz h2
          (by rw [if_pos (by omega)])
          (fun i hi => by
            obtain rfl : i = 0 := by omega
            simpa using hl2)
          (by rwa [show core.length - 2 + 1 = core.length - 1 by omega]) (by omega)
        rw [show core.length - 2 + 1 + 1 = core.length by omega, hend] at hstep
        rw [hstep]

theorem parse_with_tiles (fs : FileSystem) (pe : List Event → SuccessFailure)
    (garbage : SuccessFailure) (core : ZoneFiles) (ps : List (List Nat)) (tc : Nat)
    (hrec : Recorded core ps) (hwf : ∀ q ∈ ps, q ≠ [] ∧ CStr q)
    (hz : core.names core.length = 0) (hmax : core.length ≤ core.max) (htc : 0 < tc) :
    ∃ (r : ParseRun) (parts : List (List (List Nat))),
      parse_with fs pe garbage core tc = some r ∧ parts.flatten = ps ∧
      ((∀ q ∈ ps, fs q ≠ none) →
        r.core.total_bytes = core.total_bytes + sizes_of fs ps ∧
        (r.status = SuccessFailure.Success ↔
          ∀ part ∈ parts,
            pe (Event.zonefile_begin :: events_of fs part) = SuccessFailure.Success)) ∧
      ((∃ q ∈ ps, fs q = none) → r.status = SuccessFailure.Failure) := by
  have hh : Holds core.names 0 (packed ([] ++ ps)) := by
    intro i hi
    rw [List.nil_append, ← hrec.1] at hi
    simpa using hrec.2.2 i hi
  obtain ⟨cs, parts, hcs, hfl, hfa⟩ := chunk_loop_tiles core tc hz
    (by simp only [ZoneFiles.alloc]; omega) tc [] ps (by simpa using hwf) hh
    (by simpa using hrec.1.symm)
    (by
      right
      have := Nat.lt_mul_div_succ core.length htc
      simpa [packed, Nat.mul_comm] using this)
  obtain ⟨ws, hws, ho, hf⟩ := run_workers_tiles fs pe core garbage cs parts hfa
  have hcs' : chunks_for core tc = some cs := by simpa [chunks_for, packed] using hcs
  refine ⟨{ status := (join_workers ws (SuccessFailure.Success, core.total_bytes)).1,
            core := { core with
              total_bytes := (join_workers ws (SuccessFailure.Success, core.total_bytes)).2 },
            workers := ws }, parts, by simp only [parse_with, hcs', hws], hfl, ?_, ?_⟩
  · intro hopen
    obtain ⟨ht, hs⟩ := ho (by rw [hfl]; exact hopen)
    simp only [join_workers_spec]
    refine ⟨by rw [ht, hfl], ?_⟩
    rw [← hs]
    by_cases hx : ∃ w ∈ ws, w.status ≠ SuccessFailure.Success
    · rw [if_pos hx]
      obtain ⟨w, hw, hne⟩ := hx
      exact ⟨fun h => (by cases h), fun h => absurd (h w hw) hne⟩
    · rw [if_neg hx]
      refine ⟨fun _ w hw => ?_, fun _ => rfl⟩
      by_contra hne
      exact hx ⟨w, hw, hne⟩
  · intro hex
    have hx := hf (by rw [hfl]; exact hex)
    simp only [join_workers_spec]
    rw [if_pos hx]

theorem pool_core :
    ∃ core ws1 ws2 ws4, add_names (conf_init (fun _ => 0)) pool_args = some core ∧
      core.length = 100 ∧ core.total_files = 10 ∧ core.total_bytes = 0 ∧ core.names 100 = 0 ∧
      chunk_loop core.names core.alloc 100 1 1 0 = some [(0, 101)] ∧
      chunk_loop core.names core.alloc 100 2 2 0 = some [(0, 60), (60, 100)] ∧
      chunk_loop core.names core.alloc 100 4 4 0 =
        some [(0, 30), (30, 60), (60, 90), (90, 100)] ∧
      run_workers pool_fs (fun _ => SuccessFailure.Success) core SuccessFailure.Success
        [(0, 101)] = some ws1 ∧
      run_workers pool_fs (fun _ => SuccessFailure.Success) core SuccessFailure.Success
        [(0, 60), (60, 100)] = some ws2 ∧
      run_workers pool_fs (fun _ => SuccessFailure.Success) core SuccessFailure.Success
        [(0, 30), (30, 60), (60, 90), (90, 100)] = some ws4 ∧
      join_workers ws1 (SuccessFailure.Success, 0) = (SuccessFailure.Failure, 0) ∧
      join_workers ws2 (SuccessFailure.Success, 0) = (SuccessFailure.Failure, 4) ∧
      join_workers ws4 (SuccessFailure.Success, 0) = (SuccessFailure.Failure, 7) :=
  ⟨_, _, _, _, rfl, rfl, rfl, rfl, rfl, rfl, rfl, rfl, rfl, rfl, rfl, rfl, rfl, rfl⟩

/-! ### Option names, growth bounds and MAC addresses -/

theorem skip_cases : ∀ (l : List Nat), CStr l →
    (l.dropWhile is_skipped = [] ∧ stripped_name l = []) ∨
    ∃ a s, l.dropWhile is_skipped = a :: s ∧ a ≠ 0 ∧ CStr s ∧ s.length < l.length ∧
      stripped_name l = tolower a :: stripped_name s := by
  intro l
  induction l with
  | nil => intro _; exact Or.inl ⟨rfl, rfl⟩
  | cons c t ih =>
    intro hc
    have hct : CStr t := fun b hb => hc b (List.mem_cons_of_mem _ hb)
    by_cases hs : is_skipped c = true
    · have e1 : (c :: t).dropWhile is_skipped = t.dropWhile is_skipped :=
        List.dropWhile_cons_of_pos hs
      have e2 : stripped_name (c :: t) = stripped_name t := by
        simp [stripped_name, List.filter_cons, hs]
      rw [e1, e2]
      rcases ih hct with h | ⟨a, s, h1, h2, h3, h4, h5⟩
      · exact Or.inl h
      · exact Or.inr ⟨a, s, h1, h2, h3, by simp only [List.length_cons]; omega, h5⟩
    · have e1 : (c :: t).dropWhile is_skipped = c :: t := List.dropWhile_cons_of_neg hs
      have e2 : stripped_name (c :: t) = tolower c :: stripped_name t := by
        simp [stripped_name, List.filter_cons, hs]
      exact Or.inr ⟨c, t, e1, hc c (List.mem_cons_self _ _), hct, by simp, e2⟩

theorem tolower_eq_zero (c : Nat) : tolower c = 0 ↔ c = 0 := by
  unfold tolower
  by_cases h : 65 ≤ c ∧ c ≤ 90
  · rw [if_pos h]
    constructor <;> intro h' <;> omega
  · rw [if_neg h]

theorem tolower_eq_bracket (c : Nat) : tolower c = 91 ↔ c = 91 := by
  unfold tolower
  by_cases h : 65 ≤ c ∧ c ≤ 90
  · rw [if_pos h]
    constructor <;> intro h' <;> omega
  · rw [if_neg h]

theorem EQUALS_loop_spec : ∀ (fuel : Nat) (lhs rhs : List Nat), CStr lhs → CStr rhs →
    lhs.length < fuel →
    ∃ b, EQUALS_loop fuel lhs rhs = some b ∧ (b = true ↔ names_match lhs rhs) := by
  intro fuel
  induction fuel with
  | zero => intro lhs rhs _ _ h; omega
  | succ fuel ih =>
    intro lhs rhs hl hr hf
    unfold names_match
    rcases skip_cases lhs hl with ⟨dl, kl⟩ | ⟨a, s, dl, ha, hs, hsl, kl⟩
    · rcases skip_cases rhs hr with ⟨dr, kr⟩ | ⟨c, t, dr, hc, ht, _, kr⟩
      · refine ⟨true, ?_, by simp [kl, kr]⟩
        simp [EQUALS_loop, dl, dr, head_byte, tolower]
      · by_cases h91 : c = 91
        · refine ⟨true, ?_, ?_⟩
          · simp [EQUALS_loop, dl, dr, head_byte, h91]
          · simp only [kl, kr, true_iff, List.nil_append]
            right
            rw [h91]
            exact ⟨stripped_name t, rfl⟩
        · refine ⟨false, ?_, ?_⟩
          · have : tolower 0 ≠ tolower c := by
              intro h
              have h0 : tolower 0 = 0 := rfl
              rw [h0] at h
              exact hc ((tolower_eq_zero c).1 h.symm)
            simp [EQUALS_loop, dl, dr, head_byte, h91, this]
          · simp only [kl, kr, List.nil_append, Bool.false_eq_true, false_iff, not_or]
            refine ⟨by simp, ?_⟩
            rintro ⟨u, hu⟩
            simp only [List.singleton_append, List.cons.injEq] at hu
            exact h91 ((tolower_eq_bracket c).1 hu.1.symm)
    · have ta : tolower a ≠ 0 := fun h => ha ((tolower_eq_zero a).1 h)
      rcases skip_cases rhs hr with ⟨dr, kr⟩ | ⟨c, t, dr, hc, ht, _, kr⟩
      · refine ⟨false, ?_, ?_⟩
        · have : tolower a ≠ tolower 0 := ta
          simp [EQUALS_loop, dl, dr, head_byte, ha, this]
        · simp only [kl, kr, Bool.false_eq_true, false_iff, not_or]
          refine ⟨by simp, ?_⟩
          rintro ⟨u, hu⟩
          simp at hu
      · by_cases heq : tolower a = tolower c
        · obtain ⟨b, hb, hiff⟩ := ih s t hs ht (by omega)
          refine ⟨b, ?_, ?_⟩
          · simp [EQUALS_loop, dl, dr, head_byte, ha, heq, hb]
          · rw [hiff, kl, kr, heq]
            unfold names_match
            simp only [List.cons.injEq, true_and, List.cons_append, List.cons_prefix_cons]
        · refine ⟨false, ?_, ?_⟩
          · simp [EQUALS_loop, dl, dr, head_byte, ha, heq]
          · simp only [kl, kr, Bool.false_eq_true, false_iff, not_or, List.cons.injEq,
              List.cons_append, List.cons_prefix_cons, not_and]
            exact ⟨fun h => absurd h heq, fun h => absurd h heq⟩

theorem grow_max_bound : ∀ (fuel need max m : Nat), 0 < max → grow_max fuel need max = some m →
    need ≤ m ∧ max ≤ m ∧ (need ≤ max → m = max) ∧ (max < need → m < 3 * need) := by
  intro fuel
  induction fuel with
  | zero =>
    intro need max m _ h
    simp only [grow_max] at h
    by_cases hc : need > max
    · rw [if_pos hc] at h; cases h
    · rw [if_neg hc] at h
      obtain rfl := Option.some.inj h
      exact ⟨by omega, le_refl _, fun _ => rfl, fun h' => absurd h' (by omega)⟩
  | succ f ih =>
    intro need max m h0 h
    simp only [grow_max] at h
    by_cases hc : need > max
    · rw [if_pos hc] at h
      obtain ⟨h1, h2, h3, h4⟩ := ih need (max * (2 + 1)) m (by omega) h
      refine ⟨h1, by omega, fun h' => absurd h' (by omega), fun _ => ?_⟩
      by_cases hd : need ≤ max * (2 + 1)
      · rw [h3 hd]; omega
      · exact h4 (by omega)
    · rw [if_neg hc] at h
      obtain rfl := Option.some.inj h
      exact ⟨by omega, le_refl _, fun _ => rfl, fun h' => absurd h' (by omega)⟩

theorem grow_max_zero : ∀ (fuel need : Nat), 0 < need → grow_max fuel need 0 = none := by
  intro fuel
  induction fuel with
  | zero => intro need h; simp only [grow_max]; rw [if_pos h]
  | succ f ih => intro need h; simp only [grow_max]; rw [if_pos h]; exact ih need h

theorem mem_addname_writes (core : ZoneFiles) (d f : List Nat) (i : Nat) :
    i ∈ addname_writes core d f ↔
      core.length ≤ i ∧ i ≤ core.length + d.length + f.length + 2 := by
  simp only [addname_writes, List.mem_append, List.mem_cons, List.mem_map, List.mem_range,
    List.mem_singleton, List.not_mem_nil, or_false]
  constructor
  · rintro (⟨a, ha, rfl⟩ | rfl | ⟨a, ha, rfl⟩ | rfl | rfl) <;> omega
  · intro ⟨h1, h2⟩
    by_cases c1 : i < core.length + d.length
    · exact Or.inl ⟨i - core.length, by omega, by omega⟩
    · by_cases c2 : i = core.length + d.length
      · exact Or.inr (Or.inl c2)
      · by_cases c3 : i < core.length + d.length + 1 + f.length
        · exact Or.inr (Or.inr (Or.inl ⟨i - (core.length + d.length + 1), by omega, by omega⟩))
        · by_cases c4 : i = core.length + d.length + 1 + f.length
          · exact Or.inr (Or.inr (Or.inr (Or.inl c4)))
          · exact Or.inr (Or.inr (Or.inr (Or.inr (by omega))))

theorem hex_digit_facts : ∀ d, d < 16 →
    isxdigit (hex_digit d) = true ∧ hexval (hex_digit d) = d ∧
    (isspace (hex_digit d) && ispunct (hex_digit d)) = false ∧ hex_digit d ≠ 0 := by
  decide

theorem hex_pair_value : ∀ hi, hi < 16 → ∀ lo, lo < 16 →
    ((hi <<< 4) % 2 ^ 32 ||| lo) % 256 = hi * 16 + lo := by
  decide

theorem parse_mac_step (k b : Nat) (rest mac : List Nat) (hb : b < 256)
    (hrest : rest = [] ∨ ∃ r, rest = 58 :: r) :
    parse_mac_loop (k + 1) (print_02x b ++ rest) mac =
      parse_mac_loop k (rest.tail) (mac ++ [b]) := by
  obtain ⟨h1, h2, h3, _⟩ := hex_digit_facts (b / 16) (by omega)
  obtain ⟨l1, l2, _, _⟩ := hex_digit_facts (b % 16) (by omega)
  have hv := hex_pair_value (b / 16) (by omega) (b % 16) (by omega)
  have hb' : b / 16 * 16 + b % 16 = b := by omega
  have hd : List.dropWhile (fun c => isspace c && ispunct c)
      (hex_digit (b / 16) :: hex_digit (b % 16) :: rest) =
      hex_digit (b / 16) :: hex_digit (b % 16) :: rest := by
    rw [List.dropWhile_cons_of_neg (by simpa using h3)]
  simp only [parse_mac_loop, print_02x, List.cons_append, List.nil_append, hd, head_byte,
    List.headD_cons, List.tail_cons, h1, l1, h2, l2, hv, hb', Bool.not_true, Bool.false_eq_true,
    if_false]
  rcases hrest with rfl | ⟨r, rfl⟩
  · rfl
  · have : ispunct 58 = true := by decide
    simp [this]

/-! ### Claims -/

/-- C1 (code at the failing input): the run with 5000 zone files described above
returns a list that is well formed (the 5000 non-empty paths, each with its
NUL, then a second NUL at offset `length` = 66640) and for which the sizer
chooses 4 threads.  The third chunk ends at offset 66641, one byte past the
second NUL, because its proposed end 49980 + 66640/4 equals `length`; the loop
then reads the byte at offset 66641, a stale `o` left by the rolled-back
`/w/robdns.conf`, and produces a fourth chunk that starts at offset 66641,
which is not the first byte of any path of the list. -/
theorem chunk_starts_in_stale_bytes (heap : Nat → Nat) :
    ∃ c1 core, add_names (conf_init heap) bug_args = some c1 ∧
      directory_to_zonefile_list c1 bug_wd bug_dir = some core ∧
      Recorded core bug_paths ∧ (∀ q ∈ bug_paths, q ≠ [] ∧ CStr q) ∧
      core.names core.length = 0 ∧
      thread_count_for core.total_files = 4 ∧
      zonefile_chunks core =
        some [(0, 24990), (24990, 49980), (49980, 66641), (66641, 66640)] ∧
      66641 ∉ path_starts 0 bug_paths := by
  obtain ⟨c1, core, h1, h2, hrec, hz, htc, hch⟩ := bug_chunks heap
  refine ⟨c1, core, h1, h2, hrec, bug_paths_wf, hz, htc, hch, fun h => ?_⟩
  have := path_starts_lt _ _ _ h
  rw [bug_packed_length] at this
  omega

/-- C2 (code at the failing input): for the same run, whose list is well formed
and for which the sizer chooses 4 threads, the chunks cut for 4 threads contain
one whose start lies after its end (start 66641, end 66640), so the chunks do
not tile the list. -/
theorem chunk_with_start_after_end (heap : Nat → Nat) :
    ∃ c1 core, add_names (conf_init heap) bug_args = some c1 ∧
      directory_to_zonefile_list c1 bug_wd bug_dir = some core ∧
      Recorded core bug_paths ∧ (∀ q ∈ bug_paths, q ≠ [] ∧ CStr q) ∧
      core.names core.length = 0 ∧
      thread_count_for core.total_files = 4 ∧
      ∃ cs, chunks_for core 4 = some cs ∧ ∃ c ∈ cs, c.2 < c.1 := by
  obtain ⟨c1, core, h1, h2, hrec, hz, htc, hch⟩ := bug_chunks heap
  unfold zonefile_chunks at hch
  rw [htc] at hch
  exact ⟨c1, core, h1, h2, hrec, bug_paths_wf, hz, htc, _, hch, (66641, 66640), by simp,
    by decide⟩


/-- C3 (code at the failing input): scanning the directory `d`, enumerated as
`a.zone`, `c.txt`, from the initial list appends `d/a.zone`, appends `d/c.txt`
and rolls the latter back.  The roll-back restores `length` and `total_files`
but not the terminator: the byte at offset `length` is `d`, not NUL, and a
reader starting at offset 0 finds `d/c.txt` after `d/a.zone`. -/
theorem rollback_leaves_list_unterminated (heap : Nat → Nat) :
    ∃ core, directory_to_zonefile_list (conf_init heap) [100]
        (.mk true [.file [97, 46, 122, 111, 110, 101], .file [99, 46, 116, 120, 116]]) = some core ∧
      core.length = 9 ∧ core.total_files = 1 ∧
      core.names core.length = 100 ∧
      core.read = some [[100, 47, 97, 46, 122, 111, 110, 101], [100, 47, 99, 46, 116, 120, 116]] := by
  refine ⟨_, rfl, rfl, rfl, rfl, rfl⟩

/-- C4 (amended): from the initial list, appending a non-empty sequence of
`(dirname, filename)` pairs without NUL bytes (or none at all when the fresh
block happens to start with a NUL) and then reading strings from offset 0 until
an empty string yields exactly the paths `dirname/filename`, in append order;
`length` is the sum of their lengths plus their number, and `total_files` is
their number. -/
theorem pathlist_round_trip (heap : Nat → Nat) (entries : List (List Nat × List Nat))
    (hc : ∀ e ∈ entries, CStr e.1 ∧ CStr e.2) (hne : entries ≠ [] ∨ heap 0 = 0) :
    ∃ core, add_names (conf_init heap) entries = some core ∧
      core.read = some (entries.map path_of) ∧
      core.length = ((entries.map path_of).map List.length).sum + entries.length ∧
      core.total_files = entries.length := by
  obtain ⟨core, hc1, hx, ht⟩ := add_names_extends entries (conf_init heap) (by simp [conf_init])
  obtain ⟨hl, hf, _, hm, hk, hs⟩ := hx
  simp only [conf_init, Nat.zero_add] at hl hf hs hm
  have hterm : core.names core.length = 0 ∧ core.length ≤ core.max := by
    rcases hne with h | h
    · exact ht h
    · cases entries with
      | nil =>
        simp only [add_names] at hc1
        cases hc1
        simpa [conf_init] using h
      | cons e es => exact ht (by simp)
  refine ⟨core, hc1, ?_, ?_, ?_⟩
  · apply read_names_packed
    · intro p hp
      obtain ⟨e, he, rfl⟩ := List.mem_map.1 hp
      exact path_of_cstr e (hc e he).1 (hc e he).2
    · rw [holds_append]
      refine ⟨hs, ?_⟩
      intro i hi
      simp only [List.length_singleton] at hi
      obtain rfl : i = 0 := by omega
      simpa [← hl] using hterm.1
    · simp only [ZoneFiles.alloc]; omega
    · have := packed_length (entries.map path_of)
      simp only [List.length_map] at this ⊢
      simp only [ZoneFiles.alloc]; omega
  · rw [hl, packed_length]; simp
  · rw [hf]; simp

/-- Witness of C4 (amended): appending `d/a.zone` and `d/b.zone`. -/
theorem pathlist_round_trip_witness :
    (∀ e ∈ [([100], [97, 46, 122, 111, 110, 101]), ([100], [98, 46, 122, 111, 110, 101])],
      CStr e.1 ∧ CStr e.2) ∧
    ∃ core, add_names (conf_init (fun _ => 7))
        [([100], [97, 46, 122, 111, 110, 101]), ([100], [98, 46, 122, 111, 110, 101])] = some core ∧
      core.read = some (List.map path_of
        [([100], [97, 46, 122, 111, 110, 101]), ([100], [98, 46, 122, 111, 110, 101])]) ∧
      core.length = (List.map List.length (List.map path_of
        [([100], [97, 46, 122, 111, 110, 101]), ([100], [98, 46, 122, 111, 110, 101])])).sum +
          List.length [([100], [97, 46, 122, 111, 110, 101]), ([100], [98, 46, 122, 111, 110, 101])] ∧
      core.total_files =
        List.length [([100], [97, 46, 122, 111, 110, 101]), ([100], [98, 46, 122, 111, 110, 101])] :=
  ⟨by simp [CStr], pathlist_round_trip _ _ (by simp [CStr]) (Or.inl (by simp))⟩

/-- C4 (counterexample): `conf_init` writes nothing into the fresh block, so
with no append at all a reader that starts at offset 0 meets whatever the heap
held: here the one-byte string `x`, not the empty list. -/
theorem empty_list_read_counterexample :
    add_names (conf_init (fun i => if i = 0 then 120 else 0)) [] =
        some (conf_init (fun i => if i = 0 then 120 else 0)) ∧
      (conf_init (fun i => if i = 0 then 120 else 0)).read = some [[120]] ∧
      (conf_init (fun i => if i = 0 then 120 else 0)).read ≠
        some (([] : List (List Nat × List Nat)).map path_of) := by
  refine ⟨rfl, by decide, by decide⟩

/-- C5 (amended): scanning a tree whose names are C strings, from the initial
list, leaves in the first `length` bytes of the list exactly the entries whose
name ends in `.zone`, files and directories alike, that are reached through
readable directories whose names do not end in `.zone`, each once and in
enumeration order, and `total_files` counts them; when every directory can be
opened and none has a name ending in `.zone`, these are exactly the regular
`.zone` files of the tree. -/
theorem scanner_records_zone_entries (heap : Nat → Nat) (in_dirname : List Nat)
    (entries : List DirEntry) (hd : CStr in_dirname) (hok : entries_ok entries) :
    ∃ core, directory_to_zonefile_list (conf_init heap) in_dirname (.mk true entries) = some core ∧
      Recorded core
        (zone_entries_of (in_dirname.take (strip_length in_dirname in_dirname.length)) entries) ∧
      (entries_plain entries →
        Recorded core
          (zone_files_of (in_dirname.take (strip_length in_dirname in_dirname.length)) entries)) := by
  obtain ⟨core, hc, hx⟩ := scan_entries_spec entries (conf_init heap)
    (in_dirname.take (strip_length in_dirname in_dirname.length)) (by simp [conf_init])
    (cstr_take hd _) hok
  refine ⟨core, by simpa [directory_to_zonefile_list] using hc, recorded_of_extends hx, fun hp => ?_⟩
  rw [← zone_entries_eq_files _ _ hp]
  exact recorded_of_extends hx

/-- Witness of C5 (amended): the tree `d/{a.zone, c.txt, s/{b.zone}}`. -/
theorem scanner_records_zone_entries_witness :
    CStr [100] ∧
    entries_ok [.file [97, 46, 122, 111, 110, 101], .file [99, 46, 116, 120, 116],
      .dir [115] (.mk true [.file [98, 46, 122, 111, 110, 101]])] ∧
    ∃ core, directory_to_zonefile_list (conf_init (fun _ => 0)) [100]
        (.mk true [.file [97, 46, 122, 111, 110, 101], .file [99, 46, 116, 120, 116],
          .dir [115] (.mk true [.file [98, 46, 122, 111, 110, 101]])]) = some core ∧
      Recorded core (zone_entries_of
        (List.take (strip_length [100] (List.length [100])) [100])
        [.file [97, 46, 122, 111, 110, 101], .file [99, 46, 116, 120, 116],
          .dir [115] (.mk true [.file [98, 46, 122, 111, 110, 101]])]) ∧
      (entries_plain [.file [97, 46, 122, 111, 110, 101], .file [99, 46, 116, 120, 116],
          .dir [115] (.mk true [.file [98, 46, 122, 111, 110, 101]])] →
        Recorded core (zone_files_of
          (List.take (strip_length [100] (List.length [100])) [100])
          [.file [97, 46, 122, 111, 110, 101], .file [99, 46, 116, 120, 116],
            .dir [115] (.mk true [.file [98, 46, 122, 111, 110, 101]])])) :=
  ⟨by simp [CStr], by simp [entries_ok, entry_ok, directory_ok, CStr, slash, backslash],
    scanner_records_zone_entries _ _ _ (by simp [CStr])
      (by simp [entries_ok, entry_ok, directory_ok, CStr, slash, backslash])⟩

/-- C5 (counterexample): in the tree `d/x.zone/a.zone`, where `x.zone` is a
directory, the scanner records the directory `d/x.zone` and nothing else, while
the only regular `.zone` file of the tree is `d/x.zone/a.zone`. -/
theorem zone_named_directory_counterexample :
    ∃ core, directory_to_zonefile_list (conf_init (fun _ => 0)) [100]
        (.mk true [.dir [120, 46, 122, 111, 110, 101]
          (.mk true [.file [97, 46, 122, 111, 110, 101]])]) = some core ∧
      Recorded core [[100, 47, 120, 46, 122, 111, 110, 101]] ∧
      zone_files_of [100] [.dir [120, 46, 122, 111, 110, 101]
          (.mk true [.file [97, 46, 122, 111, 110, 101]])] =
        [[100, 47, 120, 46, 122, 111, 110, 101, 47, 97, 46, 122, 111, 110, 101]] ∧
      ¬ Recorded core (zone_files_of [100] [.dir [120, 46, 122, 111, 110, 101]
          (.mk true [.file [97, 46, 122, 111, 110, 101]])]) := by
  refine ⟨_, rfl, ?_, by decide, ?_⟩
  · unfold Recorded; decide
  · unfold Recorded; decide


/-- C6: for every list state (capacity at least 1, as `conf_init` guarantees) and
every entry that is not a directory and whose name does not end in `.zone`, the
scanner's turn for that entry, which appends the path and rolls it back,
returns with `length` and `total_files` equal to their values before it. -/
theorem rollback_restores_counters (core : ZoneFiles) (dirname filename : List Nat)
    (h0 : 0 < core.max) (hz : ends_with filename dot_zone = false) :
    ∃ core1, scan_entry core dirname (.file filename) = some core1 ∧
      core1.length = core.length ∧ core1.total_files = core.total_files := by
  by_cases hd : filename = [46] ∨ filename = [46, 46]
  · exact ⟨core, by simp [scan_entry, hd], rfl, rfl⟩
  · obtain ⟨c1, hc1, hx, _⟩ := addname_extends core dirname filename h0
    refine ⟨rollback c1 core.length, ?_, rfl, ?_⟩
    · simp only [scan_entry, if_neg hd, hc1, hz]
      rfl
    · simp [rollback, hx.2.1]

/-- Witness of C6: the entry `c.txt` of directory `d`, on the initial list. -/
theorem rollback_restores_counters_witness :
    0 < (conf_init (fun _ => 0)).max ∧ ends_with [99, 46, 116, 120, 116] dot_zone = false ∧
    ∃ core1, scan_entry (conf_init (fun _ => 0)) [100] (.file [99, 46, 116, 120, 116]) = some core1 ∧
      core1.length = (conf_init (fun _ => 0)).length ∧
      core1.total_files = (conf_init (fun _ => 0)).total_files :=
  ⟨by decide, by decide, rollback_restores_counters _ _ _ (by decide) (by decide)⟩

/-- C7: the worker count chosen from the file count `t` is 1 below 10, 2 from 10
up to 4999 and 4 from 5000 on; the four boundary values are 1, 2, 2 and 4. -/
theorem pool_sizer_thresholds (t : Nat) :
    thread_count_for t = (if t < 10 then 1 else if t < 5000 then 2 else 4) ∧
    (t < 10 ↔ thread_count_for t = 1) ∧
    (10 ≤ t ∧ t < 5000 ↔ thread_count_for t = 2) ∧
    (5000 ≤ t ↔ thread_count_for t = 4) ∧
    thread_count_for 9 = 1 ∧ thread_count_for 10 = 2 ∧
    thread_count_for 4999 = 2 ∧ thread_count_for 5000 = 4 := by
  refine ⟨rfl, ?_, ?_, ?_, by decide, by decide, by decide, by decide⟩
  · unfold thread_count_for; split_ifs <;> omega
  · unfold thread_count_for; split_ifs <;> omega
  · unfold thread_count_for; split_ifs <;> omega

/-- C8: when the chunk holds the paths `before ++ k :: after`, every path of
`before` can be opened and `k` cannot, the worker returns with status
`Failure`; its byte counter has grown by the sizes of the paths of `before`;
its calls are `zonefile_begin`, the calls for the paths of `before`, and the
failed `fopen k`, so that no path after `k` is opened or fed and
`zonefile_end` is not called. -/
theorem worker_open_failure (fs : FileSystem) (pe : List Event → SuccessFailure)
    (core : ZoneFiles) (p : XParseThread) (before after : List (List Nat)) (k : List Nat)
    (hch : ChunkHolds core p (before ++ k :: after))
    (hopen : ∀ q ∈ before, fs q ≠ none) (hk : fs k = none) :
    ∃ r, conf_zonefiles_parse_thread fs pe core p = some r ∧
      r.status = SuccessFailure.Failure ∧
      r.total_bytes = p.total_bytes + sizes_of fs before ∧
      r.trace = p.trace ++ Event.zonefile_begin :: (events_of fs before ++ [Event.fopen k]) ∧
      opened r.trace = opened p.trace ++ (before ++ [k]) := by
  obtain ⟨hq, hh, he, ha, hz⟩ := hch
  have hlen := packed_length_ge (before ++ k :: after)
  have hpl : (packed (before ++ k :: after)).length =
      (packed before).length + (k.length + 1 + (packed after).length) := by
    rw [packed_append, List.length_append, packed_cons_length]
  rw [packed_append, holds_append] at hh
  have e : packed (k :: after) = (k ++ [0]) ++ packed after := by simp [packed]
  rw [e, holds_append] at hh
  simp only [List.length_append, List.length_cons] at hlen
  rw [hpl] at he ha hz hlen
  have hlb := packed_length_ge before
  have hfuel : p.end_ - p.filename + 1 =
      before.length + (p.end_ - p.filename - before.length + 1) := by omega
  have hk0 := hq k (by simp)
  have hrun : conf_zonefiles_parse_thread fs pe core p =
      some { p with status := SuccessFailure.Failure,
                    total_bytes := p.total_bytes + sizes_of fs before,
                    trace := p.trace ++ [Event.zonefile_begin] ++ events_of fs before ++
                      [Event.fopen k] } := by
    unfold conf_zonefiles_parse_thread
    rw [hfuel, parse_loop_prefix fs pe core.names core.alloc p.end_ before _ p.filename _
      (fun q hq1 => ⟨(hq q (by simp [hq1])).1, (hq q (by simp [hq1])).2, hopen q hq1⟩) hh.1
      (by omega) (by omega)]
    rw [parse_loop_step fs pe core.names core.alloc p.end_ _ _ _ k hk0.1 hk0.2 hh.2.1
      (by omega) (by omega), hk]
  refine ⟨_, hrun, rfl, rfl, by simp, ?_⟩
  simp [opened_append, opened_events_of, opened]

/-- Witness of C8: the chunk `d/a`, `d/b`, `d/c` where `d/b` cannot be opened. -/
theorem worker_open_failure_witness :
    ChunkHolds sample_core sample_thread ([[100, 47, 97]] ++ [100, 47, 98] :: [[100, 47, 99]]) ∧
    (∀ q ∈ [[100, 47, 97]], sample_fs none q ≠ none) ∧ sample_fs none [100, 47, 98] = none ∧
    ∃ r, conf_zonefiles_parse_thread (sample_fs none) (fun _ => SuccessFailure.Success)
        sample_core sample_thread = some r ∧
      r.status = SuccessFailure.Failure ∧
      r.total_bytes = sample_thread.total_bytes + sizes_of (sample_fs none) [[100, 47, 97]] ∧
      r.trace = sample_thread.trace ++ Event.zonefile_begin ::
        (events_of (sample_fs none) [[100, 47, 97]] ++ [Event.fopen [100, 47, 98]]) ∧
      opened r.trace = opened sample_thread.trace ++ ([[100, 47, 97]] ++ [[100, 47, 98]]) :=
  ⟨sample_chunk_holds, by decide, by decide,
    worker_open_failure _ _ _ _ _ _ _ sample_chunk_holds (by decide) (by decide)⟩

/-- C9: when every path of the chunk can be opened, the worker returns; it
opens the paths in chunk order; its calls are `zonefile_begin`, the calls for
each path in order, and `zonefile_end`; its byte counter has grown by the sum of
the sizes of all paths of the chunk; and its status is `Success` exactly when
the final `zonefile_end` answers `Success`, `Failure` otherwise. -/
theorem worker_all_files_open (fs : FileSystem) (pe : List Event → SuccessFailure)
    (core : ZoneFiles) (p : XParseThread) (ps : List (List Nat))
    (hch : ChunkHolds core p ps) (hopen : ∀ q ∈ ps, fs q ≠ none) :
    ∃ r, conf_zonefiles_parse_thread fs pe core p = some r ∧
      r.trace = p.trace ++ Event.zonefile_begin :: (events_of fs ps ++ [Event.zonefile_end]) ∧
      opened r.trace = opened p.trace ++ ps ∧
      r.total_bytes = p.total_bytes + sizes_of fs ps ∧
      (r.status = SuccessFailure.Success ↔
        pe (p.trace ++ Event.zonefile_begin :: events_of fs ps) = SuccessFailure.Success) ∧
      (r.status = SuccessFailure.Failure ↔
        pe (p.trace ++ Event.zonefile_begin :: events_of fs ps) ≠ SuccessFailure.Success) := by
  obtain ⟨hq, hh, he, ha, hz⟩ := hch
  have hlen := packed_length_ge ps
  have hfuel : p.end_ - p.filename + 1 = ps.length + (p.end_ - p.filename - ps.length + 1) := by
    omega
  have hrun : conf_zonefiles_parse_thread fs pe core p =
      some (finish pe { p with total_bytes := p.total_bytes + sizes_of fs ps,
                               trace := p.trace ++ [Event.zonefile_begin] ++ events_of fs ps }) := by
    unfold conf_zonefiles_parse_thread
    rw [hfuel, parse_loop_prefix fs pe core.names core.alloc p.end_ ps _ p.filename _
      (fun q hq1 => ⟨(hq q hq1).1, (hq q hq1).2, hopen q hq1⟩) hh he ha]
    exact parse_loop_done _ _ _ _ _ _ _ _ hz
  have htr : p.trace ++ [Event.zonefile_begin] ++ events_of fs ps =
      p.trace ++ Event.zonefile_begin :: events_of fs ps := by simp
  refine ⟨_, hrun, ?_, ?_, rfl, ?_, ?_⟩
  · simp [finish]
  · simp [finish, opened_append, opened_events_of, opened]
  · by_cases hc : pe (p.trace ++ Event.zonefile_begin :: events_of fs ps) = SuccessFailure.Success
    · simp [finish, htr, hc]
    · simp [finish, htr, hc]
  · by_cases hc : pe (p.trace ++ Event.zonefile_begin :: events_of fs ps) = SuccessFailure.Success
    · simp [finish, htr, hc]
    · simp [finish, htr, hc]

/-- Witness of C9: the chunk `d/a`, `d/b`, `d/c` with three files that open. -/
theorem worker_all_files_open_witness :
    ChunkHolds sample_core sample_thread [[100, 47, 97], [100, 47, 98], [100, 47, 99]] ∧
    (∀ q ∈ [[100, 47, 97], [100, 47, 98], [100, 47, 99]], sample_fs (some ⟨1, [9]⟩) q ≠ none) ∧
    ∃ r, conf_zonefiles_parse_thread (sample_fs (some ⟨1, [9]⟩)) (fun _ => SuccessFailure.Success)
        sample_core sample_thread = some r ∧
      r.trace = sample_thread.trace ++ Event.zonefile_begin ::
        (events_of (sample_fs (some ⟨1, [9]⟩)) [[100, 47, 97], [100, 47, 98], [100, 47, 99]] ++
          [Event.zonefile_end]) ∧
      opened r.trace = opened sample_thread.trace ++ [[100, 47, 97], [100, 47, 98], [100, 47, 99]] ∧
      r.total_bytes = sample_thread.total_bytes +
        sizes_of (sample_fs (some ⟨1, [9]⟩)) [[100, 47, 97], [100, 47, 98], [100, 47, 99]] ∧
      (r.status = SuccessFailure.Success ↔
        (fun _ => SuccessFailure.Success) (sample_thread.trace ++ Event.zonefile_begin ::
          events_of (sample_fs (some ⟨1, [9]⟩)) [[100, 47, 97], [100, 47, 98], [100, 47, 99]]) =
            SuccessFailure.Success) ∧
      (r.status = SuccessFailure.Failure ↔
        (fun _ => SuccessFailure.Success) (sample_thread.trace ++ Event.zonefile_begin ::
          events_of (sample_fs (some ⟨1, [9]⟩)) [[100, 47, 97], [100, 47, 98], [100, 47, 99]]) ≠
            SuccessFailure.Success) :=
  ⟨sample_chunk_holds, by decide,
    worker_all_files_open _ _ _ _ _ sample_chunk_holds (by decide)⟩

/-- C10: when the chunk holds the paths `before ++ q :: after`, the paths of
`before` can be opened and the file of `q` opens with size 0, the worker
returns, and what it returns is both what its loop returns from the state in
which it reaches `q` and what the loop returns when resumed at the path that
follows `q` from that same state with the single call `fopen q` added to the
trace: the turn for `q` makes no `zonefile_begin_again` and no
`zonefile_parse` call, leaves the byte counter and the status as they were,
and goes on to the next path of the chunk. -/
theorem worker_skips_empty_file (fs : FileSystem) (pe : List Event → SuccessFailure)
    (core : ZoneFiles) (p : XParseThread) (before after : List (List Nat)) (q : List Nat)
    (f : File) (hch : ChunkHolds core p (before ++ q :: after))
    (hopen : ∀ x ∈ before, fs x ≠ none) (hq : fs q = some f) (hsize : f.filesize = 0) :
    ∃ r, conf_zonefiles_parse_thread fs pe core p = some r ∧
      parse_loop fs pe core.names core.alloc p.end_ (after.length + 2)
        (p.filename + (packed before).length)
        { p with total_bytes := p.total_bytes + sizes_of fs before,
                 trace := p.trace ++ Event.zonefile_begin :: events_of fs before } = some r ∧
      parse_loop fs pe core.names core.alloc p.end_ (after.length + 1)
        (p.filename + (packed before).length + q.length + 1)
        { p with total_bytes := p.total_bytes + sizes_of fs before,
                 trace := p.trace ++ Event.zonefile_begin :: events_of fs before ++
                   [Event.fopen q] } = some r := by
  obtain ⟨hqs, hh, he, ha, hz⟩ := hch
  have hlen := packed_length_ge (before ++ q :: after)
  have hpl : (packed (before ++ q :: after)).length =
      (packed before).length + (packed (q :: after)).length := by
    rw [packed_append, List.length_append]
  have hpc := packed_cons_length q after
  rw [packed_append, holds_append] at hh
  simp only [List.length_append, List.length_cons] at hlen
  rw [hpl] at he ha hz hlen
  have hlb := packed_length_ge before
  have hq0 := hqs q (by simp)
  obtain ⟨r, hr⟩ := parse_loop_packed fs pe core.names core.alloc p.end_ (q :: after)
    (p.filename + (packed before).length)
    { p with total_bytes := p.total_bytes + sizes_of fs before,
             trace := p.trace ++ Event.zonefile_begin :: events_of fs before }
    (fun x hx => hqs x (by
      rcases List.mem_cons.1 hx with h | h
      · simp [h]
      · simp [h]))
    hh.2 (by omega) (by omega)
    (by simpa [Nat.add_assoc] using hz)
  have hfuel : p.end_ - p.filename + 1 =
      before.length + (p.end_ - p.filename - before.length + 1) := by omega
  have hrun : conf_zonefiles_parse_thread fs pe core p = some r := by
    unfold conf_zonefiles_parse_thread
    rw [hfuel, parse_loop_prefix fs pe core.names core.alloc p.end_ before _ p.filename _
      (fun x hx => ⟨(hqs x (by simp [hx])).1, (hqs x (by simp [hx])).2, hopen x hx⟩) hh.1
      (by omega) (by omega)]
    rw [← hr (p.end_ - p.filename - before.length + 1) (by simp only [List.length_cons]; omega)]
    congr 1
    simp
  have h2 := hr (after.length + 2) (by simp)
  refine ⟨r, hrun, h2, ?_⟩
  have e : packed (q :: after) = (q ++ [0]) ++ packed after := by simp [packed]
  have hh2 := hh.2
  rw [e, holds_append] at hh2
  have hstep := parse_loop_step fs pe core.names core.alloc p.end_ (after.length + 1)
    (p.filename + (packed before).length)
    { p with total_bytes := p.total_bytes + sizes_of fs before,
             trace := p.trace ++ Event.zonefile_begin :: events_of fs before }
    q hq0.1 hq0.2 hh2.1 (by omega) (by omega)
  rw [hq] at hstep
  have hfe : file_events fs q = [Event.fopen q] := by simp [file_events, hq, hsize]
  have hfz : file_size fs q = 0 := by simp [file_size, hq, hsize]
  simp only [hfe, hfz, Nat.add_zero] at hstep
  rw [show after.length + 2 = after.length + 1 + 1 by omega, hstep] at h2
  rw [← h2]

/-- Witness of C10: the chunk `d/a`, `d/b`, `d/c` where `d/b` is empty. -/
theorem worker_skips_empty_file_witness :
    ChunkHolds sample_core sample_thread ([[100, 47, 97]] ++ [100, 47, 98] :: [[100, 47, 99]]) ∧
    (∀ x ∈ [[100, 47, 97]], sample_fs (some ⟨0, []⟩) x ≠ none) ∧
    sample_fs (some ⟨0, []⟩) [100, 47, 98] = some ⟨0, []⟩ ∧ (⟨0, []⟩ : File).filesize = 0 ∧
    ∃ r, conf_zonefiles_parse_thread (sample_fs (some ⟨0, []⟩)) (fun _ => SuccessFailure.Success)
        sample_core sample_thread = some r ∧
      parse_loop (sample_fs (some ⟨0, []⟩)) (fun _ => SuccessFailure.Success)
        sample_core.names sample_core.alloc sample_thread.end_ ([[100, 47, 99]].length + 2)
        (sample_thread.filename + (packed [[100, 47, 97]]).length)
        { sample_thread with
            total_bytes := sample_thread.total_bytes +
              sizes_of (sample_fs (some ⟨0, []⟩)) [[100, 47, 97]],
            trace := sample_thread.trace ++ Event.zonefile_begin ::
              events_of (sample_fs (some ⟨0, []⟩)) [[100, 47, 97]] } = some r ∧
      parse_loop (sample_fs (some ⟨0, []⟩)) (fun _ => SuccessFailure.Success)
        sample_core.names sample_core.alloc sample_thread.end_ ([[100, 47, 99]].length + 1)
        (sample_thread.filename + (packed [[100, 47, 97]]).length + [100, 47, 98].length + 1)
        { sample_thread with
            total_bytes := sample_thread.total_bytes +
              sizes_of (sample_fs (some ⟨0, []⟩)) [[100, 47, 97]],
            trace := sample_thread.trace ++ Event.zonefile_begin ::
              events_of (sample_fs (some ⟨0, []⟩)) [[100, 47, 97]] ++
                [Event.fopen [100, 47, 98]] } = some r :=
  ⟨sample_chunk_holds, by decide, by decide, rfl,
    worker_skips_empty_file _ _ _ _ _ _ _ ⟨0, []⟩ sample_chunk_holds (by decide) (by decide) rfl⟩

/-- C11: when `conf_zonefiles_parse` gets a list of non-zero length and returns,
it returns `Failure` exactly when at least one of the workers it joined has a
status other than `Success`, and `total_bytes` has grown by exactly the sum of
the byte counters of all those workers, failed ones included; the same holds
for the join loop on every list of completed workers. -/
theorem join_reduces_workers (fs : FileSystem) (pe : List Event → SuccessFailure)
    (garbage : SuccessFailure) (core : ZoneFiles) (r : ParseRun)
    (hlen : core.length ≠ 0) (hrun : conf_zonefiles_parse fs pe garbage core = some r) :
    (r.status = SuccessFailure.Failure ↔ ∃ w ∈ r.workers, w.status ≠ SuccessFailure.Success) ∧
    r.core.total_bytes = core.total_bytes + (r.workers.map (fun w => w.total_bytes)).sum ∧
    ∀ (ws : List XParseThread) (total_bytes : Nat),
      ((join_workers ws (SuccessFailure.Success, total_bytes)).1 = SuccessFailure.Failure ↔
        ∃ w ∈ ws, w.status ≠ SuccessFailure.Success) ∧
      (join_workers ws (SuccessFailure.Success, total_bytes)).2 =
        total_bytes + (ws.map (fun w => w.total_bytes)).sum := by
  have key : ∀ (ws : List XParseThread) (total_bytes : Nat),
      ((join_workers ws (SuccessFailure.Success, total_bytes)).1 = SuccessFailure.Failure ↔
        ∃ w ∈ ws, w.status ≠ SuccessFailure.Success) ∧
      (join_workers ws (SuccessFailure.Success, total_bytes)).2 =
        total_bytes + (ws.map (fun w => w.total_bytes)).sum := by
    intro ws tb
    rw [join_workers_spec]
    refine ⟨?_, rfl⟩
    by_cases h : ∃ w ∈ ws, w.status ≠ SuccessFailure.Success
    · simp only [if_pos h, true_iff]; exact h
    · simp only [if_neg h]
      constructor
      · intro h'; cases h'
      · intro h'; exact absurd h' h
  simp only [conf_zonefiles_parse, if_neg hlen, parse_with] at hrun
  cases hc : chunks_for core (thread_count_for core.total_files) with
  | none => simp [hc] at hrun
  | some cs =>
    simp only [hc] at hrun
    cases hw : run_workers fs pe core garbage cs with
    | none => simp [hw] at hrun
    | some ws =>
      simp only [hw] at hrun
      have := Option.some.inj hrun
      subst this
      exact ⟨(key ws core.total_bytes).1, (key ws core.total_bytes).2, key⟩

/-- Witness of C11: the list `d/a`, `d/b`, `d/c` where `d/b` cannot be opened. -/
theorem join_reduces_workers_witness :
    sample_core.length ≠ 0 ∧
    ∃ r, conf_zonefiles_parse (sample_fs none) (fun _ => SuccessFailure.Success)
        SuccessFailure.Success sample_core = some r ∧
      (r.status = SuccessFailure.Failure ↔ ∃ w ∈ r.workers, w.status ≠ SuccessFailure.Success) ∧
      r.core.total_bytes =
        sample_core.total_bytes + (r.workers.map (fun w => w.total_bytes)).sum ∧
      ∀ (ws : List XParseThread) (total_bytes : Nat),
        ((join_workers ws (SuccessFailure.Success, total_bytes)).1 = SuccessFailure.Failure ↔
          ∃ w ∈ ws, w.status ≠ SuccessFailure.Success) ∧
        (join_workers ws (SuccessFailure.Success, total_bytes)).2 =
          total_bytes + (ws.map (fun w => w.total_bytes)).sum :=
  ⟨by decide, sample_run.elim fun r hr =>
    ⟨r, hr, join_reduces_workers _ _ _ _ r (by decide) hr⟩⟩

/-- C12 (code at the failing input): on the chunk `d/a`, `d/b`, `d/c` where `d/b`
cannot be opened, the calls of the worker are `zonefile_begin`, the calls for
`d/a`, and the failed `fopen` of `d/b`: the worker returns without calling
`zonefile_end`, so the number of `zonefile_end` calls of this run is 0. -/
theorem open_failure_skips_zonefile_end :
    ∃ r, conf_zonefiles_parse_thread (sample_fs none) (fun _ => SuccessFailure.Success)
        sample_core sample_thread = some r ∧
      r.trace = [Event.zonefile_begin, Event.fopen [100, 47, 97],
        Event.zonefile_begin_again 3 [100, 47, 97], Event.zonefile_parse [1, 2, 3],
        Event.fopen [100, 47, 98]] ∧
      r.trace.count Event.zonefile_end = 0 :=
  ⟨_, rfl, by decide, by decide⟩

/-- C13 (code at the failing input): the directory `d` holds `a.zone` (100
bytes), `b.zone` (0 bytes) and `c.txt` (5 bytes), enumerated in that order.
The scan leaves 2 files in the list, with the rolled-back `d/c.txt` right after
them and no NUL at offset `length`; the single worker of `conf_zonefiles_parse`
then opens `d/a.zone`, `d/b.zone` and `d/c.txt`, and the total byte count is
105, not 100. -/
theorem rolled_back_file_is_parsed (heap : Nat → Nat) :
    ∃ core r, directory_to_zonefile_list (conf_init heap) [100] e2e_dir = some core ∧
      core.total_files = 2 ∧
      conf_zonefiles_parse e2e_fs (fun _ => SuccessFailure.Success) SuccessFailure.Success core = some r ∧
      r.workers.map (fun w => opened w.trace) =
        [[[100, 47, 97, 46, 122, 111, 110, 101], [100, 47, 98, 46, 122, 111, 110, 101],
          [100, 47, 99, 46, 116, 120, 116]]] ∧
      r.core.total_bytes = 105 ∧ r.status = SuccessFailure.Success := by
  obtain ⟨core, w, h1, h2, h3, h4, h5, h6, h7, h8, h9, h10⟩ := e2e_core heap
  have hw : run_workers e2e_fs (fun _ => SuccessFailure.Success) core SuccessFailure.Success [(0, 26)]
      = some [w] := by
    simp only [run_workers, conf_zonefiles_parse_thread, h4]
    have : ([] : List Event) ++ [Event.zonefile_begin] = [Event.zonefile_begin] := rfl
    rw [this, h7]
  have hrun : conf_zonefiles_parse e2e_fs (fun _ => SuccessFailure.Success) SuccessFailure.Success core =
      some { status := (join_workers [w] (SuccessFailure.Success, core.total_bytes)).1,
             core := { core with
               total_bytes := (join_workers [w] (SuccessFailure.Success, core.total_bytes)).2 },
             workers := [w] } := by
    simp only [conf_zonefiles_parse, parse_with, zonefile_chunks, chunks_for, h2, h3, h4]
    have htc : thread_count_for 2 = 1 := by decide
    rw [if_neg (by decide), htc, h6]
    simp only [hw]
  refine ⟨core, _, h1, h2, hrun, ?_, ?_, ?_⟩
  · simp [h8]
  · simp [join_workers, h5, h9]
  · simp [join_workers, h10]

/-- C14 (amended): take a well-formed path list (`Recorded`: non-empty
NUL-terminated paths; a second NUL at offset `length`; `length` within the
capacity, as `conf_zonefile_addname` leaves it), any file system, and a parser
whose `zonefile_end` answers `Success` exactly when every file fed to it is
`good`.  For every thread count of at least 1, in particular 1, 2 and 4, lines
373-421 of `conf_zonefiles_parse`, with the workers executed one after
another, return.  If every listed file can be opened, the total byte count has
grown by the sum of the sizes of all listed files and the status is `Success`
exactly when every listed file is `good`: both are the same for every thread
count.  If some listed file cannot be opened, the status is `Failure` for
every thread count (the byte count then depends on the chunks).  For a
non-empty list `conf_zonefiles_parse` is this computation with the thread count
of the sizer. -/
theorem pool_size_independence (fs : FileSystem) (pe : List Event → SuccessFailure)
    (garbage : SuccessFailure) (core : ZoneFiles) (ps : List (List Nat))
    (good : List Nat → Prop)
    (hrec : Recorded core ps) (hwf : ∀ q ∈ ps, q ≠ [] ∧ CStr q)
    (hz : core.names core.length = 0) (hmax : core.length ≤ core.max)
    (hpe : ∀ qs, (∀ q ∈ qs, q ∈ ps) →
      (pe (Event.zonefile_begin :: events_of fs qs) = SuccessFailure.Success ↔
        ∀ q ∈ qs, good q)) :
    (∀ tc, 0 < tc →
      ∃ r, parse_with fs pe garbage core tc = some r ∧
        ((∀ q ∈ ps, fs q ≠ none) →
          r.core.total_bytes = core.total_bytes + sizes_of fs ps ∧
          (r.status = SuccessFailure.Success ↔ ∀ q ∈ ps, good q)) ∧
        ((∃ q ∈ ps, fs q = none) → r.status = SuccessFailure.Failure)) ∧
    (ps ≠ [] →
      conf_zonefiles_parse fs pe garbage core =
        parse_with fs pe garbage core (thread_count_for core.total_files) ∧
      (thread_count_for core.total_files = 1 ∨ thread_count_for core.total_files = 2 ∨
        thread_count_for core.total_files = 4)) := by
  refine ⟨fun tc htc => ?_, fun hne => ⟨?_, ?_⟩⟩
  · obtain ⟨r, parts, hr, hfl, ho, hf⟩ :=
      parse_with_tiles fs pe garbage core ps tc hrec hwf hz hmax htc
    refine ⟨r, hr, fun hopen => ?_, hf⟩
    obtain ⟨ht, hs⟩ := ho hopen
    refine ⟨ht, hs.trans ⟨fun h q hq => ?_, fun h part hp => ?_⟩⟩
    · rw [← hfl, List.mem_flatten] at hq
      obtain ⟨part, hp, hqp⟩ := hq
      have hsub : ∀ x ∈ part, x ∈ ps := fun x hx => by
        rw [← hfl, List.mem_flatten]; exact ⟨part, hp, hx⟩
      exact (hpe part hsub).1 (h part hp) q hqp
    · have hsub : ∀ x ∈ part, x ∈ ps := fun x hx => by
        rw [← hfl, List.mem_flatten]; exact ⟨part, hp, hx⟩
      exact (hpe part hsub).2 (fun q hq => h q (hsub q hq))
  · have hlen : core.length ≠ 0 := by
      rw [hrec.1]
      cases ps with
      | nil => exact absurd rfl hne
      | cons q qs => rw [packed_cons_length]; omega
    simp only [conf_zonefiles_parse, if_neg hlen]
  · unfold thread_count_for
    split_ifs <;> simp

/-- Witness of C14 (amended): the list `d/a`, `d/b`, `d/c` with three files that
open and a parser that always answers `Success`. -/
theorem pool_size_independence_witness :
    Recorded sample_core [[100, 47, 97], [100, 47, 98], [100, 47, 99]] ∧
    (∀ q ∈ [[100, 47, 97], [100, 47, 98], [100, 47, 99]], q ≠ [] ∧ CStr q) ∧
    sample_core.names sample_core.length = 0 ∧ sample_core.length ≤ sample_core.max ∧
    (∀ tc, 0 < tc →
      ∃ r, parse_with (sample_fs (some ⟨1, [9]⟩)) (fun _ => SuccessFailure.Success)
          SuccessFailure.Failure sample_core tc = some r ∧
        ((∀ q ∈ [[100, 47, 97], [100, 47, 98], [100, 47, 99]],
            sample_fs (some ⟨1, [9]⟩) q ≠ none) →
          r.core.total_bytes = sample_core.total_bytes +
            sizes_of (sample_fs (some ⟨1, [9]⟩)) [[100, 47, 97], [100, 47, 98], [100, 47, 99]] ∧
          (r.status = SuccessFailure.Success ↔
            ∀ q ∈ [[100, 47, 97], [100, 47, 98], [100, 47, 99]], (fun _ => True) q)) ∧
        ((∃ q ∈ [[100, 47, 97], [100, 47, 98], [100, 47, 99]],
            sample_fs (some ⟨1, [9]⟩) q = none) → r.status = SuccessFailure.Failure)) ∧
    (([[100, 47, 97], [100, 47, 98], [100, 47, 99]] : List (List Nat)) ≠ [] →
      conf_zonefiles_parse (sample_fs (some ⟨1, [9]⟩)) (fun _ => SuccessFailure.Success)
          SuccessFailure.Failure sample_core =
        parse_with (sample_fs (some ⟨1, [9]⟩)) (fun _ => SuccessFailure.Success)
          SuccessFailure.Failure sample_core (thread_count_for sample_core.total_files) ∧
      (thread_count_for sample_core.total_files = 1 ∨
        thread_count_for sample_core.total_files = 2 ∨
        thread_count_for sample_core.total_files = 4)) :=
  ⟨by unfold Recorded; decide, by unfold CStr; decide, by decide, by decide,
    pool_size_independence (sample_fs (some ⟨1, [9]⟩)) (fun _ => SuccessFailure.Success)
      SuccessFailure.Failure sample_core [[100, 47, 97], [100, 47, 98], [100, 47, 99]]
      (fun _ => True) (by unfold Recorded; decide) (by unfold CStr; decide) (by decide)
      (by decide) (fun qs _ => by simp)⟩

/-- C14 (counterexample): started in the directory `/w`, where `b.zone` holds one
byte and `a.zone` cannot be opened, the arguments `a.zone` and nine times
`b.zone` give a well-formed list of 10 files, for which the sizer chooses 2
threads.  The run returns `Failure` with a total of 4 bytes; lines 373-421 run
on the same list with 1 thread give `Failure` with 0 bytes, and with 4 threads
`Failure` with 7 bytes. -/
theorem pool_totals_differ_counterexample :
    ∃ core r1 r2 r4, add_names (conf_init (fun _ => 0)) pool_args = some core ∧
      Recorded core (pool_args.map path_of) ∧
      (∀ q ∈ pool_args.map path_of, q ≠ [] ∧ CStr q) ∧
      core.names core.length = 0 ∧ core.total_bytes = 0 ∧
      thread_count_for core.total_files = 2 ∧
      conf_zonefiles_parse pool_fs (fun _ => SuccessFailure.Success) SuccessFailure.Success
        core = some r2 ∧
      parse_with pool_fs (fun _ => SuccessFailure.Success) SuccessFailure.Success core 1 =
        some r1 ∧
      parse_with pool_fs (fun _ => SuccessFailure.Success) SuccessFailure.Success core 2 =
        some r2 ∧
      parse_with pool_fs (fun _ => SuccessFailure.Success) SuccessFailure.Success core 4 =
        some r4 ∧
      r1.status = SuccessFailure.Failure ∧ r1.core.total_bytes = 0 ∧
      r2.status = SuccessFailure.Failure ∧ r2.core.total_bytes = 4 ∧
      r4.status = SuccessFailure.Failure ∧ r4.core.total_bytes = 7 := by
  obtain ⟨core, ws1, ws2, ws4, hadd, hlen, htf, htb, hz, hc1, hc2, hc4, hw1, hw2, hw4, hj1, hj2,
    hj4⟩ := pool_core
  obtain ⟨c1, h1, hx1, _⟩ := add_names_extends pool_args (conf_init (fun _ => 0))
    (by simp [conf_init])
  obtain rfl : c1 = core := Option.some.inj (h1.symm.trans hadd)
  have hwf : ∀ q ∈ pool_args.map path_of, q ≠ [] ∧ CStr q := by
    unfold CStr; decide
  have e1 : parse_with pool_fs (fun _ => SuccessFailure.Success) SuccessFailure.Success c1 1 =
      some { status := SuccessFailure.Failure, core := { c1 with total_bytes := 0 },
             workers := ws1 } := by
    simp only [parse_with, chunks_for, hlen, hc1, hw1, htb, hj1]
  have e2 : parse_with pool_fs (fun _ => SuccessFailure.Success) SuccessFailure.Success c1 2 =
      some { status := SuccessFailure.Failure, core := { c1 with total_bytes := 4 },
             workers := ws2 } := by
    simp only [parse_with, chunks_for, hlen, hc2, hw2, htb, hj2]
  have e4 : parse_with pool_fs (fun _ => SuccessFailure.Success) SuccessFailure.Success c1 4 =
      some { status := SuccessFailure.Failure, core := { c1 with total_bytes := 7 },
             workers := ws4 } := by
    simp only [parse_with, chunks_for, hlen, hc4, hw4, htb, hj4]
  have htc : thread_count_for c1.total_files = 2 := by rw [htf]; decide
  refine ⟨c1, _, _, _, hadd, recorded_of_extends hx1, hwf, by rw [hlen]; exact hz, htb, htc, ?_,
    e1, e2, e4, rfl, rfl, rfl, rfl, rfl, rfl⟩
  rw [conf_zonefiles_parse, if_neg (by rw [hlen]; decide), htc]
  exact e2

/-- C15 (code at the failing input): in the second 5000-file run the sizer
suggests 4 threads, the list is well formed, and the chunk loop stops at its
fourth turn on the NUL at offset `length`, so the thread count becomes 3, the
number of chunks produced and of workers `conf_zonefiles_parse` runs and joins;
but the third of these chunks starts at offset 100001 and ends at offset
100000: it is empty and its start is not the first byte of any path. -/
theorem realized_count_includes_empty_chunk (heap : Nat → Nat) :
    ∃ c1 core, add_names (conf_init heap) wide_args = some c1 ∧
      directory_to_zonefile_list c1 bug_wd bug_dir = some core ∧
      Recorded core wide_paths ∧ (∀ q ∈ wide_paths, q ≠ [] ∧ CStr q) ∧
      core.names core.length = 0 ∧
      thread_count_for core.total_files = 4 ∧
      zonefile_chunks core = some [(0, 75000), (75000, 100001), (100001, 100000)] ∧
      chunk_loop core.names core.alloc core.length 4 1 core.length = some [] ∧
      100001 ∉ path_starts 0 wide_paths := by
  obtain ⟨c1, core, h1, h2, hrec, hz, htc, hal, hch⟩ := wide_chunks heap
  refine ⟨c1, core, h1, h2, hrec, wide_paths_wf, hz, htc, hch, ?_, fun h => ?_⟩
  · rw [chunk_loop, if_neg (by omega), if_pos hz]
  · have := path_starts_lt _ _ _ h
    rw [wide_packed_length] at this
    omega

/-- C16 (code at the failing input): for the list of the single file `d/a.zone`
(length 9, second NUL at offset 9, one thread) the chunk produced is
`(0, 10)`: the proposed end equals `names + length`, the test of line 388 does
not clamp it, and the end of the last chunk is `length + 1`, which exceeds the
length of the list. -/
theorem single_chunk_ends_past_length (heap : Nat → Nat) :
    ∃ core, conf_zonefile_addname (conf_init heap) [100] [97, 46, 122, 111, 110, 101] = some core ∧
      core.length = 9 ∧ core.names core.length = 0 ∧
      thread_count_for core.total_files = 1 ∧
      zonefile_chunks core = some [(0, 10)] ∧ core.length < 10 := by
  obtain ⟨core, h1, h2, h3, h4, h5, h6⟩ := single_file_core heap
  have htc : thread_count_for 1 = 1 := by decide
  refine ⟨core, h1, h2, by rw [h2]; exact h5, by rw [h4]; exact htc, ?_, by omega⟩
  simp only [zonefile_chunks, chunks_for, h2, h3, h4, htc]
  exact h6

/-- C17 (code at the failing input): a growth step of `conf_zonefile_addname`
replaces the capacity `max` by `max * 3` (line 94 is `*filenames_max *= 2 + 1`):
one step from the initial capacity 2 gives 6, not `2 * 2 + 1 = 5`, and after
appending `d/a.zone` to the initial list the capacity is 18. -/
theorem growth_step_triples :
    (∀ fuel need max, grow_max (fuel + 1) need max =
      if need > max then grow_max fuel need (max * 3) else some max) ∧
    grow_max 1 4 2 = some 6 ∧ 6 ≠ 2 * 2 + 1 ∧
    ∀ heap, ∃ core,
      conf_zonefile_addname (conf_init heap) [100] [97, 46, 122, 111, 110, 101] = some core ∧
      core.max = 18 :=
  ⟨fun _ _ _ => rfl, by decide, by decide, fun _ => ⟨_, rfl, rfl⟩⟩

/-- C18 (code at the failing input): for the name `adapter[4294967296]`
`parseInt` returns 4294967296, the cast to `unsigned` in `ARRAY` makes it 0, and
`conf_set_parameter` does not take the bad-index branch but goes on with index
0; for `adapter[8]` it takes the branch. -/
theorem index_wraps_to_zero :
    parseInt [52, 50, 57, 52, 57, 54, 55, 50, 57, 54, 93] = 4294967296 ∧
    ARRAY [97, 100, 97, 112, 116, 101, 114, 91, 52, 50, 57, 52, 57, 54, 55, 50, 57, 54, 93] = 0 ∧
    conf_set_parameter_index
      [97, 100, 97, 112, 116, 101, 114, 91, 52, 50, 57, 52, 57, 54, 55, 50, 57, 54, 93] = some 0 ∧
    conf_set_parameter_index [97, 100, 97, 112, 116, 101, 114, 91, 56, 93] = none := by
  refine ⟨by decide, by decide, by decide, by decide⟩

/-- C19: with reads that return the next `min(65536, remaining)` bytes, a worker
whose chunk is the one path `d/a`, a file that is not empty, makes the calls
`zonefile_begin`, `fopen`, `zonefile_begin_again`, one `zonefile_parse` per
block of `fread_blocks`, and `zonefile_end`; the blocks fed each hold between
1 and 65536 bytes, every block but the last holds exactly 65536 bytes, their
concatenation in feed order is the content of the file, and there is at least
one block when the content is not empty. -/
theorem blocks_stream_the_file (content : List Nat) (filesize : Nat)
    (pe : List Event → SuccessFailure) :
    (∃ r, conf_zonefiles_parse_thread (fun _ => some ⟨filesize + 1, content⟩) pe sample_core
        { sample_thread with end_ := 4 } = some r ∧
      r.trace = Event.zonefile_begin :: Event.fopen [100, 47, 97] ::
        Event.zonefile_begin_again (filesize + 1) [100, 47, 97] ::
        ((fread_blocks content.length content).map Event.zonefile_parse ++
          [Event.zonefile_end])) ∧
    (fread_blocks content.length content).flatten = content ∧
    (∀ b ∈ fread_blocks content.length content, 1 ≤ b.length ∧ b.length ≤ 65536) ∧
    (∀ b ∈ (fread_blocks content.length content).dropLast, b.length = 65536) ∧
    (fread_blocks content.length content = [] ↔ content = []) := by
  refine ⟨⟨_, worker_run_open (fun _ => some ⟨filesize + 1, content⟩) pe sample_core
    { sample_thread with end_ := 4 } [[100, 47, 97]] (by unfold ChunkHolds Holds CStr; decide)
    (by simp), ?_⟩, fread_blocks_spec content.length content (le_refl _)⟩
  simp [finish, events_of, file_events, sample_thread]

/-- C20 (code at the failing input): `parseTime` returns 3600 for `hourly` and
for `3600` and 600 for `10-months`, but for `daily`, `Week` and `5days`, which
its header comment lists as supported, it takes the error exit of lines
612-615 (value of one day or more). -/
theorem parse_time_rejects_daily :
    parseTime [104, 111, 117, 114, 108, 121] = some 3600 ∧
    parseTime [100, 97, 105, 108, 121] = none ∧
    parseTime [87, 101, 101, 107] = none ∧
    parseTime [53, 100, 97, 121, 115] = none ∧
    parseTime [49, 48, 45, 109, 111, 110, 116, 104, 115] = some 600 ∧
    parseTime [51, 54, 48, 48] = some 3600 := by
  refine ⟨by decide, by decide, by decide, by decide, by decide, by decide⟩

/-- C21: for all C strings `lhs` and `rhs`, `EQUALS` returns, and it returns 1
exactly when, after deleting every `-`, `.` and `_` from both and
lower-casing, the two strings are equal or the stripped `lhs` followed by `[`
is a prefix of the stripped `rhs`; `exclude-file`, `excludefile` and
`Exclude_File` all match one another. -/
theorem equals_ignores_punctuation (lhs rhs : List Nat) (hl : CStr lhs) (hr : CStr rhs) :
    (∃ b, EQUALS lhs rhs = some b ∧ (b = true ↔ names_match lhs rhs)) ∧
    EQUALS name_exclude_dash name_exclude_plain = some true ∧
    EQUALS name_exclude_plain name_exclude_dash = some true ∧
    EQUALS name_exclude_dash name_exclude_upper = some true ∧
    EQUALS name_exclude_upper name_exclude_dash = some true ∧
    EQUALS name_exclude_plain name_exclude_upper = some true ∧
    EQUALS name_exclude_upper name_exclude_plain = some true :=
  ⟨EQUALS_loop_spec (lhs.length + 1) lhs rhs hl hr (Nat.lt_succ_self _),
    by decide, by decide, by decide, by decide, by decide, by decide⟩

/-- Witness of C21: `adapter` against `Adapter[1]`. -/
theorem equals_ignores_punctuation_witness :
    CStr [97, 100, 97, 112, 116, 101, 114] ∧
    CStr [65, 100, 97, 112, 116, 101, 114, 91, 49, 93] ∧
    (∃ b, EQUALS [97, 100, 97, 112, 116, 101, 114]
        [65, 100, 97, 112, 116, 101, 114, 91, 49, 93] = some b ∧
      (b = true ↔ names_match [97, 100, 97, 112, 116, 101, 114]
        [65, 100, 97, 112, 116, 101, 114, 91, 49, 93])) ∧
    EQUALS name_exclude_dash name_exclude_plain = some true ∧
    EQUALS name_exclude_plain name_exclude_dash = some true ∧
    EQUALS name_exclude_dash name_exclude_upper = some true ∧
    EQUALS name_exclude_upper name_exclude_dash = some true ∧
    EQUALS name_exclude_plain name_exclude_upper = some true ∧
    EQUALS name_exclude_upper name_exclude_plain = some true :=
  ⟨by unfold CStr; decide, by unfold CStr; decide,
    equals_ignores_punctuation _ _ (by unfold CStr; decide) (by unfold CStr; decide)⟩

/-- C22 (code at the failing input): for the array `line[65536]` as `fgets` leaves
it for an empty line of the file (`\n`, NUL), the first loop of `trim` leaves
the empty string at offset 0; the second loop then evaluates
`line[strlen(line)-1]` with `strlen(line) = 0`, the byte before the array, so
the call leaves the block whatever the fuel; the same happens for a line made
only of whitespace.  On the line ` a b \n` the call returns and leaves `a b`. -/
theorem trim_reads_before_empty_line (heap : Nat → Nat) :
    string_at (memcpy heap 0 [10, 0]) 65536 0 = some [10] ∧
    (∃ mem1, trim_leading 65537 (memcpy heap 0 [10, 0]) 65536 0 = some mem1 ∧
      string_at mem1 65536 0 = some [] ∧ find_nul mem1 (65536 - 0) 0 = some 0 ∧
      ∀ fuel, trim_trailing fuel mem1 65536 0 = none) ∧
    trim (memcpy heap 0 [10, 0]) 65536 0 = none ∧
    trim (memcpy heap 0 [32, 32, 10, 0]) 65536 0 = none ∧
    ∃ mem2, trim (memcpy heap 0 [32, 97, 32, 98, 32, 10, 0]) 65536 0 = some mem2 ∧
      string_at mem2 65536 0 = some [97, 32, 98] := by
  refine ⟨rfl, ⟨_, rfl, rfl, rfl, fun fuel => ?_⟩, rfl, rfl, _, rfl, rfl⟩
  cases fuel with
  | zero => rfl
  | succ f => rfl

/-- C23: `ends_with string suffix` returns 1 exactly when `string = p ++ suffix`
for some prefix `p`, and 0 otherwise; it returns 0 whenever the suffix is
longer than the string, and 1 for the empty suffix. -/
theorem ends_with_iff_suffix (string suffix : List Nat) :
    (ends_with string suffix = true ↔ ∃ p, string = p ++ suffix) ∧
    (ends_with string suffix = false ↔ ¬ ∃ p, string = p ++ suffix) ∧
    (string.length < suffix.length → ends_with string suffix = false) ∧
    ends_with string [] = true := by
  have key : ∀ s x : List Nat, ends_with s x = true ↔ ∃ p, s = p ++ x := by
    intro s x
    unfold ends_with
    by_cases h : x.length > s.length
    · rw [if_pos h]
      refine ⟨fun h' => (by cases h'), fun ⟨p, hp⟩ => ?_⟩
      rw [hp, List.length_append] at h
      omega
    · rw [if_neg h, beq_iff_eq]
      constructor
      · intro hd
        refine ⟨s.take (s.length - x.length), ?_⟩
        conv_lhs => rw [← List.take_append_drop (s.length - x.length) s]
        rw [hd]
      · rintro ⟨p, rfl⟩
        simp
  refine ⟨key _ _, ?_, ?_, ?_⟩
  · rw [← key, Bool.not_eq_true]
  · intro h
    unfold ends_with
    rw [if_pos h]
  · exact (key _ _).2 ⟨string, by simp⟩

/-- C24: for every list state with capacity at least 1 and every `dirname` and
`filename`, the growth loop of `conf_zonefile_addname` terminates (within
`need` steps, and without exceeding `3 * need`, where `need` is the length
after the append) and the call returns; the new length is at most the new
capacity; every offset the call writes, the second NUL at the new length
included, is below the new capacity + 2, and the bytes at all other offsets
are unchanged.  With capacity 0 the condition of the growth loop holds after
any number of steps and the call does not return. -/
theorem growth_loop_terminates (core : ZoneFiles) (dirname filename : List Nat)
    (h0 : 0 < core.max) :
    ∃ core1, conf_zonefile_addname core dirname filename = some core1 ∧
      grow_max (core.length + dirname.length + filename.length + 2)
        (core.length + dirname.length + filename.length + 2) core.max = some core1.max ∧
      core.length + dirname.length + filename.length + 2 ≤ core1.max ∧
      (core.length + dirname.length + filename.length + 2 ≤ core.max → core1.max = core.max) ∧
      (core.max < core.length + dirname.length + filename.length + 2 →
        core1.max < 3 * (core.length + dirname.length + filename.length + 2)) ∧
      core1.length = core.length + dirname.length + filename.length + 2 ∧
      core1.names core1.length = 0 ∧
      core1.length ∈ addname_writes core dirname filename ∧
      (∀ i ∈ addname_writes core dirname filename, i < core1.max + 2) ∧
      (∀ i, i ∉ addname_writes core dirname filename → core1.names i = core.names i) ∧
      (∀ fuel, grow_max fuel (core.length + dirname.length + filename.length + 2) 0 = none) ∧
      conf_zonefile_addname { core with max := 0 } dirname filename = none := by
  obtain ⟨m, hm, hneed, hmax⟩ :=
    grow_max_some (core.length + dirname.length + filename.length + 2) core.max h0
  obtain ⟨_, _, hb3, hb4⟩ := grow_max_bound _ _ _ _ h0 hm
  obtain ⟨m', hadd, _, _⟩ := addname_spec core dirname filename h0
  have hmm : m' = m := by
    have h := congrArg (Option.map ZoneFiles.max) hadd
    simp only [conf_zonefile_addname, hm, Option.map_some'] at h
    exact (Option.some.inj h).symm
  subst hmm
  obtain ⟨c1, hc1, _, hz, _⟩ := addname_extends core dirname filename h0
  have hc : c1 = _ := Option.some.inj (hc1.symm.trans hadd)
  rw [hc] at hz
  refine ⟨_, hadd, hm, hneed, hb3, hb4, rfl, hz, ?_, ?_, ?_, ?_, ?_⟩
  · rw [mem_addname_writes]
    dsimp only
    omega
  · intro i hi
    rw [mem_addname_writes] at hi
    show i < m' + 2
    omega
  · intro i hi
    rw [mem_addname_writes] at hi
    show memcpy core.names core.length (dirname ++ slash :: (filename ++ [0, 0])) i = _
    unfold memcpy
    rw [if_neg (by simp; omega)]
  · intro fuel
    exact grow_max_zero fuel _ (by omega)
  · simp only [conf_zonefile_addname]
    rw [grow_max_zero _ _ (by omega)]

/-- Witness of C24: the first append `d/a.zone` to the initial list (capacity 2). -/
theorem growth_loop_terminates_witness :
    0 < (conf_init (fun _ => 0)).max ∧
    ∃ core1, conf_zonefile_addname (conf_init (fun _ => 0)) [100] [97, 46, 122, 111, 110, 101] =
        some core1 ∧
      grow_max ((conf_init (fun _ => 0)).length + [100].length +
          [97, 46, 122, 111, 110, 101].length + 2)
        ((conf_init (fun _ => 0)).length + [100].length +
          [97, 46, 122, 111, 110, 101].length + 2) (conf_init (fun _ => 0)).max =
        some core1.max ∧
      (conf_init (fun _ => 0)).length + [100].length + [97, 46, 122, 111, 110, 101].length + 2 ≤
        core1.max ∧
      ((conf_init (fun _ => 0)).length + [100].length + [97, 46, 122, 111, 110, 101].length + 2 ≤
        (conf_init (fun _ => 0)).max → core1.max = (conf_init (fun _ => 0)).max) ∧
      ((conf_init (fun _ => 0)).max <
          (conf_init (fun _ => 0)).length + [100].length +
            [97, 46, 122, 111, 110, 101].length + 2 →
        core1.max < 3 * ((conf_init (fun _ => 0)).length + [100].length +
          [97, 46, 122, 111, 110, 101].length + 2)) ∧
      core1.length = (conf_init (fun _ => 0)).length + [100].length +
        [97, 46, 122, 111, 110, 101].length + 2 ∧
      core1.names core1.length = 0 ∧
      core1.length ∈ addname_writes (conf_init (fun _ => 0)) [100] [97, 46, 122, 111, 110, 101] ∧
      (∀ i ∈ addname_writes (conf_init (fun _ => 0)) [100] [97, 46, 122, 111, 110, 101],
        i < core1.max + 2) ∧
      (∀ i, i ∉ addname_writes (conf_init (fun _ => 0)) [100] [97, 46, 122, 111, 110, 101] →
        core1.names i = (conf_init (fun _ => 0)).names i) ∧
      (∀ fuel, grow_max fuel ((conf_init (fun _ => 0)).length + [100].length +
        [97, 46, 122, 111, 110, 101].length + 2) 0 = none) ∧
      conf_zonefile_addname { conf_init (fun _ => 0) with max := 0 } [100]
        [97, 46, 122, 111, 110, 101] = none :=
  ⟨by decide, growth_loop_terminates _ _ _ (by decide)⟩

/-- C25: for every MAC address `m` of six bytes, `parse_mac_address` applied to
the text that the format `%02x:%02x:%02x:%02x:%02x:%02x` of `conf_echo_nic`
prints for it (six pairs of lower-case hexadecimal digits separated by `:`)
returns 0 and stores exactly `m`. -/
theorem mac_round_trip (m : List Nat) (hlen : m.length = 6) (hb : ∀ b ∈ m, b < 256) :
    parse_mac_address (mac_text m) = some m ∧
    mac_text m = print_02x (m.getD 0 0) ++ 58 :: (print_02x (m.getD 1 0) ++
      58 :: (print_02x (m.getD 2 0) ++ 58 :: (print_02x (m.getD 3 0) ++
        58 :: (print_02x (m.getD 4 0) ++ 58 :: print_02x (m.getD 5 0))))) := by
  obtain ⟨a, b, c, d, e, f, rfl⟩ : ∃ a b c d e f, m = [a, b, c, d, e, f] := by
    match m, hlen with
    | [a, b, c, d, e, f], _ => exact ⟨a, b, c, d, e, f, rfl⟩
  have htext : mac_text [a, b, c, d, e, f] = print_02x a ++ 58 :: (print_02x b ++
      58 :: (print_02x c ++ 58 :: (print_02x d ++ 58 :: (print_02x e ++ 58 :: print_02x f)))) :=
    rfl
  refine ⟨?_, htext⟩
  have h6 : print_02x f = print_02x f ++ [] := (List.append_nil _).symm
  rw [htext, h6, parse_mac_address,
    parse_mac_step 5 a _ _ (hb a (by simp)) (Or.inr ⟨_, rfl⟩), List.tail_cons,
    parse_mac_step 4 b _ _ (hb b (by simp)) (Or.inr ⟨_, rfl⟩), List.tail_cons,
    parse_mac_step 3 c _ _ (hb c (by simp)) (Or.inr ⟨_, rfl⟩), List.tail_cons,
    parse_mac_step 2 d _ _ (hb d (by simp)) (Or.inr ⟨_, rfl⟩), List.tail_cons,
    parse_mac_step 1 e _ _ (hb e (by simp)) (Or.inr ⟨_, rfl⟩), List.tail_cons,
    parse_mac_step 0 f _ _ (hb f (by simp)) (Or.inl rfl)]
  rfl

/-- Witness of C25: the address `00:11:ab:ff:09:a0`. -/
theorem mac_round_trip_witness :
    [0, 17, 171, 255, 9, 160].length = 6 ∧ (∀ b ∈ [0, 17, 171, 255, 9, 160], b < 256) ∧
    parse_mac_address (mac_text [0, 17, 171, 255, 9, 160]) = some [0, 17, 171, 255, 9, 160] ∧
    mac_text [0, 17, 171, 255, 9, 160] =
      print_02x ([0, 17, 171, 255, 9, 160].getD 0 0) ++ 58 ::
        (print_02x ([0, 17, 171, 255, 9, 160].getD 1 0) ++
      58 :: (print_02x ([0, 17, 171, 255, 9, 160].getD 2 0) ++
        58 :: (print_02x ([0, 17, 171, 255, 9, 160].getD 3 0) ++
        58 :: (print_02x ([0, 17, 171, 255, 9, 160].getD 4 0) ++
          58 :: print_02x ([0, 17, 171, 255, 9, 160].getD 5 0))))) :=
  ⟨rfl, by decide, mac_round_trip _ rfl (by decide)⟩

/-- C26: for every configuration whose path list has length 0,
`conf_zonefiles_parse` returns `Failure`; no worker has been started, so the
parser has not been called, and the configuration, `total_bytes` included, is
unchanged. -/
theorem empty_list_fails_at_once (fs : FileSystem) (pe : List Event → SuccessFailure)
    (garbage : SuccessFailure) (core : ZoneFiles) (h : core.length = 0) :
    ∃ r, conf_zonefiles_parse fs pe garbage core = some r ∧
      r.status = SuccessFailure.Failure ∧ r.workers = [] ∧ r.core = core ∧
      r.core.total_bytes = core.total_bytes :=
  ⟨_, by rw [conf_zonefiles_parse, if_pos h], rfl, rfl, rfl, rfl⟩

/-- Witness of C26: the configuration `conf_init` leaves. -/
theorem empty_list_fails_at_once_witness :
    (conf_init (fun _ => 0)).length = 0 ∧
    ∃ r, conf_zonefiles_parse (sample_fs none) (fun _ => SuccessFailure.Success)
        SuccessFailure.Success (conf_init (fun _ => 0)) = some r ∧
      r.status = SuccessFailure.Failure ∧ r.workers = [] ∧ r.core = conf_init (fun _ => 0) ∧
      r.core.total_bytes = (conf_init (fun _ => 0)).total_bytes :=
  ⟨rfl, empty_list_fails_at_once _ _ _ _ rfl⟩

end RobDns
